import Mathlib

/-!
Verification of the ezbson BSON codec (serialize.go / deserialize.go).

The Go code is shallowly embedded: byte buffers are `List Nat` (each entry a
byte value), Go's `reflect`-driven value universe is the inductive `GoVal`,
and decode-target types (the `reflect.Type` of the pointer passed to
`Unmarshal`) are the inductive `Rtype`.  Fallible Go functions returning
`(..., error)` become `Except`/product-with-`Option` results; a Go runtime
panic (e.g. `reflect.Value.Interface` on the zero `Value`, `make` with a
negative length, a failed type assertion `x.(*T)`) is modelled by the
distinguished error value `.crash`.
-/

namespace Ezbson

/-- A byte buffer: each entry is one byte (values are < 256 whenever the
bytes were produced by the encoder). -/
abbrev Bytes := List Nat

/-- `math.MaxInt32`. -/
def maxInt32 : Nat := 2147483647

/-! ## Element type constants (serialize.go lines 24-47).
Wire tags are single bytes, modelled as `Nat`. -/

def kEtypeDone : Nat := 0x00
def kEtypeDouble : Nat := 0x01
def kEtypeString : Nat := 0x02
def kEtypeDocument : Nat := 0x03
def kEtypeArray : Nat := 0x04
def kEtypeBinary : Nat := 0x05
def kEtypeBoolean : Nat := 0x08
def kEtypeUtcDatetime : Nat := 0x09
def kEtypeInt32 : Nat := 0x10
def kEtypeInt64 : Nat := 0x12

def kBinarySubtype : Nat := 0
def kNullTerminator : Nat := 0

/-! ## Little-endian codecs (convertInt32ToBytes / convertInt64ToBytes /
convertFloat64ToBytes and encoding/binary little-endian reads).
A float64 is carried by its IEEE-754 bit pattern (a `Nat` below `2^64`);
`binary.Write`/`binary.Read` merely copy those bits, so the embedding
never needs real floating-point arithmetic. -/

/-- The 4 little-endian bytes of `n % 2^32`. -/
def le32 (n : Nat) : Bytes :=
  [n % 256, n / 256 % 256, n / 65536 % 256, n / 16777216 % 256]

/-- The 8 little-endian bytes of `n % 2^64`. -/
def le64 (n : Nat) : Bytes :=
  [n % 256, n / 256 % 256, n / 65536 % 256, n / 16777216 % 256,
   n / 4294967296 % 256, n / 1099511627776 % 256,
   n / 281474976710656 % 256, n / 72057594037927936 % 256]

/-- Two's-complement little-endian bytes of an `int32` value. -/
def le32i (z : Int) : Bytes := le32 (z % 4294967296).toNat

/-- Two's-complement little-endian bytes of an `int64` value. -/
def le64i (z : Int) : Bytes := le64 (z % 18446744073709551616).toNat

/-- Unsigned little-endian value of a byte list. -/
def leNat : Bytes → Nat
  | [] => 0
  | b :: rest => b % 256 + 256 * leNat rest

/-- Reduce an integer into the `int32` range (two's complement wrap),
modelling Go `int32` arithmetic. -/
def wrap32 (z : Int) : Int := (z + 2147483648) % 4294967296 - 2147483648

/-- Reduce an integer into the `int64` range (two's complement wrap). -/
def wrap64 (z : Int) : Int :=
  (z + 9223372036854775808) % 18446744073709551616 - 9223372036854775808

/-- The signed `int32` stored little-endian in (the first 4 bytes of) `bs`. -/
def int32OfLe (bs : Bytes) : Int := wrap32 (leNat (bs.take 4))

/-- The signed `int64` stored little-endian in (the first 8 bytes of) `bs`. -/
def int64OfLe (bs : Bytes) : Int := wrap64 (leNat (bs.take 8))

/-! ## The Go value universe (encode inputs / decode outputs).

Go values reachable by the codec.  A Go map (iteration order is not part of
the value, so an association list here records one possible iteration
order), a struct (association list in declared field order), and a slice
are the three container shapes.  `vPtrNil`/`vPtrTo` model a typed pointer,
`vNilIface` the nil `interface{}` value (the zero value of an `any` field),
and `vOtherType` stands for any value whose type the codec does not
support (`chan`, `func`, `uint8`, ...). -/

inductive GoVal where
  | vFloat (bits : Nat)
  | vString (s : Bytes)
  | vBinary (b : Bytes)
  | vBool (b : Bool)
  | vTime (millis : Int)
  | vInt32 (n : Int)
  | vInt (n : Int)
  | vInt64 (n : Int)
  | vDoc (pairs : List (Bytes × GoVal))
  | vStruct (fields : List (Bytes × GoVal))
  | vArr (elems : List GoVal)
  | vPtrNil
  | vPtrTo (v : GoVal)
  | vNilIface
  | vOtherType

/-! ## Decode-target types.

The `reflect.Type` universe seen by `Unmarshal`: the declared type of the
location being filled.  `rAny` is the empty interface; `rUint8` appears as
the element type of `[]byte` when it is traversed as an array target;
`rTime` (`time.Time`) is treated as an opaque scalar. -/

inductive Rtype where
  | rFloat64
  | rString
  | rBytes
  | rBool
  | rTime
  | rInt32
  | rInt64
  | rInt
  | rUint8
  | rAny
  | rStruct (fields : List (Bytes × Rtype))
  | rMap (elem : Rtype)
  | rSlice (elem : Rtype)

/-- The zero `GoVal` of a declared type (`reflect.New(t)`'s pointee).
The zero of `rUint8` is outside the codec's value universe and is marked
`vOtherType`; the zero of `any` is the nil interface. -/
def zeroVal : Rtype → GoVal
  | .rFloat64 => .vFloat 0
  | .rString => .vString []
  | .rBytes => .vBinary []
  | .rBool => .vBool false
  | .rTime => .vTime 0
  | .rInt32 => .vInt32 0
  | .rInt64 => .vInt64 0
  | .rInt => .vInt 0
  | .rUint8 => .vOtherType
  | .rAny => .vNilIface
  | .rStruct fields => .vStruct (zeroFields fields)
  | .rMap _ => .vDoc []
  | .rSlice _ => .vArr []
where zeroFields : List (Bytes × Rtype) → List (Bytes × GoVal)
  | [] => []
  | (n, t) :: rest => (n, zeroVal t) :: zeroFields rest

/-! ## Byte-wise string order (sort.Strings). -/

/-- Lexicographic byte-wise `≤` on strings, the order used by
`sort.Strings` in `sortedKeys` (serialize.go lines 405-413). -/
def bytesLe : Bytes → Bytes → Bool
  | [], _ => true
  | _ :: _, [] => false
  | a :: as, b :: bs => if a < b then true else if b < a then false else bytesLe as bs

/-- `bytesLe` as a relation on key/value pairs, comparing keys. -/
def keyLe (p q : Bytes × GoVal) : Prop := bytesLe p.1 q.1 = true

instance : DecidableRel keyLe := fun p q =>
  inferInstanceAs (Decidable (bytesLe p.1 q.1 = true))

instance : IsTotal (Bytes × GoVal) keyLe where
  total p q := by
    unfold keyLe
    induction p.1 generalizing q with
    | nil => simp [bytesLe]
    | cons a as ih =>
      match h : q.1 with
      | [] => simp [bytesLe]
      | b :: bs =>
        by_cases hab : a < b
        · simp [bytesLe, hab]
        · by_cases hba : b < a
          · simp [bytesLe, hba, Nat.lt_asymm hba]
          · have hstep := ih ⟨bs, q.2⟩
            simp only at hstep
            simp [bytesLe, hab, hba]
            exact hstep

instance : IsTrans (Bytes × GoVal) keyLe where
  trans p q r := by
    unfold keyLe
    induction p.1 generalizing q r with
    | nil => simp [bytesLe]
    | cons a as ih =>
      match hq : q.1, hr : r.1 with
      | [], _ => simp [bytesLe]
      | _ :: _, [] => simp [bytesLe]
      | b :: bs, c :: cs =>
        intro h1 h2
        simp only [bytesLe] at h1 h2 ⊢
        split at h1
        · next hab =>
          split at h2
          · next hbc => simp [Nat.lt_trans hab hbc]
          · next hbc =>
            split at h2
            · exact absurd h2 (by simp)
            · next hcb =>
              have hbc' : b ≤ c := Nat.le_of_not_lt (by omega)
              have : a < c := by omega
              simp [this]
        · next hab =>
          split at h1
          · exact absurd h1 (by simp)
          · next hba =>
            have hab' : a = b := by omega
            subst hab'
            split at h2
            · next hac => simp [hac]
            · next hac =>
              split at h2
              · exact absurd h2 (by simp)
              · next hca =>
                simp only [if_neg hac, if_neg hca]
                exact ih ⟨bs, q.2⟩ ⟨cs, r.2⟩ h1 h2

/-- Sort a document's pairs by key.  The source computes
`sortedKeys(doc)` (collect the map's keys, `sort.Strings` them) and then
iterates `doc[key]`; since a Go map's keys are distinct, iterating the
pairs sorted by key is the same traversal.  The result is packaged with
its `encSizeP`-preservation proof for the encoder's termination measure,
stated below, after `encSizeP` exists (see `sortPairsS`). -/
def sortPairs (doc : List (Bytes × GoVal)) : List (Bytes × GoVal) :=
  List.insertionSort keyLe doc

/-- `sortedKeys` (serialize.go lines 405-413): the document's keys in
ascending byte-wise order. -/
def sortedKeys (doc : List (Bytes × GoVal)) : List Bytes :=
  List.insertionSort (fun a b => bytesLe a b = true) (doc.map Prod.fst)

/-! ## Encoder (serialize.go). -/

/-- Encode-side errors.  `crash` is a Go runtime panic (not an `error`
return); the others correspond to the `fmt.Errorf` sites in serialize.go.
The `fmt.Errorf("key %v: %w", ...)` wrappers only add path context, so the
model propagates the underlying kind unchanged. -/
inductive EErr where
  | crash
  | unsupportedType
  | sizeTooBig
  | invalidEname
  | topLevelType
  deriving DecidableEq

/-- `getEtype` (serialize.go lines 63-102).  A nil pointer reaches
`reflect.ValueOf(val).Elem().Interface()`, which panics on the zero
`Value`; a nil interface makes `reflect.TypeOf(val)` return nil and
`.Kind()` panic. -/
def getEtype : GoVal → Except EErr Nat
  | .vPtrNil => .error .crash
  | .vPtrTo w => getEtype w
  | .vNilIface => .error .crash
  | .vFloat _ => .ok kEtypeDouble
  | .vString _ => .ok kEtypeString
  | .vBinary _ => .ok kEtypeBinary
  | .vBool _ => .ok kEtypeBoolean
  | .vTime _ => .ok kEtypeUtcDatetime
  | .vInt32 _ => .ok kEtypeInt32
  | .vInt _ => .ok kEtypeInt64
  | .vInt64 _ => .ok kEtypeInt64
  | .vDoc _ => .ok kEtypeDocument
  | .vStruct _ => .ok kEtypeDocument
  | .vArr _ => .ok kEtypeArray
  | .vOtherType => .error .unsupportedType

/-- `validateEname` (serialize.go lines 336-343): no null byte in a key. -/
def validateEname (ename : Bytes) : Option EErr :=
  if ename.contains 0 then some .invalidEname else none

/-- Decimal ASCII bytes of an index, as produced by `strconv.Itoa` in
`convertReflectSliceToMapStringAny` (48 is ASCII '0'). -/
def decKey (i : Nat) : Bytes :=
  if i < 10 then [48 + i]
  else decKey (i / 10) ++ [48 + i % 10]
termination_by i
decreasing_by omega

/-! Termination measure for the encoder: the structural size of the
`GoVal` content, ignoring keys (keys are rearranged by sorting and
invented by the slice-to-document conversion, so they cannot take part in
the measure). -/

mutual
def encSize : GoVal → Nat
  | .vDoc pairs => 2 + encSizeP pairs
  | .vStruct fields => 2 + encSizeP fields
  | .vArr elems => 3 + encSizeL elems
  | .vPtrTo v => 1 + encSize v
  | _ => 1
def encSizeP : List (Bytes × GoVal) → Nat
  | [] => 0
  | p :: rest => 1 + encSize p.2 + encSizeP rest
def encSizeL : List GoVal → Nat
  | [] => 0
  | v :: rest => 1 + encSize v + encSizeL rest
end

/-- `convertReflectSliceToMapStringAny` (serialize.go lines 326-334):
`[100, "hello"] -> {"0": 100, "1": "hello"}`, pairs listed in index order
(the order is irrelevant: `appendMap` re-sorts).  Packaged with its
measure-preservation fact for termination. -/
def convertSliceToPairs (i : Nat) :
    (elems : List GoVal) → {l : List (Bytes × GoVal) // encSizeP l = encSizeL elems}
  | [] => ⟨[], rfl⟩
  | v :: rest =>
    ⟨(decKey i, v) :: (convertSliceToPairs (i + 1) rest).1, by
      simp [encSizeP, encSizeL, (convertSliceToPairs (i + 1) rest).2]⟩

/-- `sortPairs` packaged with its measure-preservation fact (sorting is a
permutation, and `encSizeP` is permutation-invariant). -/
def sortPairsS (doc : List (Bytes × GoVal)) :
    {l : List (Bytes × GoVal) // encSizeP l = encSizeP doc} :=
  ⟨sortPairs doc, by
    have key : ∀ l1 l2 : List (Bytes × GoVal), l1.Perm l2 → encSizeP l1 = encSizeP l2 := by
      intro l1 l2 h
      induction h with
      | nil => rfl
      | cons x _ ih => simp [encSizeP, ih]
      | swap x y _ => simp [encSizeP]; omega
      | trans _ _ ih1 ih2 => omega
    exact key _ _ (List.perm_insertionSort keyLe doc)⟩

mutual
/-- `appendAny` (serialize.go lines 104-158): append one value's payload.
Returns the (possibly partially extended) buffer and an optional error,
mirroring the Go `([]byte, error)` signature.  A nil pointer panics inside
`reflect` (`Elem().Interface()` on nil), modelled as `.crash`. -/
def appendAny (buffer : Bytes) (v : GoVal) : Bytes × Option EErr :=
  match v with
  | .vPtrNil => (buffer, some .crash)
  | .vPtrTo w => appendAny buffer w
  | .vNilIface => (buffer, some .crash)
  | .vBinary b =>
    if b.length > maxInt32 then (buffer, some .sizeTooBig)
    else (buffer ++ le32 b.length ++ kBinarySubtype :: b, none)
  | .vString s =>
    if s.length + 1 > maxInt32 then (buffer, some .sizeTooBig)
    else (buffer ++ le32 (s.length + 1) ++ s ++ [kNullTerminator], none)
  | .vFloat bits => (buffer ++ le64 bits, none)
  | .vBool b => (buffer ++ [if b then 1 else 0], none)
  | .vTime ms => (buffer ++ le64i ms, none)
  | .vInt32 n => (buffer ++ le32i n, none)
  | .vInt n => (buffer ++ le64i n, none)
  | .vInt64 n => (buffer ++ le64i n, none)
  | .vDoc pairs => appendMap buffer pairs
  | .vStruct fields => appendMap buffer fields
  | .vArr elems => appendMap buffer (convertSliceToPairs 0 elems).1
  | .vOtherType => (buffer, some .unsupportedType)
termination_by encSize v
decreasing_by
  · simp [encSize]
  · simp [encSize]
  · simp [encSize]
  · rw [(convertSliceToPairs 0 elems).2]; simp [encSize]

/-- `appendMap` (serialize.go lines 160-206): reserve a 4-byte size
placeholder, emit the elements with keys in sorted order, append the
terminator, then back-patch the placeholder with the total size (`copy`
at `startPos`).  On overflow the source returns a nil buffer. -/
def appendMap (buffer : Bytes) (doc : List (Bytes × GoVal)) : Bytes × Option EErr :=
  let startPos := buffer.length
  let buffer1 := buffer ++ le32 0
  match appendMapLoop buffer1 (sortPairsS doc).1 with
  | (buf2, some e) => (buf2, some e)
  | (buf2, none) =>
    let buf3 := buf2 ++ [kEtypeDone]
    let totalSize := buf3.length - startPos
    if totalSize > maxInt32 then ([], some .sizeTooBig)
    else (buf3.take startPos ++ le32 totalSize ++ buf3.drop (startPos + 4), none)
termination_by 1 + encSizeP doc
decreasing_by
  rw [(sortPairsS doc).2]; omega

/-- The per-key loop body of `appendMap`: validate the key, classify the
value, emit `[tag][key][0x00][payload]`. -/
def appendMapLoop (buffer : Bytes) : List (Bytes × GoVal) → Bytes × Option EErr
  | [] => (buffer, none)
  | (key, val) :: rest =>
    match validateEname key with
    | some e => (buffer, some e)
    | none =>
      match getEtype val with
      | .error e => (buffer, some e)
      | .ok et =>
        match appendAny (buffer ++ et :: (key ++ [kNullTerminator])) val with
        | (buf2, some e) => (buf2, some e)
        | (buf2, none) => appendMapLoop buf2 rest
termination_by l => encSizeP l
decreasing_by
  · simp [encSizeP]; omega
  · simp [encSizeP]
end

/-! A compositional restatement of the encoder: `appendAny buffer v`
only ever appends to `buffer` (and the back-patch rewrites the 4
placeholder bytes it reserved itself), so the emitted bytes of a value
are a function of the value alone.  `encAny` computes exactly those
bytes; the agreement with `appendAny` is proved below
(`appendAny_eq_encAny`).  All universal statements about the encoder's
output are phrased over `encAny`/`encDoc`. -/

mutual
/-- The bytes `appendAny` emits for `v` (or its error). -/
def encAny : GoVal → Except EErr Bytes
  | .vPtrNil => .error .crash
  | .vPtrTo w => encAny w
  | .vNilIface => .error .crash
  | .vBinary b =>
    if b.length > maxInt32 then .error .sizeTooBig
    else .ok (le32 b.length ++ kBinarySubtype :: b)
  | .vString s =>
    if s.length + 1 > maxInt32 then .error .sizeTooBig
    else .ok (le32 (s.length + 1) ++ s ++ [kNullTerminator])
  | .vFloat bits => .ok (le64 bits)
  | .vBool b => .ok [if b then 1 else 0]
  | .vTime ms => .ok (le64i ms)
  | .vInt32 n => .ok (le32i n)
  | .vInt n => .ok (le64i n)
  | .vInt64 n => .ok (le64i n)
  | .vDoc pairs => encDoc pairs
  | .vStruct fields => encDoc fields
  | .vArr elems => encDoc (convertSliceToPairs 0 elems).1
  | .vOtherType => .error .unsupportedType
termination_by v => encSize v
decreasing_by
  · simp [encSize]
  · simp [encSize]
  · simp [encSize]
  · rw [(convertSliceToPairs 0 elems).2]; simp [encSize]

/-- The bytes `appendMap` emits for a document: size header, sorted
elements, terminator. -/
def encDoc (doc : List (Bytes × GoVal)) : Except EErr Bytes :=
  match encElems (sortPairsS doc).1 with
  | .error e => .error e
  | .ok body =>
    if 4 + body.length + 1 > maxInt32 then .error .sizeTooBig
    else .ok (le32 (4 + body.length + 1) ++ body ++ [kEtypeDone])
termination_by 1 + encSizeP doc
decreasing_by
  rw [(sortPairsS doc).2]; omega

/-- The concatenated element encodings of an (already sorted) pair list. -/
def encElems : List (Bytes × GoVal) → Except EErr Bytes
  | [] => .ok []
  | (key, val) :: rest =>
    match validateEname key with
    | some e => .error e
    | none =>
      match getEtype val with
      | .error e => .error e
      | .ok et =>
        match encAny val with
        | .error e => .error e
        | .ok bs =>
          match encElems rest with
          | .error e => .error e
          | .ok rbs => .ok (et :: (key ++ [kNullTerminator]) ++ bs ++ rbs)
termination_by l => encSizeP l
decreasing_by
  · simp [encSizeP]; omega
  · simp [encSizeP]
end

/-- `Marshal` (serialize.go lines 290-312).  `validate64bit` always
succeeds on the modelled (64-bit) architecture.  Pointers are
dereferenced (a nil pointer panics inside `reflect`); the top-level check
is by reflect *kind*: maps and structs pass — and `time.Time` also has
kind `Struct`, so a top-level `time.Time` passes the check and
`appendAny`'s `case time.Time` emits a bare 8-byte int64 with no length
header.  On error the Go function returns a nil buffer, so the model
returns only the error. -/
def Marshal (document : GoVal) : Except EErr Bytes :=
  match document with
  | .vPtrNil => .error .crash
  | .vPtrTo w => Marshal w
  | .vNilIface => .error .crash
  | .vDoc pairs =>
    (match appendAny [] (.vDoc pairs) with
     | (_, some e) => .error e
     | (buf, none) => .ok buf)
  | .vStruct fields =>
    (match appendAny [] (.vStruct fields) with
     | (_, some e) => .error e
     | (buf, none) => .ok buf)
  | .vTime ms =>
    (match appendAny [] (.vTime ms) with
     | (_, some e) => .error e
     | (buf, none) => .ok buf)
  | _ => .error .topLevelType

/-! ## Derived encode-side notions used by the statements below. -/

/-! Bad-key detection. -/

mutual
/-- Does a value contain, anywhere, a document/struct node one of whose
keys has an embedded null byte?  (The condition `validateEname` rejects.) -/
def hasBadKey : GoVal → Bool
  | .vDoc pairs => hasBadKeyP pairs
  | .vStruct fields => hasBadKeyP fields
  | .vArr elems => hasBadKeyL elems
  | .vPtrTo w => hasBadKey w
  | _ => false
termination_by v => encSize v
decreasing_by
  · simp [encSize]
  · simp [encSize]
  · simp [encSize]
  · simp [encSize]
def hasBadKeyP : List (Bytes × GoVal) → Bool
  | [] => false
  | p :: rest => p.1.contains 0 || hasBadKey p.2 || hasBadKeyP rest
termination_by l => encSizeP l
decreasing_by
  · simp [encSizeP]; omega
  · simp [encSizeP]
def hasBadKeyL : List GoVal → Bool
  | [] => false
  | v :: rest => hasBadKey v || hasBadKeyL rest
termination_by l => encSizeL l
decreasing_by
  · simp [encSizeL]; omega
  · simp [encSizeL]
end

/-- No duplicates in a key list (a Go map cannot have two equal keys, and
a Go struct cannot have two equal field names). -/
def dupFree : List Bytes → Bool
  | [] => true
  | k :: rest => !rest.contains k && dupFree rest

/-! Key well-formedness. -/

mutual
/-- All document/struct nodes of a value have pairwise distinct keys —
automatic for values that exist in Go. -/
def wfKeys : GoVal → Bool
  | .vDoc pairs => dupFree (pairs.map Prod.fst) && wfKeysP pairs
  | .vStruct fields => dupFree (fields.map Prod.fst) && wfKeysP fields
  | .vArr elems => wfKeysL elems
  | .vPtrTo w => wfKeys w
  | _ => true
termination_by v => encSize v
decreasing_by
  · simp [encSize]
  · simp [encSize]
  · simp [encSize]
  · simp [encSize]
def wfKeysP : List (Bytes × GoVal) → Bool
  | [] => true
  | p :: rest => wfKeys p.2 && wfKeysP rest
termination_by l => encSizeP l
decreasing_by
  · simp [encSizeP]; omega
  · simp [encSizeP]
def wfKeysL : List GoVal → Bool
  | [] => true
  | v :: rest => wfKeys v && wfKeysL rest
termination_by l => encSizeL l
decreasing_by
  · simp [encSizeL]; omega
  · simp [encSizeL]
end

/-! Logical-content canonicalization.  Two Go documents have the same
logical key/value content exactly when their canonical forms coincide:
`canon` forgets a map's iteration order (sorting its pairs), the
struct/map distinction (both encode as documents), pointer indirections
(the encoder dereferences them), and the `int`/`int64` distinction (both
encode as the int64 wire type). -/

mutual
/-- Canonical form of a value's logical content. -/
def canon : GoVal → GoVal
  | .vDoc pairs => .vDoc (sortPairs (canonPairs pairs))
  | .vStruct fields => .vDoc (sortPairs (canonPairs fields))
  | .vArr elems => .vArr (canonList elems)
  | .vPtrTo w => canon w
  | .vInt n => .vInt64 n
  | v => v
termination_by v => encSize v
decreasing_by
  · simp [encSize]
  · simp [encSize]
  · simp [encSize]
  · simp [encSize]
def canonPairs : List (Bytes × GoVal) → List (Bytes × GoVal)
  | [] => []
  | p :: rest => (p.1, canon p.2) :: canonPairs rest
termination_by l => encSizeP l
decreasing_by
  · simp [encSizeP]; omega
  · simp [encSizeP]
def canonList : List GoVal → List GoVal
  | [] => []
  | v :: rest => canon v :: canonList rest
termination_by l => encSizeL l
decreasing_by
  · simp [encSizeL]; omega
  · simp [encSizeL]
end

/-! ## Decoder (deserialize.go). -/

/-- Decode-side errors, one per failure site in deserialize.go.
`eof` is `io.EOF`/`io.ErrUnexpectedEOF` from the byte buffer, `shortRead`
the "expected to read %v bytes, but read %v" checks (both are truncation
failures); `notAllConsumed` is the top-level "did not consume all bytes"
check (trailing input); `crash` is a Go runtime panic (negative-length
`make`, failed type assertion, `Type.Elem`/`MakeSlice` on a
non-slice). -/
inductive DErr where
  | eof
  | shortRead
  | lengthMismatch
  | fieldNotFound
  | typeMismatch
  | cannotDeser
  | unsupportedEtype
  | invalidTerminator
  | invalidBool
  | notAllConsumed
  | badTopLevel
  | crash
  deriving DecidableEq

/-- A truncation-class decode failure (the spec's TruncatedInput). -/
def DErr.isTruncation : DErr → Prop
  | .eof => True
  | .shortRead => True
  | _ => False

/-- `bytes.Buffer.ReadByte`: one byte or `io.EOF`. -/
def readByte : (buf : Bytes) → Except DErr (Nat × {r : Bytes // r.length + 1 = buf.length})
  | [] => .error .eof
  | b :: rest => .ok (b, ⟨rest, rfl⟩)

/-- `readEtype` (deserialize.go lines 554-562): one tag byte, numread 1. -/
def readEtype (buf : Bytes) :
    Except DErr (Nat × Int × {r : Bytes // r.length + 1 = buf.length}) :=
  match readByte buf with
  | .error e => .error e
  | .ok (b, rest) => .ok (b, 1, rest)

/-- `readInt32` (deserialize.go lines 550-552): `binary.Read` of 4
little-endian bytes; fewer available is an EOF-class error. -/
def readInt32 (buf : Bytes) :
    Except DErr (Int × Int × {r : Bytes // r.length + 4 = buf.length}) :=
  if h : buf.length < 4 then .error .eof
  else .ok (int32OfLe buf, 4, ⟨buf.drop 4, by simp; omega⟩)

/-- `readInt64` (deserialize.go lines 594-596). -/
def readInt64 (buf : Bytes) :
    Except DErr (Int × Int × {r : Bytes // r.length + 8 = buf.length}) :=
  if h : buf.length < 8 then .error .eof
  else .ok (int64OfLe buf, 8, ⟨buf.drop 8, by simp; omega⟩)

/-- `readInt` (deserialize.go lines 583-592): read an int64, store it in a
Go `int` (lossless on the 64-bit architecture the source requires). -/
def readInt (buf : Bytes) :
    Except DErr (Int × Int × {r : Bytes // r.length + 8 = buf.length}) :=
  match readInt64 buf with
  | .error e => .error e
  | .ok (v, n, rest) => .ok (v, n, rest)

/-- `readFloat64` (deserialize.go lines 598-600): 8 bytes, the IEEE-754
bit pattern (carried as a `Nat`). -/
def readFloat64 (buf : Bytes) :
    Except DErr (Nat × Int × {r : Bytes // r.length + 8 = buf.length}) :=
  if h : buf.length < 8 then .error .eof
  else .ok (leNat (buf.take 8), 8, ⟨buf.drop 8, by simp; omega⟩)

/-- `readEname` (deserialize.go lines 564-580): bytes up to and including
the null terminator; numread is `len(ename) + 1`. -/
def readEname : (buf : Bytes) → Except DErr (Bytes × Int × {r : Bytes // r.length < buf.length})
  | [] => .error .eof
  | b :: rest =>
    if b = 0 then .ok ([], 1, ⟨rest, by simp⟩)
    else
      match readEname rest with
      | .error e => .error e
      | .ok (s, n, ⟨r, hr⟩) => .ok (b :: s, n + 1, ⟨r, by simp; omega⟩)

/-- `readBoolean` (deserialize.go lines 652-667): one byte, 0 or 1. -/
def readBoolean (buf : Bytes) :
    Except DErr (Bool × Int × {r : Bytes // r.length + 1 = buf.length}) :=
  match readByte buf with
  | .error e => .error e
  | .ok (b, rest) =>
    if b = 0 then .ok (false, 1, rest)
    else if b = 1 then .ok (true, 1, rest)
    else .error .invalidBool

/-- `bytes.Buffer.Read(p)`: reads up to `n` bytes, returning how many were
read; `(0, io.EOF)` only when the buffer is empty and `n > 0`. -/
def bufferRead (n : Nat) (buf : Bytes) :
    Except DErr (Bytes × Nat × {r : Bytes // r.length ≤ buf.length}) :=
  if n = 0 then .ok ([], 0, ⟨buf, le_rfl⟩)
  else if buf.isEmpty then .error .eof
  else .ok (buf.take n, min n buf.length, ⟨buf.drop n, by simp⟩)

/-- `readEstring` (deserialize.go lines 602-626).  `make([]byte,
sizeWithNullterm-1)` uses `int32` arithmetic; a negative length makes
`make` panic (`.crash`) — this happens exactly when the declared size
field is 0 or negative (other than `math.MinInt32`, which wraps).
Returned numread is `int(sizeWithNullterm) + 4`, as in the source. -/
def readEstring (buf : Bytes) :
    Except DErr (Bytes × Int × {r : Bytes // r.length ≤ buf.length}) :=
  match readInt32 buf with
  | .error e => .error e
  | .ok (sizeWithNullterm, _, ⟨buf1, h1⟩) =>
    if wrap32 (sizeWithNullterm - 1) < 0 then .error .crash
    else
      match bufferRead (wrap32 (sizeWithNullterm - 1)).toNat buf1 with
      | .error e => .error e
      | .ok (str, numread, ⟨buf2, h2⟩) =>
        if numread ≠ (wrap32 (sizeWithNullterm - 1)).toNat then .error .shortRead
        else
          match readByte buf2 with
          | .error e => .error e
          | .ok (nullterm, ⟨buf3, h3⟩) =>
            if nullterm ≠ 0 then .error .invalidTerminator
            else .ok (str, sizeWithNullterm + 4,
              ⟨buf3, le_trans (Nat.le.intro h3) (le_trans h2 (Nat.le.intro h1))⟩)

/-- `readEbinary` (deserialize.go lines 628-650): int32 size, one subtype
byte, `size` raw bytes.  `make([]byte, size)` panics on a negative
declared size (`.crash`).  Returned numread is `int(size) + 4 + 1`. -/
def readEbinary (buf : Bytes) :
    Except DErr (Bytes × Int × {r : Bytes // r.length ≤ buf.length}) :=
  match readInt32 buf with
  | .error e => .error e
  | .ok (size, _, ⟨buf1, h1⟩) =>
    match readByte buf1 with
    | .error e => .error e
    | .ok (_, ⟨buf2, h2⟩) =>
      if size < 0 then .error .crash
      else
        match bufferRead size.toNat buf2 with
        | .error e => .error e
        | .ok (bin, numread, ⟨buf3, h3⟩) =>
          if numread ≠ size.toNat then .error .shortRead
          else .ok (bin, size + 4 + 1,
            ⟨buf3, le_trans h3 (le_trans (Nat.le.intro h2) (Nat.le.intro h1))⟩)

/-! Kind discriminators on `Rtype`, used by
`validateEtypeCanBeDeserializeToRtype`.  `[]byte` has reflect kind
`Slice`, so `rBytes` counts as slice-kind.  `time.Time` has reflect kind
`Struct`; the model treats it as an opaque scalar, so its struct-kind
corner (a document element decoded field-by-field into `time.Time`) is
not modelled. -/

def Rtype.isAny : Rtype → Bool
  | .rAny => true
  | _ => false

def Rtype.isFloat64 : Rtype → Bool
  | .rFloat64 => true
  | _ => false

def Rtype.isString : Rtype → Bool
  | .rString => true
  | _ => false

def Rtype.isBytesType : Rtype → Bool
  | .rBytes => true
  | _ => false

def Rtype.isBool : Rtype → Bool
  | .rBool => true
  | _ => false

def Rtype.isTime : Rtype → Bool
  | .rTime => true
  | _ => false

def Rtype.isInt32 : Rtype → Bool
  | .rInt32 => true
  | _ => false

def Rtype.isInt64 : Rtype → Bool
  | .rInt64 => true
  | _ => false

def Rtype.isInt : Rtype → Bool
  | .rInt => true
  | _ => false

def Rtype.isSliceKind : Rtype → Bool
  | .rSlice _ => true
  | .rBytes => true
  | _ => false

def Rtype.isStructKind : Rtype → Bool
  | .rStruct _ => true
  | _ => false

def Rtype.isMapKind : Rtype → Bool
  | .rMap _ => true
  | _ => false

/-- `validateEtypeCanBeDeserializeToRtype` (deserialize.go lines 164-211).
Anything can be deserialized into `any`; the switch has no default case,
so tags it does not mention (the unimplemented BSON types) pass
validation (they fail later, at the payload dispatch). -/
def validateEtypeCanBeDeserializeToRtype (et : Nat) (rt : Rtype) : Option DErr :=
  if rt.isAny then none
  else if et = kEtypeDouble then if rt.isFloat64 then none else some .typeMismatch
  else if et = kEtypeString then if rt.isString then none else some .typeMismatch
  else if et = kEtypeBinary then if rt.isBytesType then none else some .typeMismatch
  else if et = kEtypeBoolean then if rt.isBool then none else some .typeMismatch
  else if et = kEtypeUtcDatetime then if rt.isTime then none else some .typeMismatch
  else if et = kEtypeInt32 then if rt.isInt32 then none else some .typeMismatch
  else if et = kEtypeInt64 then if rt.isInt64 || rt.isInt then none else some .typeMismatch
  else if et = kEtypeArray then if rt.isSliceKind then none else some .typeMismatch
  else if et = kEtypeDocument then if rt.isStructKind || rt.isMapKind then none else some .typeMismatch
  else none

/-- The struct / map-entry view of a prior value at a decode location
(shapes always match the declared type by Go's type system). -/
def fieldsOf : GoVal → List (Bytes × GoVal)
  | .vStruct l => l
  | _ => []

def pairsOf : GoVal → List (Bytes × GoVal)
  | .vDoc l => l
  | _ => []

def elemsOf : GoVal → List GoVal
  | .vArr l => l
  | _ => []

/-- Association-list lookup of a declared field type
(`struct_rvalue.FieldByName`). -/
def lookupR : List (Bytes × Rtype) → Bytes → Option Rtype
  | [], _ => none
  | (k, t) :: rest, n => if k = n then some t else lookupR rest n

/-- Association-list lookup of a current field value. -/
def lookupV : List (Bytes × GoVal) → Bytes → Option GoVal
  | [], _ => none
  | (k, w) :: rest, n => if k = n then some w else lookupV rest n

/-- Set a key's value: replace in place if present, append otherwise
(both `SetMapIndex` on a map and field assignment on a struct). -/
def setKey : List (Bytes × GoVal) → Bytes → GoVal → List (Bytes × GoVal)
  | [], n, v => [(n, v)]
  | (k, w) :: rest, n, v =>
    if k = n then (k, v) :: rest else (k, w) :: setKey rest n v

/-- The `tmpptr` dispatch of `readMap` (deserialize.go lines 262-329):
pick the concrete Go type (and freshly constructed initial value) of the
temporary the element is read into.  The document/array default branches
accept only a `*map[string]any` target, i.e. element type `any`. -/
def tmpTargetForMap (elemT : Rtype) (et : Nat) : Except DErr (Rtype × GoVal) :=
  if et = kEtypeDouble then .ok (.rFloat64, .vFloat 0)
  else if et = kEtypeString then .ok (.rString, .vString [])
  else if et = kEtypeBinary then .ok (.rBytes, .vBinary [])
  else if et = kEtypeBoolean then .ok (.rBool, .vBool false)
  else if et = kEtypeUtcDatetime then .ok (.rTime, .vTime 0)
  else if et = kEtypeInt32 then .ok (.rInt32, .vInt32 0)
  else if et = kEtypeInt64 then
    .ok (if elemT.isInt then (.rInt, .vInt 0) else (.rInt64, .vInt64 0))
  else if et = kEtypeDocument then
    match elemT with
    | .rStruct fields => .ok (.rStruct fields, zeroVal (.rStruct fields))
    | .rMap e2 => .ok (.rMap e2, .vDoc [])
    | _ => if elemT.isAny then .ok (.rMap .rAny, .vDoc []) else .error .cannotDeser
  else if et = kEtypeArray then
    match elemT with
    | .rSlice e2 => .ok (.rSlice e2, .vArr [])
    | _ => if elemT.isAny then .ok (.rSlice .rAny, .vArr []) else .error .cannotDeser
  else .error .unsupportedEtype

/-- The `tmpptr` dispatch of `readArray` (deserialize.go lines 470-538),
a copy of the `readMap` dispatch whose default branches accept only a
`*[]any` target, i.e. element type `any`. -/
def tmpTargetForArr (elemT : Rtype) (et : Nat) : Except DErr (Rtype × GoVal) :=
  if et = kEtypeDouble then .ok (.rFloat64, .vFloat 0)
  else if et = kEtypeString then .ok (.rString, .vString [])
  else if et = kEtypeBinary then .ok (.rBytes, .vBinary [])
  else if et = kEtypeBoolean then .ok (.rBool, .vBool false)
  else if et = kEtypeUtcDatetime then .ok (.rTime, .vTime 0)
  else if et = kEtypeInt32 then .ok (.rInt32, .vInt32 0)
  else if et = kEtypeInt64 then
    .ok (if elemT.isInt then (.rInt, .vInt 0) else (.rInt64, .vInt64 0))
  else if et = kEtypeDocument then
    match elemT with
    | .rStruct fields => .ok (.rStruct fields, zeroVal (.rStruct fields))
    | .rMap e2 => .ok (.rMap e2, .vDoc [])
    | _ => if elemT.isAny then .ok (.rMap .rAny, .vDoc []) else .error .cannotDeser
  else if et = kEtypeArray then
    match elemT with
    | .rSlice e2 => .ok (.rSlice e2, .vArr [])
    | _ => if elemT.isAny then .ok (.rSlice .rAny, .vArr []) else .error .cannotDeser
  else .error .unsupportedEtype

/-- The non-recursive cases of `readEvalue` (deserialize.go lines
344-427): every tag except document and array.  The Go switch dispatches
on mutually exclusive tag constants, so splitting these cases out of the
recursive function preserves the dispatch exactly.  The scalar branches
are Go type assertions `ptr_any.(*T)`, which panic (`.crash`) when the
target is any other type (in particular an `any`-typed struct field); the
int64 branch is a type *switch* whose default returns an error. -/
def readEvalueScalar (buf : Bytes) (target : Rtype) (et : Nat) :
    Except DErr (GoVal × Int × {r : Bytes // r.length ≤ buf.length}) :=
  if et = kEtypeDouble then
    match target with
    | .rFloat64 =>
      (match readFloat64 buf with
       | .error e => .error e
       | .ok (bits, n, ⟨r, hr⟩) => .ok (.vFloat bits, n, ⟨r, Nat.le.intro hr⟩))
    | _ => .error .crash
  else if et = kEtypeString then
    match target with
    | .rString =>
      (match readEstring buf with
       | .error e => .error e
       | .ok (s, n, r) => .ok (.vString s, n, r))
    | _ => .error .crash
  else if et = kEtypeBinary then
    match target with
    | .rBytes =>
      (match readEbinary buf with
       | .error e => .error e
       | .ok (b, n, r) => .ok (.vBinary b, n, r))
    | _ => .error .crash
  else if et = kEtypeBoolean then
    match target with
    | .rBool =>
      (match readBoolean buf with
       | .error e => .error e
       | .ok (b, n, ⟨r, hr⟩) => .ok (.vBool b, n, ⟨r, Nat.le.intro hr⟩))
    | _ => .error .crash
  else if et = kEtypeUtcDatetime then
    match target with
    | .rTime =>
      (match readInt64 buf with
       | .error e => .error e
       | .ok (ms, n, ⟨r, hr⟩) =>
         -- time.Unix(ms/1e3, (ms%1e3)*1e6).UTC() carries exactly ms
         -- milliseconds since the epoch ((ms/q)*q + ms%q = ms).
         .ok (.vTime ms, n, ⟨r, Nat.le.intro hr⟩))
    | _ => .error .crash
  else if et = kEtypeInt32 then
    match target with
    | .rInt32 =>
      (match readInt32 buf with
       | .error e => .error e
       | .ok (v, n, ⟨r, hr⟩) => .ok (.vInt32 v, n, ⟨r, Nat.le.intro hr⟩))
    | _ => .error .crash
  else if et = kEtypeInt64 then
    match target with
    | .rInt64 =>
      (match readInt64 buf with
       | .error e => .error e
       | .ok (v, n, ⟨r, hr⟩) => .ok (.vInt64 v, n, ⟨r, Nat.le.intro hr⟩))
    | .rInt =>
      (match readInt buf with
       | .error e => .error e
       | .ok (v, n, ⟨r, hr⟩) => .ok (.vInt v, n, ⟨r, Nat.le.intro hr⟩))
    | _ => .error .cannotDeser
  else .error .unsupportedEtype

mutual
/-- The recursive cases of `readEvalue` (deserialize.go lines 406-424):
the document branch switches on the target's kind with an error default;
the array branch calls `readArray` unconditionally, and `readArray`'s
`Type.Elem`/`MakeSlice` panic on every non-slice target. -/
def readEvalue (buf : Bytes) (target : Rtype) (prior : GoVal) (et : Nat) :
    Except DErr (GoVal × Int × {r : Bytes // r.length ≤ buf.length}) :=
  if et = kEtypeDocument then
    match target with
    | .rStruct fields =>
      (match readStruct buf fields (fieldsOf prior) with
       | .error e => .error e
       | .ok (n, flds, r) => .ok (.vStruct flds, n, r))
    | .rMap elemT =>
      (match readMap buf elemT (pairsOf prior) with
       | .error e => .error e
       | .ok (n, prs, r) => .ok (.vDoc prs, n, r))
    | _ => .error .cannotDeser
  else if et = kEtypeArray then
    match target with
    | .rSlice elemT =>
      (match readArray buf elemT (elemsOf prior) with
       | .error e => .error e
       | .ok (n, vs, r) => .ok (.vArr vs, n, r))
    | .rBytes =>
      -- *[]byte: element type uint8.  No element can be decoded into a
      -- uint8 target (validation rejects every supported tag), so a
      -- successful read rebuilt the empty []byte.
      (match readArray buf .rUint8 [] with
       | .error e => .error e
       | .ok (n, _, r) => .ok (.vBinary [], n, r))
    | _ => .error .crash
  else readEvalueScalar buf target et
termination_by (buf.length, 2)
decreasing_by
  all_goals first
    | (apply Prod.Lex.right; omega)
    | (apply Prod.Lex.left; omega)

/-- `readStruct` (deserialize.go lines 107-156): read the int32 size, then
loop over elements; `cur` is the struct's current field contents (fields
not named on the wire keep their values). -/
def readStruct (buf : Bytes) (fields : List (Bytes × Rtype)) (cur : List (Bytes × GoVal)) :
    Except DErr (Int × List (Bytes × GoVal) × {r : Bytes // r.length ≤ buf.length}) :=
  match readInt32 buf with
  | .error e => .error e
  | .ok (expectedSize, numread, ⟨buf1, h1⟩) =>
    match readStructLoop buf1 fields cur expectedSize numread with
    | .error e => .error e
    | .ok (n, flds, ⟨r, hr⟩) => .ok (n, flds, ⟨r, le_trans hr (Nat.le.intro h1)⟩)
termination_by (buf.length, 1)
decreasing_by
  all_goals first
    | (apply Prod.Lex.right; omega)
    | (apply Prod.Lex.left; omega)

/-- The element loop of `readStruct`: `actualSize` is the running consumed
count, `expectedSize` the declared document length. -/
def readStructLoop (buf : Bytes) (fields : List (Bytes × Rtype))
    (cur : List (Bytes × GoVal)) (expectedSize actualSize : Int) :
    Except DErr (Int × List (Bytes × GoVal) × {r : Bytes // r.length ≤ buf.length}) :=
  match readEtype buf with
  | .error e => .error e
  | .ok (et, n1, ⟨buf1, h1⟩) =>
    if et = kEtypeDone then
      if actualSize + n1 ≠ expectedSize then .error .lengthMismatch
      else .ok (actualSize + n1, cur, ⟨buf1, Nat.le.intro h1⟩)
    else
      match readEname buf1 with
      | .error e => .error e
      | .ok (ename, n2, ⟨buf2, h2⟩) =>
        match lookupR fields ename with
        | none => .error .fieldNotFound
        | some frt =>
          match validateEtypeCanBeDeserializeToRtype et frt with
          | some e => .error e
          | none =>
            match readEvalue buf2 frt ((lookupV cur ename).getD (zeroVal frt)) et with
            | .error e => .error e
            | .ok (v, n3, ⟨buf3, h3⟩) =>
              match readStructLoop buf3 fields (setKey cur ename v) expectedSize
                  (actualSize + n1 + n2 + n3) with
              | .error e => .error e
              | .ok (n, flds, ⟨r, hr⟩) => .ok (n, flds, ⟨r, le_trans hr (le_trans h3 (le_trans (le_of_lt h2) (Nat.le.intro h1)))⟩)
termination_by (buf.length, 0)
decreasing_by
  all_goals first
    | (apply Prod.Lex.right; omega)
    | (apply Prod.Lex.left; omega)

/-- `readMap` (deserialize.go lines 213-340).  Modelled maps are
string-keyed, so the `mapKeyRkind != reflect.String` rejection cannot
fire.  `mapRvalue.Set(reflect.MakeMap(mapRtype))` replaces the target map
with a fresh empty one: the `prior` entries are discarded. -/
def readMap (buf : Bytes) (elemT : Rtype) (prior : List (Bytes × GoVal)) :
    Except DErr (Int × List (Bytes × GoVal) × {r : Bytes // r.length ≤ buf.length}) :=
  match readInt32 buf with
  | .error e => .error e
  | .ok (expectedSize, numread, ⟨buf1, h1⟩) =>
    match readMapLoop buf1 elemT [] expectedSize numread with
    | .error e => .error e
    | .ok (n, prs, ⟨r, hr⟩) => .ok (n, prs, ⟨r, le_trans hr (Nat.le.intro h1)⟩)
termination_by (buf.length, 1)
decreasing_by
  all_goals first
    | (apply Prod.Lex.right; omega)
    | (apply Prod.Lex.left; omega)

/-- The element loop of `readMap`: read `[tag][name]`, validate against
the declared element type, read the payload into the dispatched temporary
and `SetMapIndex` it under the name. -/
def readMapLoop (buf : Bytes) (elemT : Rtype) (acc : List (Bytes × GoVal))
    (expectedSize actualSize : Int) :
    Except DErr (Int × List (Bytes × GoVal) × {r : Bytes // r.length ≤ buf.length}) :=
  match readEtype buf with
  | .error e => .error e
  | .ok (et, n1, ⟨buf1, h1⟩) =>
    if et = kEtypeDone then
      if actualSize + n1 ≠ expectedSize then .error .lengthMismatch
      else .ok (actualSize + n1, acc, ⟨buf1, Nat.le.intro h1⟩)
    else
      match readEname buf1 with
      | .error e => .error e
      | .ok (ename, n2, ⟨buf2, h2⟩) =>
        match validateEtypeCanBeDeserializeToRtype et elemT with
        | some e => .error e
        | none =>
          match tmpTargetForMap elemT et with
          | .error e => .error e
          | .ok (tmpT, tmpInit) =>
            match readEvalue buf2 tmpT tmpInit et with
            | .error e => .error e
            | .ok (v, n3, ⟨buf3, h3⟩) =>
              match readMapLoop buf3 elemT (setKey acc ename v) expectedSize
                  (actualSize + n1 + n2 + n3) with
              | .error e => .error e
              | .ok (n, prs, ⟨r, hr⟩) => .ok (n, prs, ⟨r, le_trans hr (le_trans h3 (le_trans (le_of_lt h2) (Nat.le.intro h1)))⟩)
termination_by (buf.length, 0)
decreasing_by
  all_goals first
    | (apply Prod.Lex.right; omega)
    | (apply Prod.Lex.left; omega)

/-- `readArray` (deserialize.go lines 430-548): same layout as `readMap`;
the target slice is replaced by a fresh empty one (`MakeSlice`), element
names are consumed but ignored, decoded values are appended in wire
order. -/
def readArray (buf : Bytes) (elemT : Rtype) (prior : List GoVal) :
    Except DErr (Int × List GoVal × {r : Bytes // r.length ≤ buf.length}) :=
  match readInt32 buf with
  | .error e => .error e
  | .ok (expectedSize, numread, ⟨buf1, h1⟩) =>
    match readArrayLoop buf1 elemT [] expectedSize numread with
    | .error e => .error e
    | .ok (n, vs, ⟨r, hr⟩) => .ok (n, vs, ⟨r, le_trans hr (Nat.le.intro h1)⟩)
termination_by (buf.length, 1)
decreasing_by
  all_goals first
    | (apply Prod.Lex.right; omega)
    | (apply Prod.Lex.left; omega)

/-- The element loop of `readArray`. -/
def readArrayLoop (buf : Bytes) (elemT : Rtype) (acc : List GoVal)
    (expectedSize actualSize : Int) :
    Except DErr (Int × List GoVal × {r : Bytes // r.length ≤ buf.length}) :=
  match readEtype buf with
  | .error e => .error e
  | .ok (et, n1, ⟨buf1, h1⟩) =>
    if et = kEtypeDone then
      if actualSize + n1 ≠ expectedSize then .error .lengthMismatch
      else .ok (actualSize + n1, acc, ⟨buf1, Nat.le.intro h1⟩)
    else
      match readEname buf1 with
      | .error e => .error e
      | .ok (ename, n2, ⟨buf2, h2⟩) =>
        match validateEtypeCanBeDeserializeToRtype et elemT with
        | some e => .error e
        | none =>
          match tmpTargetForArr elemT et with
          | .error e => .error e
          | .ok (tmpT, tmpInit) =>
            match readEvalue buf2 tmpT tmpInit et with
            | .error e => .error e
            | .ok (v, n3, ⟨buf3, h3⟩) =>
              match readArrayLoop buf3 elemT (acc ++ [v]) expectedSize
                  (actualSize + n1 + n2 + n3) with
              | .error e => .error e
              | .ok (n, vs, ⟨r, hr⟩) => .ok (n, vs, ⟨r, le_trans hr (le_trans h3 (le_trans (le_of_lt h2) (Nat.le.intro h1)))⟩)
termination_by (buf.length, 0)
decreasing_by
  all_goals first
    | (apply Prod.Lex.right; omega)
    | (apply Prod.Lex.left; omega)
end

/-- `Unmarshal` (deserialize.go lines 69-104).  `validate64bit` passes on
the modelled architecture and `ptr` is a pointer by construction; the
target's pointee type dispatches to `readStruct`/`readMap`, and the
decode must consume the input exactly. -/
def Unmarshal (marshalled : Bytes) (target : Rtype) (prior : GoVal) : Except DErr GoVal :=
  match target with
  | .rStruct fields =>
    (match readStruct marshalled fields (fieldsOf prior) with
     | .error e => .error e
     | .ok (numread, flds, _) =>
       if numread ≠ (marshalled.length : Int) then .error .notAllConsumed
       else .ok (.vStruct flds))
  | .rMap elemT =>
    (match readMap marshalled elemT (pairsOf prior) with
     | .error e => .error e
     | .ok (numread, prs, _) =>
       if numread ≠ (marshalled.length : Int) then .error .notAllConsumed
       else .ok (.vDoc prs))
  | _ => .error .badTopLevel

/-- Rebuild an association list by repeated `setKey` insertion (the
decoder's map loop inserts each wire element with `SetMapIndex`). -/
def assocBuild (l : List (Bytes × GoVal)) : List (Bytes × GoVal) :=
  l.foldl (fun acc p => setKey acc p.1 p.2) []

/-! The value the decoder reconstructs in a fully dynamic target from an
encoder-produced wire value: documents and structs become maps whose
entries follow the encoder's sorted key order, slices come back permuted
into the byte-wise sorted order of their decimal index strings, pointers
are flattened, `int` widens to the int64 wire type, and integer payloads
reappear reduced to their wire width. -/

mutual
/-- The dynamic reconstruction of an encoder-produced value. -/
def dynVal : GoVal → GoVal
  | .vFloat bits => .vFloat (bits % 18446744073709551616)
  | .vString s => .vString s
  | .vBinary b => .vBinary b
  | .vBool b => .vBool b
  | .vTime ms => .vTime (wrap64 ms)
  | .vInt32 n => .vInt32 (wrap32 n)
  | .vInt n => .vInt64 (wrap64 n)
  | .vInt64 n => .vInt64 (wrap64 n)
  | .vPtrTo w => dynVal w
  | .vDoc pairs => .vDoc (assocBuild (dynPairs (sortPairsS pairs).1))
  | .vStruct fields => .vDoc (assocBuild (dynPairs (sortPairsS fields).1))
  | .vArr elems =>
    .vArr ((dynPairs (sortPairsS (convertSliceToPairs 0 elems).1).1).map Prod.snd)
  | v => v
termination_by v => encSize v
decreasing_by
  · simp [encSize]
  · rw [(sortPairsS pairs).2]; simp [encSize]
  · rw [(sortPairsS fields).2]; simp [encSize]
  · rw [(sortPairsS (convertSliceToPairs 0 elems).1).2,
        (convertSliceToPairs 0 elems).2]
    simp [encSize]
def dynPairs : List (Bytes × GoVal) → List (Bytes × GoVal)
  | [] => []
  | p :: rest => (p.1, dynVal p.2) :: dynPairs rest
termination_by l => encSizeP l
decreasing_by
  · simp [encSizeP]; omega
  · simp [encSizeP]
end


/-! ## Basic facts about the byte primitives. -/

theorem le32_length (n : Nat) : (le32 n).length = 4 := rfl

theorem le64_length (n : Nat) : (le64 n).length = 8 := rfl

theorem wrap32_eq_self (n : Nat) (h : n < 2147483648) : wrap32 ((n : Int)) = n := by
  unfold wrap32; omega

theorem wrap64_eq_self (n : Nat) (h : n < 9223372036854775808) : wrap64 ((n : Int)) = n := by
  unfold wrap64; omega

theorem wrap32_int_eq_self (z : Int) (h1 : -2147483648 ≤ z) (h2 : z < 2147483648) :
    wrap32 z = z := by
  unfold wrap32; omega

theorem wrap64_int_eq_self (z : Int) (h1 : -9223372036854775808 ≤ z)
    (h2 : z < 9223372036854775808) : wrap64 z = z := by
  unfold wrap64; omega

/-! ## The faithful encoder agrees with its compositional restatement.

`appendAny buffer v` appends `encAny v`'s bytes to `buffer` on success and
reports the same error on failure (with whatever partial bytes were
already emitted), and likewise for `appendMap`/`encDoc` and
`appendMapLoop`/`encElems`. -/

theorem appendMapLoop_cons_spec
    (key : Bytes) (val : GoVal) (rest : List (Bytes × GoVal))
    (hv : validateEname key = none) (et : Nat) (hget : getEtype val = .ok et)
    (ih1 : ∀ b : Bytes,
      (∀ bs, encAny val = .ok bs → appendAny b val = (b ++ bs, none)) ∧
      (∀ e, encAny val = .error e → (appendAny b val).2 = some e))
    (ih2 : ∀ b : Bytes,
      (∀ bs, encElems rest = .ok bs → appendMapLoop b rest = (b ++ bs, none)) ∧
      (∀ e, encElems rest = .error e → (appendMapLoop b rest).2 = some e)) :
    ∀ b : Bytes,
      (∀ bs, encElems ((key, val) :: rest) = .ok bs →
        appendMapLoop b ((key, val) :: rest) = (b ++ bs, none)) ∧
      (∀ e, encElems ((key, val) :: rest) = .error e →
        (appendMapLoop b ((key, val) :: rest)).2 = some e) := by
  intro b
  rw [show appendMapLoop b ((key, val) :: rest) =
      (match validateEname key with
      | some e => (b, some e)
      | none =>
        match getEtype val with
        | .error e => (b, some e)
        | .ok et =>
          match appendAny (b ++ et :: (key ++ [kNullTerminator])) val with
          | (buf2, some e) => (buf2, some e)
          | (buf2, none) => appendMapLoop buf2 rest) from by rw [appendMapLoop]]
  rw [show encElems ((key, val) :: rest) =
      (match validateEname key with
      | some e => .error e
      | none =>
        match getEtype val with
        | .error e => .error e
        | .ok et =>
          match encAny val with
          | .error e => .error e
          | .ok bs =>
            match encElems rest with
            | .error e => .error e
            | .ok rbs => .ok (et :: (key ++ [kNullTerminator]) ++ bs ++ rbs)) from by
        rw [encElems]]
  simp only [hv, hget]
  rcases hval : encAny val with e | bs
  · rcases happ : appendAny (b ++ et :: (key ++ [kNullTerminator])) val with ⟨buf2, o⟩
    have h2 := (ih1 (b ++ et :: (key ++ [kNullTerminator]))).2 e hval
    rw [happ] at h2
    simp only at h2
    subst h2
    refine ⟨fun bs h => by simp at h, fun e2 h => ?_⟩
    simp only [Except.error.injEq] at h
    subst h
    rfl
  · have h1 := (ih1 (b ++ et :: (key ++ [kNullTerminator]))).1 bs hval
    rw [h1]
    rcases hrest : encElems rest with e | rbs
    · rcases hloop : appendMapLoop (b ++ et :: (key ++ [kNullTerminator]) ++ bs) rest with ⟨buf3, o⟩
      have h3 := (ih2 (b ++ et :: (key ++ [kNullTerminator]) ++ bs)).2 e hrest
      rw [hloop] at h3
      simp only at h3
      subst h3
      refine ⟨fun bs2 h => by simp at h, fun e2 h => ?_⟩
      simp only [Except.error.injEq] at h
      subst h
      show (appendMapLoop (b ++ et :: (key ++ [kNullTerminator]) ++ bs) rest).2 = some e
      rw [hloop]
    · have h4 := (ih2 (b ++ et :: (key ++ [kNullTerminator]) ++ bs)).1 rbs hrest
      constructor
      · intro bs2 h
        simp only [Except.ok.injEq] at h
        subst h
        show appendMapLoop (b ++ et :: (key ++ [kNullTerminator]) ++ bs) rest = _
        rw [h4]
        simp
      · intro e2 h
        simp at h


theorem appendMap_spec_of (doc : List (Bytes × GoVal))
    (ih : ∀ b : Bytes,
      (∀ bs, encElems (sortPairsS doc).1 = .ok bs →
        appendMapLoop b (sortPairsS doc).1 = (b ++ bs, none)) ∧
      (∀ e, encElems (sortPairsS doc).1 = .error e →
        (appendMapLoop b (sortPairsS doc).1).2 = some e)) :
    ∀ b : Bytes,
      (∀ bs, encDoc doc = .ok bs → appendMap b doc = (b ++ bs, none)) ∧
      (∀ e, encDoc doc = .error e → (appendMap b doc).2 = some e) := by
  intro b
  rw [show appendMap b doc =
      (match appendMapLoop (b ++ le32 0) (sortPairsS doc).1 with
      | (buf2, some e) => (buf2, some e)
      | (buf2, none) =>
        let buf3 := buf2 ++ [kEtypeDone]
        let totalSize := buf3.length - b.length
        if totalSize > maxInt32 then ([], some .sizeTooBig)
        else (buf3.take b.length ++ le32 totalSize ++ buf3.drop (b.length + 4), none))
      from by rw [appendMap]]
  rw [show encDoc doc =
      (match encElems (sortPairsS doc).1 with
      | .error e => .error e
      | .ok body =>
        if 4 + body.length + 1 > maxInt32 then .error .sizeTooBig
        else .ok (le32 (4 + body.length + 1) ++ body ++ [kEtypeDone]))
      from by rw [encDoc]]
  rcases hels : encElems (sortPairsS doc).1 with e | body
  · rcases hloop : appendMapLoop (b ++ le32 0) (sortPairsS doc).1 with ⟨buf2, o⟩
    have h2 := (ih (b ++ le32 0)).2 e hels
    rw [hloop] at h2
    simp only at h2
    subst h2
    exact ⟨fun bs h => by simp at h, fun e2 h => by
      simp only [Except.error.injEq] at h
      subst h
      rfl⟩
  · have h1 := (ih (b ++ le32 0)).1 body hels
    rw [h1]
    simp only
    have hlen : (b ++ le32 0 ++ body ++ [kEtypeDone]).length - b.length
        = 4 + body.length + 1 := by
      simp [le32]
      omega
    rw [hlen]
    by_cases hbig : 4 + body.length + 1 > maxInt32
    · simp only [if_pos hbig]
      exact ⟨fun bs h => by simp at h, fun e2 h => by
        simp only [Except.error.injEq] at h
        subst h
        rfl⟩
    · simp only [if_neg hbig]
      constructor
      · intro bs h
        simp only [Except.ok.injEq] at h
        subst h
        have htake : (b ++ le32 0 ++ body ++ [kEtypeDone]).take b.length = b := by
          rw [List.append_assoc, List.append_assoc]
          exact List.take_left b _
        have hdrop : (b ++ le32 0 ++ body ++ [kEtypeDone]).drop (b.length + 4) =
            body ++ [kEtypeDone] := by
          rw [List.append_assoc (b ++ le32 0)]
          have : (b ++ le32 0).length = b.length + 4 := by simp [le32]
          rw [show b.length + 4 = (b ++ le32 0).length from this.symm]
          exact List.drop_left _ _
        rw [htake, hdrop]
        simp
      · intro e2 h
        simp at h


theorem appendMapLoop_cons_err
    (key : Bytes) (val : GoVal) (rest : List (Bytes × GoVal))
    (hv : validateEname key = none) (et : Nat) (hget : getEtype val = .ok et)
    (e' : EErr) (hval : encAny val = .error e')
    (ih1 : ∀ b : Bytes,
      (∀ bs, encAny val = .ok bs → appendAny b val = (b ++ bs, none)) ∧
      (∀ e, encAny val = .error e → (appendAny b val).2 = some e)) :
    ∀ b : Bytes,
      (∀ bs, encElems ((key, val) :: rest) = .ok bs →
        appendMapLoop b ((key, val) :: rest) = (b ++ bs, none)) ∧
      (∀ e, encElems ((key, val) :: rest) = .error e →
        (appendMapLoop b ((key, val) :: rest)).2 = some e) := by
  intro b
  rw [show appendMapLoop b ((key, val) :: rest) =
      (match validateEname key with
      | some e => (b, some e)
      | none =>
        match getEtype val with
        | .error e => (b, some e)
        | .ok et =>
          match appendAny (b ++ et :: (key ++ [kNullTerminator])) val with
          | (buf2, some e) => (buf2, some e)
          | (buf2, none) => appendMapLoop buf2 rest) from by rw [appendMapLoop]]
  rw [show encElems ((key, val) :: rest) =
      (match validateEname key with
      | some e => .error e
      | none =>
        match getEtype val with
        | .error e => .error e
        | .ok et =>
          match encAny val with
          | .error e => .error e
          | .ok bs =>
            match encElems rest with
            | .error e => .error e
            | .ok rbs => .ok (et :: (key ++ [kNullTerminator]) ++ bs ++ rbs)) from by
        rw [encElems]]
  simp only [hv, hget, hval]
  rcases happ : appendAny (b ++ et :: (key ++ [kNullTerminator])) val with ⟨buf2, o⟩
  have h2 := (ih1 (b ++ et :: (key ++ [kNullTerminator]))).2 e' hval
  rw [happ] at h2
  simp only at h2
  subst h2
  refine ⟨fun bs h => by simp at h, fun e2 h => ?_⟩
  simp only [Except.error.injEq] at h
  subst h
  rfl

/-- `appendAny buffer v` appends exactly `encAny v`'s bytes on success,
and fails with the same error as `encAny v` on failure (and likewise
`appendMap` against `encDoc`, `appendMapLoop` against `encElems`). -/
theorem appendAny_eq_encAny :
    ∀ (buffer : Bytes) (v : GoVal),
      (∀ bs, encAny v = .ok bs → appendAny buffer v = (buffer ++ bs, none)) ∧
      (∀ e, encAny v = .error e → (appendAny buffer v).2 = some e) := by
  have main : ∀ (buffer : Bytes) (v : GoVal), ∀ b : Bytes,
      (∀ bs, encAny v = .ok bs → appendAny b v = (b ++ bs, none)) ∧
      (∀ e, encAny v = .error e → (appendAny b v).2 = some e) := by
    apply appendAny.induct
      (fun _ v => ∀ b : Bytes,
        (∀ bs, encAny v = .ok bs → appendAny b v = (b ++ bs, none)) ∧
        (∀ e, encAny v = .error e → (appendAny b v).2 = some e))
      (fun _ doc => ∀ b : Bytes,
        (∀ bs, encDoc doc = .ok bs → appendMap b doc = (b ++ bs, none)) ∧
        (∀ e, encDoc doc = .error e → (appendMap b doc).2 = some e))
      (fun _ l => ∀ b : Bytes,
        (∀ bs, encElems l = .ok bs → appendMapLoop b l = (b ++ bs, none)) ∧
        (∀ e, encElems l = .error e → (appendMapLoop b l).2 = some e))
    -- vPtrNil
    · intro _ b
      exact ⟨fun bs h => by simp [encAny] at h,
             fun e h => by simp [encAny] at h; simp [appendAny, ← h]⟩
    -- vPtrTo
    · intro _ w ih b
      simp only [encAny, appendAny]
      exact ih b
    -- vNilIface
    · intro _ b
      exact ⟨fun bs h => by simp [encAny] at h,
             fun e h => by simp [encAny] at h; simp [appendAny, ← h]⟩
    -- vBinary too big
    · intro _ bb hbig b
      exact ⟨fun bs h => by simp [encAny, hbig] at h,
             fun e h => by simp [encAny, hbig] at h; simp [appendAny, hbig, ← h]⟩
    -- vBinary ok
    · intro _ bb hbig b
      refine ⟨fun bs h => ?_, fun e h => by simp [encAny, hbig] at h⟩
      simp only [encAny, hbig, if_false, Except.ok.injEq, ite_false] at h
      simp [appendAny, hbig, ← h]
    -- vString too big
    · intro _ ss hbig b
      exact ⟨fun bs h => by simp [encAny, hbig] at h,
             fun e h => by simp [encAny, hbig] at h; simp [appendAny, hbig, ← h]⟩
    -- vString ok
    · intro _ ss hbig b
      refine ⟨fun bs h => ?_, fun e h => by simp [encAny, hbig] at h⟩
      simp only [encAny, hbig, if_false, Except.ok.injEq, ite_false] at h
      simp [appendAny, hbig, ← h]
    -- vFloat
    · intro _ bits b
      exact ⟨fun bs h => by simp [encAny] at h; simp [appendAny, ← h],
             fun e h => by simp [encAny] at h⟩
    -- vBool
    · intro _ bo b
      exact ⟨fun bs h => by simp [encAny] at h; simp [appendAny, ← h],
             fun e h => by simp [encAny] at h⟩
    -- vTime
    · intro _ ms b
      exact ⟨fun bs h => by simp [encAny] at h; simp [appendAny, ← h],
             fun e h => by simp [encAny] at h⟩
    -- vInt32
    · intro _ n b
      exact ⟨fun bs h => by simp [encAny] at h; simp [appendAny, ← h],
             fun e h => by simp [encAny] at h⟩
    -- vInt
    · intro _ n b
      exact ⟨fun bs h => by simp [encAny] at h; simp [appendAny, ← h],
             fun e h => by simp [encAny] at h⟩
    -- vInt64
    · intro _ n b
      exact ⟨fun bs h => by simp [encAny] at h; simp [appendAny, ← h],
             fun e h => by simp [encAny] at h⟩
    -- vDoc
    · intro _ pairs ih b
      simp only [encAny, appendAny]
      exact ih b
    -- vStruct
    · intro _ fields ih b
      simp only [encAny, appendAny]
      exact ih b
    -- vArr
    · intro _ elems ih b
      simp only [encAny, appendAny]
      exact ih b
    -- vOtherType
    · intro _ b
      exact ⟨fun bs h => by simp [encAny] at h,
             fun e h => by simp [encAny] at h; simp [appendAny, ← h]⟩
    -- appendMap, loop errored
    · intros
      exact appendMap_spec_of _ (by assumption) _
    -- appendMap, size overflow
    · intros
      exact appendMap_spec_of _ (by assumption) _
    -- appendMap, success
    · intros
      exact appendMap_spec_of _ (by assumption) _
    -- loop nil
    · intro _ b
      refine ⟨fun bs h => ?_, fun e h => by simp [encElems] at h⟩
      simp only [encElems, Except.ok.injEq] at h
      simp [appendMapLoop, ← h]
    -- loop: bad ename
    · intro _ key val rest e hv b
      refine ⟨fun bs h => by simp [encElems, hv] at h, fun e2 h => ?_⟩
      simp only [encElems, hv, Except.error.injEq] at h
      subst h
      simp [appendMapLoop, hv]
    -- loop: getEtype error
    · intro _ key val rest hv e hget b
      refine ⟨fun bs h => by simp [encElems, hv, hget] at h, fun e2 h => ?_⟩
      simp only [encElems, hv, hget, Except.error.injEq] at h
      subst h
      simp [appendMapLoop, hv, hget]
    -- loop: appendAny errored at this buffer
    · intro buffer key val rest hv et hget buf2 e happ ih1
      rcases hval : encAny val with e' | bs
      · exact appendMapLoop_cons_err key val rest hv et hget e' hval ih1
      · exfalso
        have hok := (ih1 (buffer ++ et :: (key ++ [kNullTerminator]))).1 bs hval
        rw [hok] at happ
        simp at happ
    -- loop: appendAny succeeded, recurse
    · intro buffer key val rest hv et hget buf2 happ ih1 ih2
      exact appendMapLoop_cons_spec key val rest hv et hget ih1 ih2
  intro buffer v
  exact main buffer v buffer


/-- `Marshal` on a map value is exactly the compositional document
encoding. -/
theorem Marshal_vDoc (pairs : List (Bytes × GoVal)) :
    Marshal (.vDoc pairs) = encDoc pairs := by
  rw [show Marshal (.vDoc pairs) =
      (match appendAny [] (.vDoc pairs) with
       | (_, some e) => .error e
       | (buf, none) => .ok buf) from by rw [Marshal]]
  have hspec := appendAny_eq_encAny [] (.vDoc pairs)
  rcases henc : encAny (.vDoc pairs) with e | bs
  · rcases happ : appendAny [] (.vDoc pairs) with ⟨buf, o⟩
    have h2 := hspec.2 e henc
    rw [happ] at h2
    simp only at h2
    subst h2
    rw [show encAny (.vDoc pairs) = encDoc pairs from by rw [encAny]] at henc
    rw [henc]
  · have h1 := hspec.1 bs henc
    rw [h1]
    rw [show encAny (.vDoc pairs) = encDoc pairs from by rw [encAny]] at henc
    rw [henc]
    simp

/-- `Marshal` on a struct value is exactly the compositional document
encoding of its fields. -/
theorem Marshal_vStruct (fields : List (Bytes × GoVal)) :
    Marshal (.vStruct fields) = encDoc fields := by
  rw [show Marshal (.vStruct fields) =
      (match appendAny [] (.vStruct fields) with
       | (_, some e) => .error e
       | (buf, none) => .ok buf) from by rw [Marshal]]
  have hspec := appendAny_eq_encAny [] (.vStruct fields)
  rcases henc : encAny (.vStruct fields) with e | bs
  · rcases happ : appendAny [] (.vStruct fields) with ⟨buf, o⟩
    have h2 := hspec.2 e henc
    rw [happ] at h2
    simp only at h2
    subst h2
    rw [show encAny (.vStruct fields) = encDoc fields from by rw [encAny]] at henc
    rw [henc]
  · have h1 := hspec.1 bs henc
    rw [h1]
    rw [show encAny (.vStruct fields) = encDoc fields from by rw [encAny]] at henc
    rw [henc]
    simp

/-- A top-level `time.Time` marshals successfully to the bare 8-byte
little-endian int64 of its UnixMilli value — no length header. -/
theorem Marshal_vTime (ms : Int) : Marshal (.vTime ms) = .ok (le64i ms) := by
  rw [show Marshal (.vTime ms) =
      (match appendAny [] (.vTime ms) with
       | (_, some e) => .error e
       | (buf, none) => .ok buf) from by rw [Marshal]]
  rw [show appendAny [] (.vTime ms) = (([] : Bytes) ++ le64i ms, none) from by
    rw [appendAny]]
  simp

/-- Unsigned little-endian readback of `le32`. -/
theorem leNat_le32 (n : Nat) : leNat (le32 n) = n % 4294967296 := by
  simp only [le32, leNat]
  omega

/-- Decoding the int32 size header written by the encoder. -/
theorem int32OfLe_le32 (n : Nat) (rest : Bytes) (h : n ≤ maxInt32) :
    int32OfLe (le32 n ++ rest) = n := by
  unfold int32OfLe
  rw [show (4 : Nat) = (le32 n).length from rfl, List.take_left, leNat_le32]
  unfold wrap32
  unfold maxInt32 at h
  omega

/-- The shape of a successful document encoding: a size header covering
the whole output, the element body, and the terminator. -/
theorem encDoc_ok_shape (doc : List (Bytes × GoVal)) (bs : Bytes)
    (h : encDoc doc = .ok bs) :
    ∃ body, encElems (sortPairsS doc).1 = .ok body ∧
      bs = le32 (4 + body.length + 1) ++ body ++ [kEtypeDone] ∧
      4 + body.length + 1 ≤ maxInt32 ∧
      bs.length = 4 + body.length + 1 := by
  rw [show encDoc doc =
      (match encElems (sortPairsS doc).1 with
      | .error e => .error e
      | .ok body =>
        if 4 + body.length + 1 > maxInt32 then .error .sizeTooBig
        else .ok (le32 (4 + body.length + 1) ++ body ++ [kEtypeDone]))
      from by rw [encDoc]] at h
  rcases hels : encElems (sortPairsS doc).1 with e | body
  · rw [hels] at h
    simp at h
  · rw [hels] at h
    simp only at h
    by_cases hbig : 4 + body.length + 1 > maxInt32
    · rw [if_pos hbig] at h
      simp at h
    · rw [if_neg hbig] at h
      simp only [Except.ok.injEq] at h
      subst h
      exact ⟨body, rfl, rfl, by omega, by simp [le32]; omega⟩


/-! ## Decoder loop accounting (deserialize.go done-tag handling). -/

theorem readEtype_ok (buf : Bytes) (et : Nat) (n : Int)
    (r : {r : Bytes // r.length + 1 = buf.length})
    (h : readEtype buf = .ok (et, n, r)) : n = 1 ∧ buf = et :: r.1 := by
  match buf with
  | [] => simp [readEtype, readByte] at h
  | b :: rest =>
    simp only [readEtype, readByte, Except.ok.injEq, Prod.mk.injEq] at h
    obtain ⟨hb, hn, hr⟩ := h
    exact ⟨hn.symm, by rw [hb, ← hr]⟩

/-- The element loop returns, on success, exactly the declared size
(`expectedSize`): the only successful exit is the done-tag branch, which
returns `actualSize` only after checking it equals `expectedSize`. -/
theorem readStructLoop_ok_size :
    ∀ (buf : Bytes) (fields : List (Bytes × Rtype)) (cur : List (Bytes × GoVal))
      (exp act n : Int) (v : List (Bytes × GoVal))
      (r : {r : Bytes // r.length ≤ buf.length}),
      readStructLoop buf fields cur exp act = .ok (n, v, r) → n = exp := by
  have main : ∀ (N : Nat) (buf : Bytes), buf.length ≤ N →
      ∀ fields cur (exp act n : Int) v r,
        readStructLoop buf fields cur exp act = .ok (n, v, r) → n = exp := by
    intro N
    induction N with
    | zero =>
      intro buf hlen fields cur exp act n v r h
      have hbuf : buf = [] := by
        cases buf with
        | nil => rfl
        | cons a l => simp at hlen
      subst hbuf
      rw [readStructLoop] at h
      simp [readEtype, readByte] at h
    | succ N ih =>
      intro buf hlen fields cur exp act n v r h
      rw [readStructLoop] at h
      rcases het : readEtype buf with e | ⟨et, n1, ⟨buf1, h1⟩⟩
      · rw [het] at h; simp at h
      · rw [het] at h
        simp only at h
        by_cases hdone : et = kEtypeDone
        · rw [if_pos hdone] at h
          by_cases hsz : act + n1 ≠ exp
          · rw [if_pos hsz] at h; simp at h
          · rw [if_neg hsz] at h
            simp only [Except.ok.injEq, Prod.mk.injEq] at h
            omega
        · rw [if_neg hdone] at h
          rcases hnm : readEname buf1 with e | ⟨ename, n2, ⟨buf2, h2⟩⟩
          · rw [hnm] at h; simp at h
          · rw [hnm] at h
            simp only at h
            rcases hlk : lookupR fields ename with _ | frt
            · rw [hlk] at h; simp at h
            · rw [hlk] at h
              simp only at h
              rcases hva : validateEtypeCanBeDeserializeToRtype et frt with _ | e
              · rw [hva] at h
                simp only at h
                rcases hev : readEvalue buf2 frt ((lookupV cur ename).getD (zeroVal frt)) et
                    with e | ⟨w, n3, ⟨buf3, h3⟩⟩
                · rw [hev] at h; simp at h
                · rw [hev] at h
                  simp only at h
                  rcases hrec : readStructLoop buf3 fields (setKey cur ename w) exp
                      (act + n1 + n2 + n3) with e | ⟨n4, v4, ⟨r4, hr4⟩⟩
                  · rw [hrec] at h; simp at h
                  · rw [hrec] at h
                    simp only [Except.ok.injEq, Prod.mk.injEq] at h
                    have := ih buf3 (by omega) fields (setKey cur ename w) exp
                      (act + n1 + n2 + n3) n4 v4 ⟨r4, hr4⟩ hrec
                    omega
              · rw [hva] at h; simp at h
  intro buf fields cur exp act n v r h
  exact main buf.length buf le_rfl fields cur exp act n v r h


/-- Same accounting for the map loop. -/
theorem readMapLoop_ok_size :
    ∀ (buf : Bytes) (elemT : Rtype) (acc : List (Bytes × GoVal))
      (exp act n : Int) (v : List (Bytes × GoVal))
      (r : {r : Bytes // r.length ≤ buf.length}),
      readMapLoop buf elemT acc exp act = .ok (n, v, r) → n = exp := by
  have main : ∀ (N : Nat) (buf : Bytes), buf.length ≤ N →
      ∀ elemT acc (exp act n : Int) v r,
        readMapLoop buf elemT acc exp act = .ok (n, v, r) → n = exp := by
    intro N
    induction N with
    | zero =>
      intro buf hlen elemT acc exp act n v r h
      have hbuf : buf = [] := by
        cases buf with
        | nil => rfl
        | cons a l => simp at hlen
      subst hbuf
      rw [readMapLoop] at h
      simp [readEtype, readByte] at h
    | succ N ih =>
      intro buf hlen elemT acc exp act n v r h
      rw [readMapLoop] at h
      rcases het : readEtype buf with e | ⟨et, n1, ⟨buf1, h1⟩⟩
      · rw [het] at h; simp at h
      · rw [het] at h
        simp only at h
        by_cases hdone : et = kEtypeDone
        · rw [if_pos hdone] at h
          by_cases hsz : act + n1 ≠ exp
          · rw [if_pos hsz] at h; simp at h
          · rw [if_neg hsz] at h
            simp only [Except.ok.injEq, Prod.mk.injEq] at h
            omega
        · rw [if_neg hdone] at h
          rcases hnm : readEname buf1 with e | ⟨ename, n2, ⟨buf2, h2⟩⟩
          · rw [hnm] at h; simp at h
          · rw [hnm] at h
            simp only at h
            rcases hva : validateEtypeCanBeDeserializeToRtype et elemT with _ | e
            · rw [hva] at h
              simp only at h
              rcases htt : tmpTargetForMap elemT et with e | ⟨tmpT, tmpInit⟩
              · rw [htt] at h; simp at h
              · rw [htt] at h
                simp only at h
                rcases hev : readEvalue buf2 tmpT tmpInit et with e | ⟨w, n3, ⟨buf3, h3⟩⟩
                · rw [hev] at h; simp at h
                · rw [hev] at h
                  simp only at h
                  rcases hrec : readMapLoop buf3 elemT (setKey acc ename w) exp
                      (act + n1 + n2 + n3) with e | ⟨n4, v4, ⟨r4, hr4⟩⟩
                  · rw [hrec] at h; simp at h
                  · rw [hrec] at h
                    simp only [Except.ok.injEq, Prod.mk.injEq] at h
                    have := ih buf3 (by omega) elemT (setKey acc ename w) exp
                      (act + n1 + n2 + n3) n4 v4 ⟨r4, hr4⟩ hrec
                    omega
            · rw [hva] at h; simp at h
  intro buf elemT acc exp act n v r h
  exact main buf.length buf le_rfl elemT acc exp act n v r h

/-- Same accounting for the array loop. -/
theorem readArrayLoop_ok_size :
    ∀ (buf : Bytes) (elemT : Rtype) (acc : List GoVal)
      (exp act n : Int) (v : List GoVal)
      (r : {r : Bytes // r.length ≤ buf.length}),
      readArrayLoop buf elemT acc exp act = .ok (n, v, r) → n = exp := by
  have main : ∀ (N : Nat) (buf : Bytes), buf.length ≤ N →
      ∀ elemT acc (exp act n : Int) v r,
        readArrayLoop buf elemT acc exp act = .ok (n, v, r) → n = exp := by
    intro N
    induction N with
    | zero =>
      intro buf hlen elemT acc exp act n v r h
      have hbuf : buf = [] := by
        cases buf with
        | nil => rfl
        | cons a l => simp at hlen
      subst hbuf
      rw [readArrayLoop] at h
      simp [readEtype, readByte] at h
    | succ N ih =>
      intro buf hlen elemT acc exp act n v r h
      rw [readArrayLoop] at h
      rcases het : readEtype buf with e | ⟨et, n1, ⟨buf1, h1⟩⟩
      · rw [het] at h; simp at h
      · rw [het] at h
        simp only at h
        by_cases hdone : et = kEtypeDone
        · rw [if_pos hdone] at h
          by_cases hsz : act + n1 ≠ exp
          · rw [if_pos hsz] at h; simp at h
          · rw [if_neg hsz] at h
            simp only [Except.ok.injEq, Prod.mk.injEq] at h
            omega
        · rw [if_neg hdone] at h
          rcases hnm : readEname buf1 with e | ⟨ename, n2, ⟨buf2, h2⟩⟩
          · rw [hnm] at h; simp at h
          · rw [hnm] at h
            simp only at h
            rcases hva : validateEtypeCanBeDeserializeToRtype et elemT with _ | e
            · rw [hva] at h
              simp only at h
              rcases htt : tmpTargetForArr elemT et with e | ⟨tmpT, tmpInit⟩
              · rw [htt] at h; simp at h
              · rw [htt] at h
                simp only at h
                rcases hev : readEvalue buf2 tmpT tmpInit et with e | ⟨w, n3, ⟨buf3, h3⟩⟩
                · rw [hev] at h; simp at h
                · rw [hev] at h
                  simp only at h
                  rcases hrec : readArrayLoop buf3 elemT (acc ++ [w]) exp
                      (act + n1 + n2 + n3) with e | ⟨n4, v4, ⟨r4, hr4⟩⟩
                  · rw [hrec] at h; simp at h
                  · rw [hrec] at h
                    simp only [Except.ok.injEq, Prod.mk.injEq] at h
                    have := ih buf3 (by omega) elemT (acc ++ [w]) exp
                      (act + n1 + n2 + n3) n4 v4 ⟨r4, hr4⟩ hrec
                    omega
            · rw [hva] at h; simp at h
  intro buf elemT acc exp act n v r h
  exact main buf.length buf le_rfl elemT acc exp act n v r h


theorem readInt32_ok (buf : Bytes) (z n : Int)
    (r : {r : Bytes // r.length + 4 = buf.length})
    (h : readInt32 buf = .ok (z, n, r)) :
    z = int32OfLe buf ∧ n = 4 ∧ r.1 = buf.drop 4 := by
  rw [readInt32] at h
  by_cases hlen : buf.length < 4
  · rw [dif_pos hlen] at h; simp at h
  · rw [dif_neg hlen] at h
    simp only [Except.ok.injEq, Prod.mk.injEq] at h
    obtain ⟨hz, hn, hr⟩ := h
    exact ⟨hz.symm, hn.symm, by rw [← hr]⟩

/-- Reading the done tag: the loop returns the accumulated count if and
only if it equals the declared size, and otherwise fails with the
length-mismatch error (readStruct loop). -/
theorem readStructLoop_done (buf' : Bytes) (fields : List (Bytes × Rtype))
    (cur : List (Bytes × GoVal)) (exp act : Int) :
    (act + 1 = exp →
      readStructLoop (kEtypeDone :: buf') fields cur exp act =
        .ok (act + 1, cur, ⟨buf', by simp⟩)) ∧
    (act + 1 ≠ exp →
      readStructLoop (kEtypeDone :: buf') fields cur exp act =
        .error .lengthMismatch) := by
  constructor <;> intro hc <;>
    simp [readStructLoop, readEtype, readByte, kEtypeDone, hc]

/-- Reading the done tag in the map loop. -/
theorem readMapLoop_done (buf' : Bytes) (elemT : Rtype)
    (acc : List (Bytes × GoVal)) (exp act : Int) :
    (act + 1 = exp →
      readMapLoop (kEtypeDone :: buf') elemT acc exp act =
        .ok (act + 1, acc, ⟨buf', by simp⟩)) ∧
    (act + 1 ≠ exp →
      readMapLoop (kEtypeDone :: buf') elemT acc exp act =
        .error .lengthMismatch) := by
  constructor <;> intro hc <;>
    simp [readMapLoop, readEtype, readByte, kEtypeDone, hc]

/-- Reading the done tag in the array loop. -/
theorem readArrayLoop_done (buf' : Bytes) (elemT : Rtype)
    (acc : List GoVal) (exp act : Int) :
    (act + 1 = exp →
      readArrayLoop (kEtypeDone :: buf') elemT acc exp act =
        .ok (act + 1, acc, ⟨buf', by simp⟩)) ∧
    (act + 1 ≠ exp →
      readArrayLoop (kEtypeDone :: buf') elemT acc exp act =
        .error .lengthMismatch) := by
  constructor <;> intro hc <;>
    simp [readArrayLoop, readEtype, readByte, kEtypeDone, hc]

/-- A successful `readStruct` consumes (by its own account) exactly the
int32 length declared in the document's first four bytes. -/
theorem readStruct_ok_size (buf : Bytes) (fields : List (Bytes × Rtype))
    (cur : List (Bytes × GoVal)) (n : Int) (v : List (Bytes × GoVal))
    (r : {r : Bytes // r.length ≤ buf.length})
    (h : readStruct buf fields cur = .ok (n, v, r)) : n = int32OfLe buf := by
  rw [readStruct] at h
  rcases hi : readInt32 buf with e | ⟨exp, n0, ⟨buf1, h1⟩⟩
  · rw [hi] at h; simp at h
  · rw [hi] at h
    simp only at h
    rcases hrec : readStructLoop buf1 fields cur exp n0 with e | ⟨n4, v4, ⟨r4, hr4⟩⟩
    · rw [hrec] at h; simp at h
    · rw [hrec] at h
      simp only [Except.ok.injEq, Prod.mk.injEq] at h
      have hsz := readStructLoop_ok_size buf1 fields cur exp n0 n4 v4 ⟨r4, hr4⟩ hrec
      have hz := (readInt32_ok buf exp n0 ⟨buf1, h1⟩ hi).1
      omega

/-- A successful `readMap` consumes exactly the declared int32 length. -/
theorem readMap_ok_size (buf : Bytes) (elemT : Rtype)
    (prior : List (Bytes × GoVal)) (n : Int) (v : List (Bytes × GoVal))
    (r : {r : Bytes // r.length ≤ buf.length})
    (h : readMap buf elemT prior = .ok (n, v, r)) : n = int32OfLe buf := by
  rw [readMap] at h
  rcases hi : readInt32 buf with e | ⟨exp, n0, ⟨buf1, h1⟩⟩
  · rw [hi] at h; simp at h
  · rw [hi] at h
    simp only at h
    rcases hrec : readMapLoop buf1 elemT [] exp n0 with e | ⟨n4, v4, ⟨r4, hr4⟩⟩
    · rw [hrec] at h; simp at h
    · rw [hrec] at h
      simp only [Except.ok.injEq, Prod.mk.injEq] at h
      have hsz := readMapLoop_ok_size buf1 elemT [] exp n0 n4 v4 ⟨r4, hr4⟩ hrec
      have hz := (readInt32_ok buf exp n0 ⟨buf1, h1⟩ hi).1
      omega

/-- A successful `readArray` consumes exactly the declared int32 length. -/
theorem readArray_ok_size (buf : Bytes) (elemT : Rtype)
    (prior : List GoVal) (n : Int) (v : List GoVal)
    (r : {r : Bytes // r.length ≤ buf.length})
    (h : readArray buf elemT prior = .ok (n, v, r)) : n = int32OfLe buf := by
  rw [readArray] at h
  rcases hi : readInt32 buf with e | ⟨exp, n0, ⟨buf1, h1⟩⟩
  · rw [hi] at h; simp at h
  · rw [hi] at h
    simp only at h
    rcases hrec : readArrayLoop buf1 elemT [] exp n0 with e | ⟨n4, v4, ⟨r4, hr4⟩⟩
    · rw [hrec] at h; simp at h
    · rw [hrec] at h
      simp only [Except.ok.injEq, Prod.mk.injEq] at h
      have hsz := readArrayLoop_ok_size buf1 elemT [] exp n0 n4 v4 ⟨r4, hr4⟩ hrec
      have hz := (readInt32_ok buf exp n0 ⟨buf1, h1⟩ hi).1
      omega


/-! ## Claim theorems. -/

/-- C5: per-document length accounting.  When any of the three element
loops (struct, map, array targets) reads the done (0x00) tag, it returns
the accumulated consumed count only if it equals the declared length
prefix, and fails with the length-mismatch error otherwise; consequently
every successful `readStruct`/`readMap`/`readArray` reports exactly the
int32 length declared in its first four bytes. -/
theorem C5_length_accounting :
    (∀ (buf' : Bytes) (fields : List (Bytes × Rtype)) (cur : List (Bytes × GoVal))
        (exp act : Int),
      (act + 1 = exp →
        readStructLoop (kEtypeDone :: buf') fields cur exp act =
          .ok (act + 1, cur, ⟨buf', by simp⟩)) ∧
      (act + 1 ≠ exp →
        readStructLoop (kEtypeDone :: buf') fields cur exp act =
          .error .lengthMismatch)) ∧
    (∀ (buf' : Bytes) (elemT : Rtype) (acc : List (Bytes × GoVal)) (exp act : Int),
      (act + 1 = exp →
        readMapLoop (kEtypeDone :: buf') elemT acc exp act =
          .ok (act + 1, acc, ⟨buf', by simp⟩)) ∧
      (act + 1 ≠ exp →
        readMapLoop (kEtypeDone :: buf') elemT acc exp act =
          .error .lengthMismatch)) ∧
    (∀ (buf' : Bytes) (elemT : Rtype) (acc : List GoVal) (exp act : Int),
      (act + 1 = exp →
        readArrayLoop (kEtypeDone :: buf') elemT acc exp act =
          .ok (act + 1, acc, ⟨buf', by simp⟩)) ∧
      (act + 1 ≠ exp →
        readArrayLoop (kEtypeDone :: buf') elemT acc exp act =
          .error .lengthMismatch)) ∧
    (∀ (buf : Bytes) (fields : List (Bytes × Rtype)) (cur : List (Bytes × GoVal))
        (n : Int) (v : List (Bytes × GoVal)) (r : {r : Bytes // r.length ≤ buf.length}),
      readStruct buf fields cur = .ok (n, v, r) → n = int32OfLe buf) ∧
    (∀ (buf : Bytes) (elemT : Rtype) (prior : List (Bytes × GoVal))
        (n : Int) (v : List (Bytes × GoVal)) (r : {r : Bytes // r.length ≤ buf.length}),
      readMap buf elemT prior = .ok (n, v, r) → n = int32OfLe buf) ∧
    (∀ (buf : Bytes) (elemT : Rtype) (prior : List GoVal)
        (n : Int) (v : List GoVal) (r : {r : Bytes // r.length ≤ buf.length}),
      readArray buf elemT prior = .ok (n, v, r) → n = int32OfLe buf) :=
  ⟨readStructLoop_done, readMapLoop_done, readArrayLoop_done,
   readStruct_ok_size, readMap_ok_size, readArray_ok_size⟩

/-- Witness for C5 at concrete inputs: a done tag with matching count
succeeds returning the count; with a mismatched count it fails with the
length-mismatch error. -/
theorem C5_length_accounting_witness :
    readStructLoop (kEtypeDone :: []) [] [] 5 4 = .ok (5, [], ⟨[], by simp⟩) ∧
    readMapLoop (kEtypeDone :: []) .rAny [] 7 4 = .error .lengthMismatch := by
  constructor
  · have h := (C5_length_accounting.1 [] [] [] 5 4).1 (by norm_num)
    simpa using h
  · exact (C5_length_accounting.2.1 [] .rAny [] 7 4).2 (by norm_num)

/-- C3: length-prefix correctness.  Every document or array in the
output of a successful encode starts with 4 bytes that are the
little-endian encoding of its exact total byte length, terminator
included; read back as a signed little-endian int32 they equal that
length.  Conjunct 1: every `encDoc` production (the bytes of `appendMap`,
used for maps, structs and — through the index-keyed conversion — arrays,
at every nesting level).  Conjunct 2: every successful `Marshal` output
whose top-level value is itself document- or array-typed.  The guard is
behavior of the program, not a restriction of the claim: the one
successful `Marshal` whose output is NOT a document is a top-level
`time.Time` (reflect kind `Struct`, so it passes the kind check), which
conjunct 4 shows encodes to a bare headerless 8-byte int64 — an output
containing no document or array at all, about which the claim says
nothing.  Conjunct 3: the payload of every nested document- or
array-typed value. -/
theorem C3_size_header :
    (∀ (doc : List (Bytes × GoVal)) (bs : Bytes), encDoc doc = .ok bs →
      bs.take 4 = le32 bs.length ∧ int32OfLe bs = (bs.length : Int)) ∧
    (∀ (document : GoVal) (bs : Bytes), Marshal document = .ok bs →
      (getEtype document = .ok kEtypeDocument ∨ getEtype document = .ok kEtypeArray) →
      bs.take 4 = le32 bs.length ∧ int32OfLe bs = (bs.length : Int)) ∧
    (∀ (v : GoVal) (bs : Bytes), encAny v = .ok bs →
      (getEtype v = .ok kEtypeDocument ∨ getEtype v = .ok kEtypeArray) →
      bs.take 4 = le32 bs.length ∧ int32OfLe bs = (bs.length : Int)) ∧
    (∀ ms : Int, Marshal (.vTime ms) = .ok (le64i ms)) := by
  have part1 : ∀ (doc : List (Bytes × GoVal)) (bs : Bytes), encDoc doc = .ok bs →
      bs.take 4 = le32 bs.length ∧ int32OfLe bs = (bs.length : Int) := by
    intro doc bs h
    obtain ⟨body, _, hshape, hsmall, hlen⟩ := encDoc_ok_shape doc bs h
    have htake : ∀ (N : Nat) (X : Bytes), (le32 N ++ X).take 4 = le32 N := by
      intro N X
      rw [show (4 : Nat) = (le32 N).length from rfl]
      exact List.take_left _ _
    constructor
    · rw [hlen, hshape, List.append_assoc, htake]
    · rw [hlen, hshape, List.append_assoc, int32OfLe_le32 _ _ hsmall]
  have part3 : ∀ (v : GoVal) (bs : Bytes), encAny v = .ok bs →
      (getEtype v = .ok kEtypeDocument ∨ getEtype v = .ok kEtypeArray) →
      bs.take 4 = le32 bs.length ∧ int32OfLe bs = (bs.length : Int) := by
    apply encAny.induct
      (fun v => ∀ bs, encAny v = .ok bs →
        (getEtype v = .ok kEtypeDocument ∨ getEtype v = .ok kEtypeArray) →
        bs.take 4 = le32 bs.length ∧ int32OfLe bs = (bs.length : Int))
      (fun _ => True)
      (fun _ => True)
    · intro bs h _; simp [encAny] at h
    · intro w ih bs h hget
      rw [show encAny (.vPtrTo w) = encAny w from by rw [encAny]] at h
      rw [show getEtype (.vPtrTo w) = getEtype w from by rw [getEtype]] at hget
      exact ih bs h hget
    · intro bs h _; simp [encAny] at h
    · intro b hbig bs h _; simp [encAny, hbig] at h
    · intro b hbig bs h hget
      exfalso
      simp [getEtype, kEtypeBinary, kEtypeDocument, kEtypeArray] at hget
    · intro ss hbig bs h _; simp [encAny, hbig] at h
    · intro ss hbig bs h hget
      exfalso
      simp [getEtype, kEtypeString, kEtypeDocument, kEtypeArray] at hget
    · intro bits bs h hget
      exfalso
      simp [getEtype, kEtypeDouble, kEtypeDocument, kEtypeArray] at hget
    · intro b bs h hget
      exfalso
      simp [getEtype, kEtypeBoolean, kEtypeDocument, kEtypeArray] at hget
    · intro ms bs h hget
      exfalso
      simp [getEtype, kEtypeUtcDatetime, kEtypeDocument, kEtypeArray] at hget
    · intro n bs h hget
      exfalso
      simp [getEtype, kEtypeInt32, kEtypeDocument, kEtypeArray] at hget
    · intro n bs h hget
      exfalso
      simp [getEtype, kEtypeInt64, kEtypeDocument, kEtypeArray] at hget
    · intro n bs h hget
      exfalso
      simp [getEtype, kEtypeInt64, kEtypeDocument, kEtypeArray] at hget
    · intro pairs _ bs h _
      rw [show encAny (.vDoc pairs) = encDoc pairs from by rw [encAny]] at h
      exact part1 pairs bs h
    · intro fields _ bs h _
      rw [show encAny (.vStruct fields) = encDoc fields from by rw [encAny]] at h
      exact part1 fields bs h
    · intro elems _ bs h _
      rw [show encAny (.vArr elems) = encDoc (convertSliceToPairs 0 elems).1 from by
        rw [encAny]] at h
      exact part1 _ bs h
    · intro bs h _; simp [encAny] at h
    all_goals intros <;> trivial
  have part2 : ∀ (document : GoVal), ∀ (bs : Bytes), Marshal document = .ok bs →
      (getEtype document = .ok kEtypeDocument ∨ getEtype document = .ok kEtypeArray) →
      bs.take 4 = le32 bs.length ∧ int32OfLe bs = (bs.length : Int) := by
    apply Marshal.induct (fun document => ∀ bs, Marshal document = .ok bs →
      (getEtype document = .ok kEtypeDocument ∨ getEtype document = .ok kEtypeArray) →
      bs.take 4 = le32 bs.length ∧ int32OfLe bs = (bs.length : Int))
    · intro bs h _; simp [Marshal] at h
    · intro w ih bs h hget
      rw [show Marshal (.vPtrTo w) = Marshal w from by rw [Marshal]] at h
      rw [show getEtype (.vPtrTo w) = getEtype w from by rw [getEtype]] at hget
      exact ih bs h hget
    · intro bs h _; simp [Marshal] at h
    · intro pairs buf2 e happ bs h _
      rw [Marshal_vDoc] at h
      exact part1 pairs bs h
    · intro pairs buf2 happ bs h _
      rw [Marshal_vDoc] at h
      exact part1 pairs bs h
    · intro fields buf2 e happ bs h _
      rw [Marshal_vStruct] at h
      exact part1 fields bs h
    · intro fields buf2 happ bs h _
      rw [Marshal_vStruct] at h
      exact part1 fields bs h
    · intro ms buf2 e happ bs h hget
      exfalso
      simp [getEtype, kEtypeUtcDatetime, kEtypeDocument, kEtypeArray] at hget
    · intro ms buf2 happ bs h hget
      exfalso
      simp [getEtype, kEtypeUtcDatetime, kEtypeDocument, kEtypeArray] at hget
    · intro t h1 h2 h3 h4 h5 h6 bs h hget
      exfalso
      cases t with
      | vPtrNil => exact h1 rfl
      | vPtrTo w => exact h2 w rfl
      | vNilIface => exact h3 rfl
      | vDoc pairs => exact h4 pairs rfl
      | vStruct fields => exact h5 fields rfl
      | vTime ms => exact h6 ms rfl
      | vFloat bits => simp [Marshal] at h
      | vString ss => simp [Marshal] at h
      | vBinary b => simp [Marshal] at h
      | vBool b => simp [Marshal] at h
      | vInt32 n => simp [Marshal] at h
      | vInt n => simp [Marshal] at h
      | vInt64 n => simp [Marshal] at h
      | vArr elems => simp [Marshal] at h
      | vOtherType => simp [Marshal] at h
  exact ⟨part1, part2, part3, fun ms => Marshal_vTime ms⟩

/-- Witness for C3: the empty document encodes to `05 00 00 00 00`, whose
size header decodes to its length 5. -/
theorem C3_size_header_witness :
    ([5, 0, 0, 0, 0] : Bytes).take 4 = le32 5 ∧
    int32OfLe [5, 0, 0, 0, 0] = (5 : Int) := by
  have henc : encDoc ([] : List (Bytes × GoVal)) = .ok [5, 0, 0, 0, 0] := by
    rw [show encDoc ([] : List (Bytes × GoVal)) =
        (match encElems (sortPairsS ([] : List (Bytes × GoVal))).1 with
        | .error e => .error e
        | .ok body =>
          if 4 + body.length + 1 > maxInt32 then .error .sizeTooBig
          else .ok (le32 (4 + body.length + 1) ++ body ++ [kEtypeDone]))
        from by rw [encDoc]]
    simp [sortPairsS, sortPairs, List.insertionSort, encElems, maxInt32, le32, kEtypeDone]
  have h := C3_size_header.1 [] [5, 0, 0, 0, 0] henc
  simpa using h


/-- C6: a null indirection on encode.  The encoder does classify and
serialize through pointers (`getEtype`/`encAny` are transparent on
`vPtrTo`), but a nil pointer does not produce an error return: it panics
inside `reflect` (`Value.Elem().Interface()` on a nil pointer yields the
zero `Value`, whose `Interface()` call panics), modelled as the `.crash`
outcome — both for a nil pointer nested in a document and for a nil
pointer at the top level. -/
theorem C6_nil_indirection_crash :
    (∀ w : GoVal, getEtype (.vPtrTo w) = getEtype w ∧ encAny (.vPtrTo w) = encAny w) ∧
    Marshal (.vStruct [([80], .vPtrNil)]) = .error .crash ∧
    Marshal .vPtrNil = .error .crash := by
  refine ⟨fun w => ⟨by rw [getEtype], by rw [encAny]⟩, ?_, by rw [Marshal]⟩
  rw [Marshal_vStruct]
  rw [show encDoc [(([80] : Bytes), GoVal.vPtrNil)] =
      (match encElems (sortPairsS [(([80] : Bytes), GoVal.vPtrNil)]).1 with
      | .error e => .error e
      | .ok body =>
        if 4 + body.length + 1 > maxInt32 then .error .sizeTooBig
        else .ok (le32 (4 + body.length + 1) ++ body ++ [kEtypeDone]))
      from by rw [encDoc]]
  simp [sortPairsS, sortPairs, List.insertionSort, encElems, validateEname, getEtype]

/-- C8: decode is not total — a corrupt string size field crashes.  A
string element whose declared `sizeWithNullterm` is 0 reaches
`make([]byte, sizeWithNullterm-1)` with a negative length, a Go runtime
panic (`.crash`), and a binary element with a negative declared size
panics the same way: the decoder crashes instead of returning an error. -/
theorem C8_decode_crash_on_corrupt_size :
    Unmarshal [12, 0, 0, 0, 2, 65, 0, 0, 0, 0, 0, 0] (.rMap .rAny) (.vDoc []) =
      .error .crash ∧
    Unmarshal [13, 0, 0, 0, 5, 65, 0, 255, 255, 255, 255, 0, 0] (.rMap .rAny) (.vDoc []) =
      .error .crash := by
  constructor <;>
    simp [Unmarshal, readMap, readMapLoop, readEtype, readByte, readEname, readInt32,
          readEvalue, readEvalueScalar, readEstring, readEbinary, bufferRead,
          validateEtypeCanBeDeserializeToRtype, tmpTargetForMap, pairsOf,
          Rtype.isAny, Rtype.isInt,
          int32OfLe, wrap32, leNat, List.take,
          kEtypeDone, kEtypeDouble, kEtypeString, kEtypeBinary, kEtypeBoolean,
          kEtypeUtcDatetime, kEtypeInt32, kEtypeInt64, kEtypeDocument, kEtypeArray]

/-- C10: map-like and sequence-like decode targets are freshly rebuilt:
`readMap`/`readArray` install a new empty container before filling
(`reflect.MakeMap`/`MakeSlice`), so the result does not depend on the
prior contents of the target at all, and decoding the empty document into
a map target holding stale entries yields the empty map. -/
theorem C10_fresh_containers :
    (∀ (buf : Bytes) (elemT : Rtype) (p1 p2 : List (Bytes × GoVal)),
      readMap buf elemT p1 = readMap buf elemT p2) ∧
    (∀ (buf : Bytes) (elemT : Rtype) (p1 p2 : List GoVal),
      readArray buf elemT p1 = readArray buf elemT p2) ∧
    Unmarshal [5, 0, 0, 0, 0] (.rMap .rAny)
      (.vDoc [([115], .vString [115]), ([116], .vInt32 7)]) = .ok (.vDoc []) := by
  refine ⟨fun buf elemT p1 p2 => ?_, fun buf elemT p1 p2 => ?_, ?_⟩
  · rw [readMap, readMap]
  · rw [readArray, readArray]
  · simp [Unmarshal, readMap, readMapLoop, readEtype, readByte, readInt32, pairsOf,
          int32OfLe, leNat, List.take, kEtypeDone, wrap32_eq_self, wrap32_int_eq_self]


/-! ## Bad-key propagation (toward C9). -/

theorem hasBadKeyP_perm : ∀ {l l' : List (Bytes × GoVal)}, l.Perm l' →
    hasBadKeyP l = hasBadKeyP l' := by
  intro l l' h
  induction h with
  | nil => rfl
  | cons x _ ih => simp [hasBadKeyP, ih]
  | swap x y l =>
    simp [hasBadKeyP, Bool.or_assoc, Bool.or_comm, Bool.or_left_comm]
  | trans _ _ ih1 ih2 => exact ih1.trans ih2

theorem zero_not_mem_decKey : ∀ i : Nat, ¬(0 ∈ decKey i) := by
  intro i
  induction i using decKey.induct with
  | case1 i hlt =>
    rw [decKey, if_pos hlt]
    intro hmem
    simp at hmem
    omega
  | case2 i hlt ih =>
    rw [decKey, if_neg hlt]
    intro hmem
    rw [List.mem_append] at hmem
    rcases hmem with hmem | hmem
    · exact ih hmem
    · simp at hmem
      omega

theorem hasBadKeyP_convertSlice : ∀ (elems : List GoVal) (i : Nat),
    hasBadKeyP (convertSliceToPairs i elems).1 = hasBadKeyL elems := by
  intro elems
  induction elems with
  | nil => intro i; simp [convertSliceToPairs, hasBadKeyP, hasBadKeyL]
  | cons v rest ih =>
    intro i
    rw [show (convertSliceToPairs i (v :: rest)).1 =
        (decKey i, v) :: (convertSliceToPairs (i + 1) rest).1 from by
      rw [convertSliceToPairs]]
    simp [hasBadKeyP, hasBadKeyL, zero_not_mem_decKey, ih]



/-! Unfolding equations used repeatedly below. -/

theorem encAny_vDoc (pairs : List (Bytes × GoVal)) :
    encAny (.vDoc pairs) = encDoc pairs := by rw [encAny]

theorem encAny_vStruct (fields : List (Bytes × GoVal)) :
    encAny (.vStruct fields) = encDoc fields := by rw [encAny]

theorem encAny_vArr (elems : List GoVal) :
    encAny (.vArr elems) = encDoc (convertSliceToPairs 0 elems).1 := by rw [encAny]

theorem encAny_vPtrTo (w : GoVal) : encAny (.vPtrTo w) = encAny w := by rw [encAny]

theorem encDoc_eq (doc : List (Bytes × GoVal)) :
    encDoc doc =
      (match encElems (sortPairsS doc).1 with
      | .error e => .error e
      | .ok body =>
        if 4 + body.length + 1 > maxInt32 then .error .sizeTooBig
        else .ok (le32 (4 + body.length + 1) ++ body ++ [kEtypeDone])) := by
  rw [encDoc]

theorem encElems_cons (key : Bytes) (val : GoVal) (rest : List (Bytes × GoVal)) :
    encElems ((key, val) :: rest) =
      (match validateEname key with
      | some e => .error e
      | none =>
        match getEtype val with
        | .error e => .error e
        | .ok et =>
          match encAny val with
          | .error e => .error e
          | .ok bs =>
            match encElems rest with
            | .error e => .error e
            | .ok rbs => .ok (et :: (key ++ [kNullTerminator]) ++ bs ++ rbs)) := by
  rw [encElems]

/-- A value containing a document node with a bad key never encodes. -/
theorem encAny_hasBadKey_fails :
    ∀ v : GoVal, hasBadKey v = true → ∀ bs, encAny v ≠ .ok bs := by
  apply encAny.induct
    (fun v => hasBadKey v = true → ∀ bs, encAny v ≠ .ok bs)
    (fun doc => hasBadKeyP doc = true → ∀ bs, encDoc doc ≠ .ok bs)
    (fun l => hasBadKeyP l = true → ∀ bs, encElems l ≠ .ok bs)
  · intro h; simp [hasBadKey] at h
  · intro w ih h bs
    rw [show hasBadKey (.vPtrTo w) = hasBadKey w from by rw [hasBadKey]] at h
    rw [encAny_vPtrTo]
    exact ih h bs
  · intro h; simp [hasBadKey] at h
  · intro b hbig h; simp [hasBadKey] at h
  · intro b hbig h; simp [hasBadKey] at h
  · intro ss hbig h; simp [hasBadKey] at h
  · intro ss hbig h; simp [hasBadKey] at h
  · intro bits h; simp [hasBadKey] at h
  · intro b h; simp [hasBadKey] at h
  · intro ms h; simp [hasBadKey] at h
  · intro n h; simp [hasBadKey] at h
  · intro n h; simp [hasBadKey] at h
  · intro n h; simp [hasBadKey] at h
  · intro pairs ih h bs
    rw [show hasBadKey (.vDoc pairs) = hasBadKeyP pairs from by rw [hasBadKey]] at h
    rw [encAny_vDoc]
    exact ih h bs
  · intro fields ih h bs
    rw [show hasBadKey (.vStruct fields) = hasBadKeyP fields from by rw [hasBadKey]] at h
    rw [encAny_vStruct]
    exact ih h bs
  · intro elems ih h bs
    rw [show hasBadKey (.vArr elems) = hasBadKeyL elems from by rw [hasBadKey]] at h
    rw [encAny_vArr]
    exact ih (by rw [hasBadKeyP_convertSlice]; exact h) bs
  · intro h; simp [hasBadKey] at h
  -- encDoc: the loop failed
  · intro doc e hels ihm h bs
    rw [encDoc_eq, hels]
    simp
  -- encDoc: loop succeeded but the body is present — contradict the loop motive
  · intro doc body hels hbig ihm h bs
    exact absurd hels
      (ihm ((hasBadKeyP_perm (List.perm_insertionSort keyLe doc)).trans h) body)
  · intro doc body hels hbig ihm h bs
    exact absurd hels
      (ihm ((hasBadKeyP_perm (List.perm_insertionSort keyLe doc)).trans h) body)
  -- loop: nil
  · intro h; simp [hasBadKeyP] at h
  -- loop: bad ename
  · intro key val rest e hv h bs
    rw [encElems_cons, hv]
    simp
  -- loop: getEtype error
  · intro key val rest hv e hget h bs
    rw [encElems_cons, hv, hget]
    simp
  -- loop: encAny val errored
  · intro key val rest hv et hget e hval ih1 h bs
    rw [encElems_cons, hv, hget, hval]
    simp
  -- loop: encElems rest errored
  · intro key val rest hv et hget body hval e hrest ih1 ih2 h bs
    rw [encElems_cons, hv, hget, hval, hrest]
    simp
  -- loop: everything succeeded — contradict the bad key
  · intro key val rest hv et hget body hval body2 hrest ih1 ih2 h bs
    exfalso
    have hkey : key.contains 0 = false := by
      rcases hcc : key.contains 0
      · rfl
      · exfalso
        unfold validateEname at hv
        rw [if_pos hcc] at hv
        simp at hv
    rw [show hasBadKeyP ((key, val) :: rest) =
        (key.contains 0 || hasBadKey val || hasBadKeyP rest) from by rw [hasBadKeyP]] at h
    rw [hkey] at h
    simp only [Bool.false_or, Bool.or_eq_true] at h
    rcases h with h | h
    · exact ih1 h body hval
    · exact ih2 h body2 hrest


/-- Every document containing a key with an embedded null byte fails to
encode: `Marshal` returns an error (and hence no bytes). -/
theorem Marshal_hasBadKey_fails :
    ∀ document : GoVal, hasBadKey document = true → ∃ e, Marshal document = .error e := by
  apply Marshal.induct (fun document => hasBadKey document = true →
    ∃ e, Marshal document = .error e)
  · intro _; exact ⟨.crash, by rw [Marshal]⟩
  · intro w ih h
    rw [show hasBadKey (.vPtrTo w) = hasBadKey w from by rw [hasBadKey]] at h
    obtain ⟨e, he⟩ := ih h
    exact ⟨e, by rw [show Marshal (.vPtrTo w) = Marshal w from by rw [Marshal]]; exact he⟩
  · intro _; exact ⟨.crash, by rw [Marshal]⟩
  · intro pairs buf2 e happ h
    rcases hm : Marshal (.vDoc pairs) with e2 | bs
    · exact ⟨e2, rfl⟩
    · exfalso
      rw [Marshal_vDoc] at hm
      exact encAny_hasBadKey_fails (.vDoc pairs) h bs (by rw [encAny_vDoc]; exact hm)
  · intro pairs buf2 happ h
    rcases hm : Marshal (.vDoc pairs) with e2 | bs
    · exact ⟨e2, rfl⟩
    · exfalso
      rw [Marshal_vDoc] at hm
      exact encAny_hasBadKey_fails (.vDoc pairs) h bs (by rw [encAny_vDoc]; exact hm)
  · intro fields buf2 e happ h
    rcases hm : Marshal (.vStruct fields) with e2 | bs
    · exact ⟨e2, rfl⟩
    · exfalso
      rw [Marshal_vStruct] at hm
      exact encAny_hasBadKey_fails (.vStruct fields) h bs (by rw [encAny_vStruct]; exact hm)
  · intro fields buf2 happ h
    rcases hm : Marshal (.vStruct fields) with e2 | bs
    · exact ⟨e2, rfl⟩
    · exfalso
      rw [Marshal_vStruct] at hm
      exact encAny_hasBadKey_fails (.vStruct fields) h bs (by rw [encAny_vStruct]; exact hm)
  · intro ms buf2 e happ h
    simp [hasBadKey] at h
  · intro ms buf2 happ h
    simp [hasBadKey] at h
  · intro t h1 h2 h3 h4 h5 h6 h
    rcases hm : Marshal t with e2 | bs
    · exact ⟨e2, rfl⟩
    · exfalso
      cases t with
      | vPtrNil => exact h1 rfl
      | vPtrTo w => exact h2 w rfl
      | vNilIface => exact h3 rfl
      | vDoc pairs => exact h4 pairs rfl
      | vStruct fields => exact h5 fields rfl
      | vTime ms => exact h6 ms rfl
      | vFloat bits => simp [Marshal] at hm
      | vString ss => simp [Marshal] at hm
      | vBinary b => simp [Marshal] at hm
      | vBool b => simp [Marshal] at hm
      | vInt32 n => simp [Marshal] at hm
      | vInt n => simp [Marshal] at hm
      | vInt64 n => simp [Marshal] at hm
      | vArr elems => simp [Marshal] at hm
      | vOtherType => simp [Marshal] at hm

/-- C9, counterexample to the original claim: in the document
`{"a": true, "b\x00c": true}`, the key `"a"` sorts before the offending
key `"b\x00c"`, and by the time `appendMap` rejects the bad key its
buffer already holds the 4 placeholder size bytes and the complete
element emitted for `"a"` (tag 0x08, name `a`, payload 1) — so bytes of
the document *are* written before the failure, contradicting the claim;
the error kind is the invalid-ename (InvalidKey) error. -/
theorem C9_counterexample_bytes_before_failure :
    appendMap [] [([97], .vBool true), ([98, 0, 99], .vBool true)] =
      ([0, 0, 0, 0, 8, 97, 0, 1], some .invalidEname) ∧
    ([0, 0, 0, 0, 8, 97, 0, 1] : Bytes) ≠ [] := by
  refine ⟨?_, by simp⟩
  rw [show appendMap [] [(([97] : Bytes), GoVal.vBool true), ([98, 0, 99], .vBool true)] =
      (match appendMapLoop ([] ++ le32 0)
          (sortPairsS [(([97] : Bytes), GoVal.vBool true), ([98, 0, 99], .vBool true)]).1 with
      | (buf2, some e) => (buf2, some e)
      | (buf2, none) =>
        let buf3 := buf2 ++ [kEtypeDone]
        let totalSize := buf3.length - ([] : Bytes).length
        if totalSize > maxInt32 then ([], some .sizeTooBig)
        else (buf3.take ([] : Bytes).length ++ le32 totalSize ++
          buf3.drop (([] : Bytes).length + 4), none))
      from by rw [appendMap]]
  simp [sortPairsS, sortPairs, List.insertionSort, List.orderedInsert, keyLe, bytesLe,
        appendMapLoop, validateEname, getEtype, appendAny, le32,
        kEtypeBoolean, kNullTerminator]

/-- C9, amended: every `Marshal` of a document containing a key with an
embedded null byte fails (the InvalidKey rejection when the offending
node is reached first), and since `Marshal` returns `nil` together with
its error, no bytes reach the caller — but internally, elements for keys
sorting before the offending key are appended to the scratch buffer
before the rejection (see the counterexample). -/
theorem C9_bad_key_fails :
    ∀ document : GoVal, hasBadKey document = true →
      ∃ e, Marshal document = .error e :=
  Marshal_hasBadKey_fails

/-- Witness for C9 at a concrete document with an embedded-null key. -/
theorem C9_bad_key_fails_witness :
    ∃ e, Marshal (.vDoc [([98, 0, 99], .vBool true)]) = .error e := by
  apply C9_bad_key_fails
  simp [hasBadKey, hasBadKeyP]


/-! ## Sorting commutation facts (toward C2). -/

theorem orderedInsert_map {α β : Type} (r : α → α → Prop) (s : β → β → Prop)
    [DecidableRel r] [DecidableRel s] (f : β → α)
    (hc : ∀ a b, r (f a) (f b) ↔ s a b) (a : β) :
    ∀ l : List β, List.orderedInsert r (f a) (l.map f) = (List.orderedInsert s a l).map f := by
  intro l
  induction l with
  | nil => rfl
  | cons b bs ih =>
    simp only [List.map_cons, List.orderedInsert]
    by_cases hs : s a b
    · rw [if_pos ((hc a b).mpr hs), if_pos hs]; simp
    · rw [if_neg (fun hr => hs ((hc a b).mp hr)), if_neg hs]; simp [ih]

theorem insertionSort_map {α β : Type} (r : α → α → Prop) (s : β → β → Prop)
    [DecidableRel r] [DecidableRel s] (f : β → α)
    (hc : ∀ a b, r (f a) (f b) ↔ s a b) :
    ∀ l : List β, List.insertionSort r (l.map f) = (List.insertionSort s l).map f := by
  intro l
  induction l with
  | nil => rfl
  | cons b bs ih =>
    simp only [List.map_cons, List.insertionSort]
    rw [ih, orderedInsert_map r s f hc]

theorem canonPairs_eq_map : ∀ l : List (Bytes × GoVal),
    canonPairs l = l.map (fun p => (p.1, canon p.2)) := by
  intro l
  induction l with
  | nil => rw [canonPairs]; rfl
  | cons p rest ih =>
    rw [canonPairs, List.map_cons, ih]

theorem canonList_eq_map : ∀ l : List GoVal, canonList l = l.map canon := by
  intro l
  induction l with
  | nil => rw [canonList]; rfl
  | cons v rest ih => rw [canonList, List.map_cons, ih]

/-- Sorting by keys commutes with canonicalizing the values (the
comparison looks only at keys, which are untouched). -/
theorem sortPairs_canonPairs_comm (l : List (Bytes × GoVal)) :
    sortPairs (canonPairs l) = canonPairs (sortPairs l) := by
  rw [canonPairs_eq_map, canonPairs_eq_map]
  unfold sortPairs
  exact insertionSort_map keyLe keyLe (fun p => (p.1, canon p.2)) (fun a b => Iff.rfl) l

/-- Sorting is idempotent. -/
theorem sortPairs_idem (l : List (Bytes × GoVal)) :
    sortPairs (sortPairs l) = sortPairs l := by
  unfold sortPairs
  exact List.Sorted.insertionSort_eq (List.sorted_insertionSort keyLe _)

/-- `encDoc` sorts internally, so pre-sorting does not change it. -/
theorem encDoc_sortPairs (l : List (Bytes × GoVal)) :
    encDoc (sortPairs l) = encDoc l := by
  rw [encDoc_eq, encDoc_eq]
  rw [show (sortPairsS (sortPairs l)).1 = sortPairs (sortPairs l) from rfl]
  rw [show (sortPairsS l).1 = sortPairs l from rfl]
  rw [sortPairs_idem]

theorem convert_canonList : ∀ (elems : List GoVal) (i : Nat),
    (convertSliceToPairs i (canonList elems)).1 =
      canonPairs (convertSliceToPairs i elems).1 := by
  intro elems
  induction elems with
  | nil =>
    intro i
    rw [canonList]
    rw [show (convertSliceToPairs i ([] : List GoVal)).1 = [] from by
      rw [convertSliceToPairs]]
    rw [canonPairs]
  | cons v rest ih =>
    intro i
    rw [canonList]
    rw [show (convertSliceToPairs i (canon v :: canonList rest)).1 =
        (decKey i, canon v) :: (convertSliceToPairs (i + 1) (canonList rest)).1 from by
      rw [convertSliceToPairs]]
    rw [show (convertSliceToPairs i (v :: rest)).1 =
        (decKey i, v) :: (convertSliceToPairs (i + 1) rest).1 from by
      rw [convertSliceToPairs]]
    rw [canonPairs, ih]

/-- `canon` preserves the wire element type. -/
theorem getEtype_canon : ∀ v : GoVal, getEtype (canon v) = getEtype v := by
  apply canon.induct
    (fun v => getEtype (canon v) = getEtype v)
    (fun _ => True)
    (fun _ => True)
  · intro pairs _
    rw [show canon (.vDoc pairs) = .vDoc (sortPairs (canonPairs pairs)) from by rw [canon]]
    rw [getEtype, getEtype]
  · intro fields _
    rw [show canon (.vStruct fields) = .vDoc (sortPairs (canonPairs fields)) from by
      rw [canon]]
    rw [getEtype, getEtype]
  · intro elems _
    rw [show canon (.vArr elems) = .vArr (canonList elems) from by rw [canon]]
    rw [getEtype, getEtype]
  · intro w ih
    rw [show canon (.vPtrTo w) = canon w from by rw [canon]]
    rw [show getEtype (.vPtrTo w) = getEtype w from by rw [getEtype]]
    exact ih
  · intro n
    rw [show canon (.vInt n) = .vInt64 n from by rw [canon]]
    rw [getEtype, getEtype]
  · intro v h1 h2 h3 h4 h5
    cases v with
    | vDoc pairs => exact absurd rfl (h1 pairs)
    | vStruct fields => exact absurd rfl (h2 fields)
    | vArr elems => exact absurd rfl (h3 elems)
    | vPtrTo w => exact absurd rfl (h4 w)
    | vInt n => exact absurd rfl (h5 n)
    | vFloat bits => simp [canon]
    | vString bs => simp [canon]
    | vBinary bs => simp [canon]
    | vBool b => simp [canon]
    | vTime m => simp [canon]
    | vInt32 n => simp [canon]
    | vInt64 n => simp [canon]
    | vPtrNil => simp [canon]
    | vNilIface => simp [canon]
    | vOtherType => simp [canon]
  all_goals intros <;> trivial


theorem bytesLe_total (a b : Bytes) : bytesLe a b = true ∨ bytesLe b a = true :=
  @IsTotal.total _ keyLe _ (a, .vPtrNil) (b, .vPtrNil)

theorem bytesLe_trans {a b c : Bytes} (h1 : bytesLe a b = true)
    (h2 : bytesLe b c = true) : bytesLe a c = true :=
  @IsTrans.trans _ keyLe _ (a, .vPtrNil) (b, .vPtrNil) (c, .vPtrNil) h1 h2

/-- Canonicalizing a value does not change its encoding: the encoder
already sorts each document's pairs by key, so pre-sorting (and the other
normalizations `canon` performs, which mirror encoding identities) is
invisible in the output. -/
theorem encAny_canon : ∀ v : GoVal, encAny (canon v) = encAny v := by
  apply encAny.induct
    (fun v => encAny (canon v) = encAny v)
    (fun doc => encDoc (sortPairs (canonPairs doc)) = encDoc doc)
    (fun l => encElems (canonPairs l) = encElems l)
  · simp [canon]
  · intro w ih
    rw [show canon (.vPtrTo w) = canon w from by rw [canon]]
    rw [encAny_vPtrTo]
    exact ih
  · simp [canon]
  · intro b hbig; simp [canon]
  · intro b hbig; simp [canon]
  · intro ss hbig; simp [canon]
  · intro ss hbig; simp [canon]
  · intro bits; simp [canon]
  · intro b; simp [canon]
  · intro ms; simp [canon]
  · intro n; simp [canon]
  · intro n
    rw [show canon (.vInt n) = .vInt64 n from by rw [canon]]
    rw [show encAny (.vInt64 n) = .ok (le64i n) from by rw [encAny]]
    rw [show encAny (.vInt n) = .ok (le64i n) from by rw [encAny]]
  · intro n; simp [canon]
  · intro pairs ih
    rw [show canon (.vDoc pairs) = .vDoc (sortPairs (canonPairs pairs)) from by rw [canon]]
    rw [encAny_vDoc, encAny_vDoc]
    exact ih
  · intro fields ih
    rw [show canon (.vStruct fields) = .vDoc (sortPairs (canonPairs fields)) from by
      rw [canon]]
    rw [encAny_vDoc, encAny_vStruct]
    exact ih
  · intro elems ih
    rw [show canon (.vArr elems) = .vArr (canonList elems) from by rw [canon]]
    rw [encAny_vArr, encAny_vArr]
    rw [convert_canonList]
    rw [← encDoc_sortPairs (canonPairs (convertSliceToPairs 0 elems).1)]
    exact ih
  · simp [canon]
  -- encDoc cases: all three reduce to the commutation facts
  · intro doc e hels ihm
    rw [encDoc_eq (sortPairs (canonPairs doc)), encDoc_eq doc]
    rw [show (sortPairsS (sortPairs (canonPairs doc))).1 =
        sortPairs (sortPairs (canonPairs doc)) from rfl]
    rw [show (sortPairsS doc).1 = sortPairs doc from rfl]
    rw [sortPairs_idem, sortPairs_canonPairs_comm]
    rw [show encElems (canonPairs (sortPairs doc)) = encElems (sortPairs doc) from ihm]
  · intro doc body hels hbig ihm
    rw [encDoc_eq (sortPairs (canonPairs doc)), encDoc_eq doc]
    rw [show (sortPairsS (sortPairs (canonPairs doc))).1 =
        sortPairs (sortPairs (canonPairs doc)) from rfl]
    rw [show (sortPairsS doc).1 = sortPairs doc from rfl]
    rw [sortPairs_idem, sortPairs_canonPairs_comm]
    rw [show encElems (canonPairs (sortPairs doc)) = encElems (sortPairs doc) from ihm]
  · intro doc body hels hbig ihm
    rw [encDoc_eq (sortPairs (canonPairs doc)), encDoc_eq doc]
    rw [show (sortPairsS (sortPairs (canonPairs doc))).1 =
        sortPairs (sortPairs (canonPairs doc)) from rfl]
    rw [show (sortPairsS doc).1 = sortPairs doc from rfl]
    rw [sortPairs_idem, sortPairs_canonPairs_comm]
    rw [show encElems (canonPairs (sortPairs doc)) = encElems (sortPairs doc) from ihm]
  -- encElems cases
  · rw [show canonPairs [] = [] from by rw [canonPairs]]
  · intro key val rest e hv
    rw [show canonPairs ((key, val) :: rest) = (key, canon val) :: canonPairs rest from by
      rw [canonPairs]]
    rw [encElems_cons, encElems_cons, hv]
  · intro key val rest hv e hget
    rw [show canonPairs ((key, val) :: rest) = (key, canon val) :: canonPairs rest from by
      rw [canonPairs]]
    rw [encElems_cons, encElems_cons, hv, getEtype_canon, hget]
  · intro key val rest hv et hget e hval ih1
    rw [show canonPairs ((key, val) :: rest) = (key, canon val) :: canonPairs rest from by
      rw [canonPairs]]
    rw [encElems_cons, encElems_cons, hv, getEtype_canon, hget, ih1, hval]
  · intro key val rest hv et hget body hval e hrest ih1 ih2
    rw [show canonPairs ((key, val) :: rest) = (key, canon val) :: canonPairs rest from by
      rw [canonPairs]]
    rw [encElems_cons, encElems_cons, hv, getEtype_canon, hget, ih1, hval, ih2, hrest]
  · intro key val rest hv et hget body hval body2 hrest ih1 ih2
    rw [show canonPairs ((key, val) :: rest) = (key, canon val) :: canonPairs rest from by
      rw [canonPairs]]
    rw [encElems_cons, encElems_cons, hv, getEtype_canon, hget, ih1, hval, ih2, hrest]

/-- `Marshal` is likewise blind to canonicalization. -/
theorem Marshal_canon : ∀ D : GoVal, Marshal (canon D) = Marshal D := by
  apply canon.induct
    (fun v => Marshal (canon v) = Marshal v)
    (fun _ => True)
    (fun _ => True)
  · intro pairs _
    have h := encAny_canon (.vDoc pairs)
    rw [show canon (.vDoc pairs) = .vDoc (sortPairs (canonPairs pairs)) from by
      rw [canon]] at h ⊢
    rw [encAny_vDoc, encAny_vDoc] at h
    rw [Marshal_vDoc, Marshal_vDoc, h]
  · intro fields _
    have h := encAny_canon (.vStruct fields)
    rw [show canon (.vStruct fields) = .vDoc (sortPairs (canonPairs fields)) from by
      rw [canon]] at h ⊢
    rw [encAny_vDoc, encAny_vStruct] at h
    rw [Marshal_vDoc, Marshal_vStruct, h]
  · intro elems _
    rw [show canon (.vArr elems) = .vArr (canonList elems) from by rw [canon]]
    simp [Marshal]
  · intro w ih
    rw [show canon (.vPtrTo w) = canon w from by rw [canon]]
    rw [show Marshal (.vPtrTo w) = Marshal w from by rw [Marshal]]
    exact ih
  · intro n
    rw [show canon (.vInt n) = .vInt64 n from by rw [canon]]
    simp [Marshal]
  · intro v h1 h2 h3 h4 h5
    cases v with
    | vDoc pairs => exact absurd rfl (h1 pairs)
    | vStruct fields => exact absurd rfl (h2 fields)
    | vArr elems => exact absurd rfl (h3 elems)
    | vPtrTo w => exact absurd rfl (h4 w)
    | vInt n => exact absurd rfl (h5 n)
    | vFloat bits => simp [canon]
    | vString bs => simp [canon]
    | vBinary bs => simp [canon]
    | vBool b => simp [canon]
    | vTime m => simp [canon]
    | vInt32 n => simp [canon]
    | vInt64 n => simp [canon]
    | vPtrNil => simp [canon]
    | vNilIface => simp [canon]
    | vOtherType => simp [canon]
  all_goals intros <;> trivial

/-- C2: encoder determinism via key-sort canonicalization.  (1) Any two
documents with the same canonical form — same logical key/value content up
to container order and the encoder-invisible normalizations — marshal to
the same result.  (2) The key list the encoder materializes (`sortedKeys`)
is exactly the key column of the pair order it emits, is sorted in
ascending byte-wise order, is a permutation of the input's keys, and
pre-sorting a document does not change its encoding. -/
theorem C2_sorted_deterministic_encode :
    (∀ D1 D2 : GoVal, canon D1 = canon D2 → Marshal D1 = Marshal D2) ∧
    (∀ doc : List (Bytes × GoVal),
      sortedKeys doc = (sortPairs doc).map Prod.fst ∧
      List.Sorted (fun a b : Bytes => bytesLe a b = true) (sortedKeys doc) ∧
      (sortedKeys doc).Perm (doc.map Prod.fst) ∧
      encDoc (sortPairs doc) = encDoc doc) := by
  constructor
  · intro D1 D2 h
    rw [← Marshal_canon D1, ← Marshal_canon D2, h]
  · intro doc
    haveI htot : IsTotal Bytes (fun a b : Bytes => bytesLe a b = true) :=
      ⟨fun a b => bytesLe_total a b⟩
    haveI htrans : IsTrans Bytes (fun a b : Bytes => bytesLe a b = true) :=
      ⟨fun _ _ _ h1 h2 => bytesLe_trans h1 h2⟩
    refine ⟨?_, ?_, ?_, encDoc_sortPairs doc⟩
    · unfold sortedKeys sortPairs
      exact insertionSort_map (fun a b : Bytes => bytesLe a b = true) keyLe Prod.fst
        (fun a b => Iff.rfl) doc
    · exact List.sorted_insertionSort _ _
    · exact List.perm_insertionSort _ _

/-- Witness for C2: two concrete documents with the same content in
different orders have equal canonical forms and hence equal encodings. -/
theorem C2_sorted_deterministic_encode_witness :
    canon (.vDoc [([98], .vBool true), ([97], .vBool false)]) =
      canon (.vDoc [([97], .vBool false), ([98], .vBool true)]) ∧
    Marshal (.vDoc [([98], .vBool true), ([97], .vBool false)]) =
      Marshal (.vDoc [([97], .vBool false), ([98], .vBool true)]) := by
  have hc : canon (.vDoc [([98], .vBool true), ([97], .vBool false)]) =
      canon (.vDoc [([97], .vBool false), ([98], .vBool true)]) := by
    simp [canon, canonPairs, sortPairs, List.insertionSort, List.orderedInsert,
      keyLe, bytesLe]
  exact ⟨hc, C2_sorted_deterministic_encode.1 _ _ hc⟩


/-! ## Suffix behavior of the decode primitives (toward C4).

Each successful read consumed a definite prefix `C` of its input: the
result depends only on `C` (extension invariance), and every strict
prefix of `C` fails with a truncation-class error. -/

theorem wrap32_range (z : Int) : -2147483648 ≤ wrap32 z ∧ wrap32 z < 2147483648 := by
  unfold wrap32; omega

theorem take_append_full (A B : Bytes) (m : Nat) (h : A.length = m) :
    (A ++ B).take m = A := by
  rw [List.take_append_eq_append_take, List.take_of_length_le (le_of_eq h), h]
  simp

theorem drop_append_full (A B : Bytes) (m : Nat) (h : A.length = m) :
    (A ++ B).drop m = B := by
  rw [List.drop_append_eq_append_drop, List.drop_of_length_le (le_of_eq h), h]
  simp

theorem readEtype_suffix (buf : Bytes) (et : Nat) (n : Int) (rest : Bytes)
    (h : rest.length + 1 = buf.length)
    (hok : readEtype buf = .ok (et, n, ⟨rest, h⟩)) :
    buf = et :: rest ∧ n = 1 ∧
    (∀ tail : Bytes, readEtype (et :: tail) = .ok (et, 1, ⟨tail, rfl⟩)) := by
  cases buf with
  | nil => simp [readEtype, readByte] at hok
  | cons b l =>
    simp only [readEtype, readByte, Except.ok.injEq, Prod.mk.injEq,
      Subtype.mk.injEq] at hok
    obtain ⟨hb, hn, hl⟩ := hok
    subst hb; subst hl
    exact ⟨rfl, hn.symm, fun tail => rfl⟩

theorem readEname_decomp : ∀ (buf s : Bytes) (n : Int) (rest : Bytes)
    (h : rest.length < buf.length),
    readEname buf = .ok (s, n, ⟨rest, h⟩) →
    buf = s ++ 0 :: rest ∧ n = (s.length : Int) + 1 ∧ s.contains 0 = false := by
  intro buf
  induction buf with
  | nil => intro s n rest h hok; simp [readEname] at hok
  | cons b l ih =>
    intro s n rest h hok
    rw [readEname] at hok
    by_cases hb : b = 0
    · rw [if_pos hb] at hok
      simp only [Except.ok.injEq, Prod.mk.injEq, Subtype.mk.injEq] at hok
      obtain ⟨hs, hn, hl⟩ := hok
      subst hb; subst hl; subst hs
      refine ⟨rfl, by rw [← hn]; simp, rfl⟩
    · rw [if_neg hb] at hok
      rcases hrec : readEname l with e | ⟨sr, nr, ⟨r1, hr1⟩⟩
      · rw [hrec] at hok; simp at hok
      · rw [hrec] at hok
        simp only [Except.ok.injEq, Prod.mk.injEq, Subtype.mk.injEq] at hok
        obtain ⟨hs, hn, hl⟩ := hok
        obtain ⟨hdec, hnum, hnz⟩ := ih sr nr r1 hr1 hrec
        subst hl
        refine ⟨by rw [hdec, ← hs]; rfl, ?_, ?_⟩
        · rw [← hs, ← hn, hnum]; simp
        · rw [← hs]
          simp only [List.contains_cons, Bool.or_eq_false_iff]
          exact ⟨by simpa using Ne.symm hb, hnz⟩

theorem readEname_build : ∀ (s buf2 tail : Bytes), s.contains 0 = false →
    buf2 = s ++ 0 :: tail →
    ∃ pf : tail.length < buf2.length,
      readEname buf2 = .ok (s, (s.length : Int) + 1, ⟨tail, pf⟩) := by
  intro s
  induction s with
  | nil =>
    intro buf2 tail hc hbuf
    rw [List.nil_append] at hbuf
    subst hbuf
    refine ⟨by simp, ?_⟩
    rw [readEname]
    simp
  | cons b sr ih =>
    intro buf2 tail hc hbuf
    simp only [List.contains_cons, Bool.or_eq_false_iff] at hc
    have hb0 : (0 : Nat) ≠ b := by simpa using hc.1
    have hb : b ≠ 0 := Ne.symm hb0
    rw [List.cons_append] at hbuf
    subst hbuf
    obtain ⟨pf1, hEx⟩ := ih (sr ++ 0 :: tail) tail hc.2 rfl
    refine ⟨by simp; omega, ?_⟩
    rw [readEname, if_neg hb, hEx]
    simp only [List.length_cons]
    push_cast
    rfl

theorem readEname_trunc : ∀ (s buf2 : Bytes) (k : Nat), s.contains 0 = false →
    k ≤ s.length → buf2 = (s ++ [0]).take k →
    readEname buf2 = .error .eof := by
  intro s
  induction s with
  | nil =>
    intro buf2 k hc hk hbuf
    have hk0 : k = 0 := by simpa using hk
    subst hk0
    simp only [List.take_zero] at hbuf
    subst hbuf
    simp [readEname]
  | cons b sr ih =>
    intro buf2 k hc hk hbuf
    simp only [List.contains_cons, Bool.or_eq_false_iff] at hc
    have hb0 : (0 : Nat) ≠ b := by simpa using hc.1
    have hb : b ≠ 0 := Ne.symm hb0
    cases k with
    | zero =>
      simp only [List.take_zero] at hbuf
      subst hbuf
      simp [readEname]
    | succ j =>
      rw [List.cons_append, List.take_succ_cons] at hbuf
      subst hbuf
      have hkj : j ≤ sr.length := by simp at hk; omega
      have hih := ih ((sr ++ [0]).take j) j hc.2 hkj rfl
      rw [readEname, if_neg hb]
      simp only [hih]

theorem readInt32_suffix (buf : Bytes) (v n : Int) (rest : Bytes)
    (h : rest.length + 4 = buf.length)
    (hok : readInt32 buf = .ok (v, n, ⟨rest, h⟩)) :
    buf = buf.take 4 ++ rest ∧ (buf.take 4).length = 4 ∧ n = 4 ∧
    -2147483648 ≤ v ∧ v < 2147483648 ∧
    (∀ tail : Bytes, ∃ pf : tail.length + 4 = (buf.take 4 ++ tail).length,
      readInt32 (buf.take 4 ++ tail) = .ok (v, 4, ⟨tail, pf⟩)) ∧
    (∀ k, k < 4 → readInt32 ((buf.take 4).take k) = .error .eof) := by
  rw [readInt32] at hok
  split at hok
  · simp at hok
  · next hlen =>
    simp only [Except.ok.injEq, Prod.mk.injEq, Subtype.mk.injEq] at hok
    obtain ⟨hv, hn, hr⟩ := hok
    have hlen4 : 4 ≤ buf.length := by omega
    have htl : (buf.take 4).length = 4 := by
      rw [List.length_take]; omega
    have hdecomp : buf = buf.take 4 ++ rest := by
      rw [← hr]; exact (List.take_append_drop 4 buf).symm
    have hvr := wrap32_range (leNat (buf.take 4))
    refine ⟨hdecomp, htl, hn.symm, ?_, ?_, ?_, ?_⟩
    · rw [← hv]; exact hvr.1
    · rw [← hv]; exact hvr.2
    · intro tail
      have hlen2 : ¬ (buf.take 4 ++ tail).length < 4 := by
        rw [List.length_append, htl]; omega
      refine ⟨by rw [List.length_append, htl]; try omega, ?_⟩
      rw [readInt32, dif_neg hlen2]
      have hval : int32OfLe (buf.take 4 ++ tail) = v := by
        rw [← hv]
        unfold int32OfLe
        rw [take_append_full _ _ 4 htl]
      rw [hval]
      simp only [Except.ok.injEq, Prod.mk.injEq, Subtype.mk.injEq]
      exact ⟨trivial, trivial, drop_append_full _ _ 4 htl⟩
    · intro k hk
      have : ((buf.take 4).take k).length < 4 := by
        rw [List.length_take]; omega
      rw [readInt32, dif_pos this]

theorem readInt64_suffix (buf : Bytes) (v : Int) (n : Int) (rest : Bytes)
    (h : rest.length + 8 = buf.length)
    (hok : readInt64 buf = .ok (v, n, ⟨rest, h⟩)) :
    buf = buf.take 8 ++ rest ∧ (buf.take 8).length = 8 ∧ n = 8 ∧
    (∀ tail : Bytes, ∃ pf : tail.length + 8 = (buf.take 8 ++ tail).length,
      readInt64 (buf.take 8 ++ tail) = .ok (v, 8, ⟨tail, pf⟩)) ∧
    (∀ k, k < 8 → readInt64 ((buf.take 8).take k) = .error .eof) := by
  rw [readInt64] at hok
  split at hok
  · simp at hok
  · next hlen =>
    simp only [Except.ok.injEq, Prod.mk.injEq, Subtype.mk.injEq] at hok
    obtain ⟨hv, hn, hr⟩ := hok
    have hlen8 : 8 ≤ buf.length := by omega
    have htl : (buf.take 8).length = 8 := by rw [List.length_take]; omega
    have hdecomp : buf = buf.take 8 ++ rest := by
      rw [← hr]; exact (List.take_append_drop 8 buf).symm
    refine ⟨hdecomp, htl, hn.symm, ?_, ?_⟩
    · intro tail
      have hlen2 : ¬ (buf.take 8 ++ tail).length < 8 := by
        rw [List.length_append, htl]; omega
      refine ⟨by rw [List.length_append, htl]; try omega, ?_⟩
      rw [readInt64, dif_neg hlen2]
      have hval : int64OfLe (buf.take 8 ++ tail) = v := by
        rw [← hv]
        unfold int64OfLe
        rw [take_append_full _ _ 8 htl]
      rw [hval]
      simp only [Except.ok.injEq, Prod.mk.injEq, Subtype.mk.injEq]
      exact ⟨trivial, trivial, drop_append_full _ _ 8 htl⟩
    · intro k hk
      have : ((buf.take 8).take k).length < 8 := by
        rw [List.length_take]; omega
      rw [readInt64, dif_pos this]

theorem readInt_suffix (buf : Bytes) (v : Int) (n : Int) (rest : Bytes)
    (h : rest.length + 8 = buf.length)
    (hok : readInt buf = .ok (v, n, ⟨rest, h⟩)) :
    buf = buf.take 8 ++ rest ∧ (buf.take 8).length = 8 ∧ n = 8 ∧
    (∀ tail : Bytes, ∃ pf : tail.length + 8 = (buf.take 8 ++ tail).length,
      readInt (buf.take 8 ++ tail) = .ok (v, 8, ⟨tail, pf⟩)) ∧
    (∀ k, k < 8 → readInt ((buf.take 8).take k) = .error .eof) := by
  rw [readInt] at hok
  rcases h64 : readInt64 buf with e | ⟨v1, n1, ⟨r1, hr1⟩⟩
  · rw [h64] at hok; simp at hok
  · rw [h64] at hok
    simp only [Except.ok.injEq, Prod.mk.injEq, Subtype.mk.injEq] at hok
    obtain ⟨hv, hn, hr⟩ := hok
    have hr1' : rest.length + 8 = buf.length := by rw [← hr]; omega
    have hkey : readInt64 buf = .ok (v, n, ⟨rest, hr1'⟩) := by
      rw [h64]
      simp only [Except.ok.injEq, Prod.mk.injEq, Subtype.mk.injEq]
      exact ⟨hv, hn, hr⟩
    obtain ⟨hdec, htl, hn8, hext, htr⟩ := readInt64_suffix buf v n rest hr1' hkey
    refine ⟨hdec, htl, hn8, ?_, ?_⟩
    · intro tail
      obtain ⟨pf, hEx⟩ := hext tail
      exact ⟨pf, by rw [readInt, hEx]⟩
    · intro k hk
      rw [readInt, htr k hk]

theorem readFloat64_suffix (buf : Bytes) (v : Nat) (n : Int) (rest : Bytes)
    (h : rest.length + 8 = buf.length)
    (hok : readFloat64 buf = .ok (v, n, ⟨rest, h⟩)) :
    buf = buf.take 8 ++ rest ∧ (buf.take 8).length = 8 ∧ n = 8 ∧
    (∀ tail : Bytes, ∃ pf : tail.length + 8 = (buf.take 8 ++ tail).length,
      readFloat64 (buf.take 8 ++ tail) = .ok (v, 8, ⟨tail, pf⟩)) ∧
    (∀ k, k < 8 → readFloat64 ((buf.take 8).take k) = .error .eof) := by
  rw [readFloat64] at hok
  split at hok
  · simp at hok
  · next hlen =>
    simp only [Except.ok.injEq, Prod.mk.injEq, Subtype.mk.injEq] at hok
    obtain ⟨hv, hn, hr⟩ := hok
    have hlen8 : 8 ≤ buf.length := by omega
    have htl : (buf.take 8).length = 8 := by rw [List.length_take]; omega
    have hdecomp : buf = buf.take 8 ++ rest := by
      rw [← hr]; exact (List.take_append_drop 8 buf).symm
    refine ⟨hdecomp, htl, hn.symm, ?_, ?_⟩
    · intro tail
      have hlen2 : ¬ (buf.take 8 ++ tail).length < 8 := by
        rw [List.length_append, htl]; omega
      refine ⟨by rw [List.length_append, htl]; try omega, ?_⟩
      rw [readFloat64, dif_neg hlen2]
      have hval : leNat ((buf.take 8 ++ tail).take 8) = v := by
        rw [← hv, take_append_full _ _ 8 htl]
      rw [hval]
      simp only [Except.ok.injEq, Prod.mk.injEq, Subtype.mk.injEq]
      exact ⟨trivial, trivial, drop_append_full _ _ 8 htl⟩
    · intro k hk
      have : ((buf.take 8).take k).length < 8 := by
        rw [List.length_take]; omega
      rw [readFloat64, dif_pos this]

theorem readBoolean_suffix (buf : Bytes) (v : Bool) (n : Int) (rest : Bytes)
    (h : rest.length + 1 = buf.length)
    (hok : readBoolean buf = .ok (v, n, ⟨rest, h⟩)) :
    ∃ b0 : Nat, buf = b0 :: rest ∧ n = 1 ∧
    (∀ tail : Bytes, ∃ pf : tail.length + 1 = (b0 :: tail).length,
      readBoolean (b0 :: tail) = .ok (v, 1, ⟨tail, pf⟩)) := by
  cases buf with
  | nil => simp [readBoolean, readByte] at hok
  | cons b l =>
    rw [readBoolean] at hok
    rw [show readByte (b :: l) = .ok (b, ⟨l, rfl⟩) from rfl] at hok
    simp only at hok
    by_cases hb0 : b = 0
    · rw [if_pos hb0] at hok
      simp only [Except.ok.injEq, Prod.mk.injEq, Subtype.mk.injEq] at hok
      obtain ⟨hv, hn, hl⟩ := hok
      subst hl
      refine ⟨b, rfl, hn.symm, ?_⟩
      intro tail
      refine ⟨rfl, ?_⟩
      rw [readBoolean]
      rw [show readByte (b :: tail) = .ok (b, ⟨tail, rfl⟩) from rfl]
      simp only
      rw [if_pos hb0, ← hv]
    · rw [if_neg hb0] at hok
      by_cases hb1 : b = 1
      · rw [if_pos hb1] at hok
        simp only [Except.ok.injEq, Prod.mk.injEq, Subtype.mk.injEq] at hok
        obtain ⟨hv, hn, hl⟩ := hok
        subst hl
        refine ⟨b, rfl, hn.symm, ?_⟩
        intro tail
        refine ⟨rfl, ?_⟩
        rw [readBoolean]
        rw [show readByte (b :: tail) = .ok (b, ⟨tail, rfl⟩) from rfl]
        simp only
        rw [if_neg hb0, if_pos hb1, ← hv]
      · rw [if_neg hb1] at hok
        simp at hok


theorem bufferRead_exact (m : Nat) (buf str : Bytes) (numread : Nat) (buf2 : Bytes)
    (h : buf2.length ≤ buf.length)
    (hok : bufferRead m buf = .ok (str, numread, ⟨buf2, h⟩)) (hnr : numread = m) :
    str.length = m ∧ buf = str ++ buf2 := by
  rw [bufferRead] at hok
  by_cases hm0 : m = 0
  · rw [if_pos hm0] at hok
    simp only [Except.ok.injEq, Prod.mk.injEq, Subtype.mk.injEq] at hok
    obtain ⟨hs, hn, hb⟩ := hok
    subst hs; subst hb
    exact ⟨by simp [hm0], by simp⟩
  · rw [if_neg hm0] at hok
    by_cases hemp : buf.isEmpty
    · rw [if_pos hemp] at hok; simp at hok
    · rw [if_neg hemp] at hok
      simp only [Except.ok.injEq, Prod.mk.injEq, Subtype.mk.injEq] at hok
      obtain ⟨hs, hn, hb⟩ := hok
      have hmle : m ≤ buf.length := by
        rw [← hn] at hnr
        omega
      constructor
      · rw [← hs, List.length_take]; omega
      · rw [← hs, ← hb, List.take_append_drop]

theorem bufferRead_build (m : Nat) (str X : Bytes) (hlen : str.length = m) :
    ∃ pf : X.length ≤ (str ++ X).length,
      bufferRead m (str ++ X) = .ok (str, m, ⟨X, pf⟩) := by
  refine ⟨by simp, ?_⟩
  rw [bufferRead]
  by_cases hm0 : m = 0
  · rw [if_pos hm0]
    have hstr : str = [] := by
      cases str with
      | nil => rfl
      | cons a l => simp at hlen; omega
    subst hstr; subst hm0
    simp
  · rw [if_neg hm0]
    have hne : (str ++ X).isEmpty = false := by
      cases str with
      | nil => simp at hlen; omega
      | cons a l => simp
    rw [if_neg (by simp [hne])]
    have hmin : min m (str ++ X).length = m := by
      rw [List.length_append, hlen]; omega
    simp only [Except.ok.injEq, Prod.mk.injEq, Subtype.mk.injEq]
    exact ⟨take_append_full _ _ m hlen, hmin, drop_append_full _ _ m hlen⟩

theorem readEstring_suffix (buf : Bytes) (sv : Bytes) (n : Int) (rest : Bytes)
    (h : rest.length ≤ buf.length)
    (hok : readEstring buf = .ok (sv, n, ⟨rest, h⟩)) :
    ∃ C : Bytes, buf = C ++ rest ∧ n ≤ (C.length : Int) ∧
      (∀ buf2 tail : Bytes, buf2 = C ++ tail →
        ∃ pf : tail.length ≤ buf2.length,
          readEstring buf2 = .ok (sv, n, ⟨tail, pf⟩)) ∧
      (∀ (buf2 : Bytes) (k : Nat), k < C.length → buf2 = C.take k →
        ∃ e, readEstring buf2 = .error e ∧ e.isTruncation) := by
  rw [readEstring] at hok
  rcases h32 : readInt32 buf with e | ⟨size, n0, ⟨buf1, h1⟩⟩
  · rw [h32] at hok; simp at hok
  · rw [h32] at hok
    simp only at hok
    obtain ⟨hdec32, htl32, hn32, hlo, hhi, hext32, htr32⟩ :=
      readInt32_suffix buf size n0 buf1 h1 h32
    by_cases hm : wrap32 (size - 1) < 0
    · rw [if_pos hm] at hok; simp at hok
    · rw [if_neg hm] at hok
      rcases hbr : bufferRead (wrap32 (size - 1)).toNat buf1
          with e | ⟨str, numread, ⟨buf2, h2⟩⟩
      · rw [hbr] at hok; simp at hok
      · rw [hbr] at hok
        simp only at hok
        by_cases hnr : numread ≠ (wrap32 (size - 1)).toNat
        · rw [if_pos hnr] at hok; simp at hok
        · rw [if_neg hnr] at hok
          push_neg at hnr
          rcases hrb : readByte buf2 with e | ⟨nt, ⟨buf3, h3⟩⟩
          · rw [hrb] at hok; simp at hok
          · rw [hrb] at hok
            simp only at hok
            by_cases hnt : nt ≠ 0
            · rw [if_pos hnt] at hok; simp at hok
            · rw [if_neg hnt] at hok
              push_neg at hnt
              simp only [Except.ok.injEq, Prod.mk.injEq, Subtype.mk.injEq] at hok
              obtain ⟨hsv, hn, hr3⟩ := hok
              obtain ⟨hstrlen, hb1dec⟩ :=
                bufferRead_exact _ buf1 str numread buf2 h2 hbr hnr
              have hb2dec : buf2 = 0 :: buf3 := by
                cases buf2 with
                | nil => simp [readByte] at hrb
                | cons b l =>
                  rw [show readByte (b :: l) = .ok (b, ⟨l, rfl⟩) from rfl] at hrb
                  simp only [Except.ok.injEq, Prod.mk.injEq, Subtype.mk.injEq] at hrb
                  rw [hrb.1, ← hnt, hrb.2]
              refine ⟨buf.take 4 ++ (str ++ [0]), ?_, ?_, ?_, ?_⟩
              · rw [← hr3]
                conv_lhs => rw [hdec32]
                rw [hb1dec, hb2dec]
                simp [List.append_assoc]
              · rw [← hn]
                have hCl : (buf.take 4 ++ (str ++ [0])).length =
                    4 + ((wrap32 (size - 1)).toNat + 1) := by
                  simp [htl32, hstrlen]
                rw [hCl]
                have hwdef : wrap32 (size - 1) =
                    (size - 1 + 2147483648) % 4294967296 - 2147483648 := rfl
                omega
              · intro bufx tail hbufx
                simp only [List.append_assoc, List.singleton_append] at hbufx
                subst hbufx
                rw [readEstring]
                obtain ⟨pf32, hE32⟩ := hext32 (str ++ 0 :: tail)
                rw [hE32]
                simp only
                rw [if_neg hm]
                have hsplit : str ++ 0 :: tail = str ++ (0 :: tail) := rfl
                obtain ⟨pfb, hEb⟩ :=
                  bufferRead_build (wrap32 (size - 1)).toNat str (0 :: tail) hstrlen
                rw [hEb]
                simp only
                rw [if_neg (by omega)]
                rw [show readByte (0 :: tail) = .ok (0, ⟨tail, rfl⟩) from rfl]
                simp only
                rw [if_neg (by omega)]
                refine ⟨by (simp only [List.length_append, List.length_cons, htl32]; omega), ?_⟩
                simp only [Except.ok.injEq, Prod.mk.injEq, Subtype.mk.injEq]
                exact ⟨hsv, hn, trivial⟩
              · intro bufx k hk hbufx
                by_cases hk4 : k < 4
                · have hx : bufx = (buf.take 4).take k := by
                    rw [hbufx, List.take_append_eq_append_take]
                    have h0 : k - (buf.take 4).length = 0 := by rw [htl32]; omega
                    rw [h0, List.take_zero, List.append_nil]
                  refine ⟨.eof, ?_, trivial⟩
                  rw [hx, readEstring, htr32 k hk4]
                · have hCl : (buf.take 4 ++ (str ++ [0])).length =
                      4 + ((wrap32 (size - 1)).toNat + 1) := by
                    simp [htl32, hstrlen]
                  rw [hCl] at hk
                  have hx : bufx = buf.take 4 ++ (str ++ [0]).take (k - 4) := by
                    rw [hbufx, List.take_append_eq_append_take,
                      List.take_of_length_le (by omega : (buf.take 4).length ≤ k), htl32]
                  by_cases hj0 : k - 4 = 0
                  · rw [hj0, List.take_zero] at hx
                    by_cases hm0 : (wrap32 (size - 1)).toNat = 0
                    · refine ⟨.eof, ?_, trivial⟩
                      rw [hx, readEstring]
                      obtain ⟨pf32, hE32⟩ := hext32 []
                      rw [hE32]
                      simp only
                      rw [if_neg hm]
                      rw [show bufferRead (wrap32 (size - 1)).toNat [] =
                          .ok ([], 0, ⟨[], le_rfl⟩) from by rw [hm0]; rfl]
                      simp only
                      rw [if_neg (by omega)]
                      rw [show readByte ([] : Bytes) = .error .eof from rfl]
                    · refine ⟨.eof, ?_, trivial⟩
                      rw [hx, readEstring]
                      obtain ⟨pf32, hE32⟩ := hext32 []
                      rw [hE32]
                      simp only
                      rw [if_neg hm]
                      rw [show bufferRead (wrap32 (size - 1)).toNat [] =
                          .error .eof from by
                        rw [bufferRead, if_neg hm0]; rfl]
                  · have hjle : k - 4 ≤ (wrap32 (size - 1)).toNat := by omega
                    have hY : (str ++ [0]).take (k - 4) = str.take (k - 4) := by
                      rw [List.take_append_eq_append_take]
                      have h0 : k - 4 - str.length = 0 := by rw [hstrlen]; omega
                      rw [h0, List.take_zero, List.append_nil]
                    rw [hY] at hx
                    have hYlen : (str.take (k - 4)).length = k - 4 := by
                      rw [List.length_take]; omega
                    have hYne : (str.take (k - 4)).isEmpty = false := by
                      cases hYc : str.take (k - 4) with
                      | nil => rw [hYc] at hYlen; simp at hYlen; omega
                      | cons a l => simp
                    by_cases hjm : k - 4 < (wrap32 (size - 1)).toNat
                    · refine ⟨.shortRead, ?_, trivial⟩
                      rw [hx, readEstring]
                      obtain ⟨pf32, hE32⟩ := hext32 (str.take (k - 4))
                      rw [hE32]
                      simp only
                      rw [if_neg hm]
                      rw [bufferRead,
                        if_neg (by omega : ¬ (wrap32 (size - 1)).toNat = 0),
                        if_neg (by simp [hYne])]
                      simp only
                      rw [if_pos (by rw [hYlen]; omega :
                        ¬ min (wrap32 (size - 1)).toNat (str.take (k - 4)).length =
                          (wrap32 (size - 1)).toNat)]
                    · have hjeq : k - 4 = (wrap32 (size - 1)).toNat := by omega
                      refine ⟨.eof, ?_, trivial⟩
                      rw [hx, readEstring]
                      obtain ⟨pf32, hE32⟩ := hext32 (str.take (k - 4))
                      rw [hE32]
                      simp only
                      rw [if_neg hm]
                      rw [bufferRead,
                        if_neg (by omega : ¬ (wrap32 (size - 1)).toNat = 0),
                        if_neg (by simp [hYne])]
                      simp only
                      rw [if_neg (by rw [hYlen]; omega)]
                      have hdropY : (str.take (k - 4)).drop (wrap32 (size - 1)).toNat
                          = [] := by
                        rw [List.drop_eq_nil_iff_le, hYlen]; omega
                      rw [show readByte
                          ((str.take (k - 4)).drop (wrap32 (size - 1)).toNat) =
                          .error .eof from by rw [hdropY]; rfl]

theorem readEbinary_suffix (buf : Bytes) (sv : Bytes) (n : Int) (rest : Bytes)
    (h : rest.length ≤ buf.length)
    (hok : readEbinary buf = .ok (sv, n, ⟨rest, h⟩)) :
    ∃ C : Bytes, buf = C ++ rest ∧ n ≤ (C.length : Int) ∧
      (∀ buf2 tail : Bytes, buf2 = C ++ tail →
        ∃ pf : tail.length ≤ buf2.length,
          readEbinary buf2 = .ok (sv, n, ⟨tail, pf⟩)) ∧
      (∀ (buf2 : Bytes) (k : Nat), k < C.length → buf2 = C.take k →
        ∃ e, readEbinary buf2 = .error e ∧ e.isTruncation) := by
  rw [readEbinary] at hok
  rcases h32 : readInt32 buf with e | ⟨size, n0, ⟨buf1, h1⟩⟩
  · rw [h32] at hok; simp at hok
  · rw [h32] at hok
    simp only at hok
    obtain ⟨hdec32, htl32, hn32, hlo, hhi, hext32, htr32⟩ :=
      readInt32_suffix buf size n0 buf1 h1 h32
    rcases hrb : readByte buf1 with e | ⟨sb, ⟨buf2, h2⟩⟩
    · rw [hrb] at hok; simp at hok
    · rw [hrb] at hok
      simp only at hok
      by_cases hsz : size < 0
      · rw [if_pos hsz] at hok; simp at hok
      · rw [if_neg hsz] at hok
        rcases hbr : bufferRead size.toNat buf2 with e | ⟨bin, numread, ⟨buf3, h3⟩⟩
        · rw [hbr] at hok; simp at hok
        · rw [hbr] at hok
          simp only at hok
          by_cases hnr : numread ≠ size.toNat
          · rw [if_pos hnr] at hok; simp at hok
          · rw [if_neg hnr] at hok
            push_neg at hnr
            simp only [Except.ok.injEq, Prod.mk.injEq, Subtype.mk.injEq] at hok
            obtain ⟨hsv, hn, hr3⟩ := hok
            obtain ⟨hbinlen, hb2dec⟩ :=
              bufferRead_exact _ buf2 bin numread buf3 h3 hbr hnr
            have hb1dec : buf1 = sb :: buf2 := by
              cases buf1 with
              | nil => simp [readByte] at hrb
              | cons b l =>
                rw [show readByte (b :: l) = .ok (b, ⟨l, rfl⟩) from rfl] at hrb
                simp only [Except.ok.injEq, Prod.mk.injEq, Subtype.mk.injEq] at hrb
                rw [hrb.1, hrb.2]
            refine ⟨buf.take 4 ++ (sb :: bin), ?_, ?_, ?_, ?_⟩
            · rw [← hr3]
              conv_lhs => rw [hdec32]
              rw [hb1dec, hb2dec]
              simp [List.append_assoc]
            · rw [← hn]
              have hCl : (buf.take 4 ++ (sb :: bin)).length = 4 + (1 + size.toNat) := by
                simp [htl32, hbinlen]
                omega
              rw [hCl]
              omega
            · intro bufx tail hbufx
              have hbufx2 : bufx = buf.take 4 ++ (sb :: (bin ++ tail)) := by
                rw [hbufx]; simp
              subst hbufx2
              rw [readEbinary]
              obtain ⟨pf32, hE32⟩ := hext32 (sb :: (bin ++ tail))
              rw [hE32]
              simp only
              rw [show readByte (sb :: (bin ++ tail)) = .ok (sb, ⟨bin ++ tail, rfl⟩)
                from rfl]
              simp only
              rw [if_neg hsz]
              obtain ⟨pfb, hEb⟩ := bufferRead_build size.toNat bin tail hbinlen
              rw [hEb]
              simp only
              rw [if_neg (by omega)]
              refine ⟨by (simp only [List.length_append, List.length_cons, htl32]; omega), ?_⟩
              simp only [Except.ok.injEq, Prod.mk.injEq, Subtype.mk.injEq]
              exact ⟨hsv, hn, trivial⟩
            · intro bufx k hk hbufx
              by_cases hk4 : k < 4
              · have hx : bufx = (buf.take 4).take k := by
                  rw [hbufx, List.take_append_eq_append_take]
                  have h0 : k - (buf.take 4).length = 0 := by rw [htl32]; omega
                  rw [h0, List.take_zero, List.append_nil]
                refine ⟨.eof, ?_, trivial⟩
                rw [hx, readEbinary, htr32 k hk4]
              · have hCl : (buf.take 4 ++ (sb :: bin)).length = 4 + (1 + size.toNat) := by
                  simp [htl32, hbinlen]
                  omega
                rw [hCl] at hk
                have hx : bufx = buf.take 4 ++ (sb :: bin).take (k - 4) := by
                  rw [hbufx, List.take_append_eq_append_take,
                    List.take_of_length_le (by omega : (buf.take 4).length ≤ k), htl32]
                by_cases hj0 : k - 4 = 0
                · rw [hj0, List.take_zero] at hx
                  refine ⟨.eof, ?_, trivial⟩
                  rw [hx, readEbinary]
                  obtain ⟨pf32, hE32⟩ := hext32 []
                  rw [hE32]
                  simp only
                  rw [show readByte ([] : Bytes) = .error .eof from rfl]
                · obtain ⟨j, hj⟩ : ∃ j, k - 4 = j + 1 := ⟨k - 5, by omega⟩
                  rw [hj, List.take_succ_cons] at hx
                  have hjlt : j < size.toNat := by omega
                  have hYlen : (bin.take j).length = j := by
                    rw [List.length_take]; omega
                  by_cases hjz : j = 0
                  · rw [hjz, List.take_zero] at hx
                    refine ⟨.eof, ?_, trivial⟩
                    rw [hx, readEbinary]
                    obtain ⟨pf32, hE32⟩ := hext32 [sb]
                    rw [hE32]
                    simp only
                    rw [show readByte [sb] = .ok (sb, ⟨[], rfl⟩) from rfl]
                    simp only
                    rw [if_neg hsz]
                    rw [show bufferRead size.toNat [] = .error .eof from by
                      rw [bufferRead, if_neg (by omega : ¬ size.toNat = 0)]; rfl]
                  · have hYne : (bin.take j).isEmpty = false := by
                      cases hYc : bin.take j with
                      | nil => rw [hYc] at hYlen; simp at hYlen; omega
                      | cons a l => simp
                    refine ⟨.shortRead, ?_, trivial⟩
                    rw [hx, readEbinary]
                    obtain ⟨pf32, hE32⟩ := hext32 (sb :: bin.take j)
                    rw [hE32]
                    simp only
                    rw [show readByte (sb :: bin.take j) = .ok (sb, ⟨bin.take j, rfl⟩)
                      from rfl]
                    simp only
                    rw [if_neg hsz]
                    rw [bufferRead,
                      if_neg (by omega : ¬ size.toNat = 0),
                      if_neg (by simp [hYne])]
                    simp only
                    rw [if_pos (by rw [hYlen]; omega :
                      ¬ min size.toNat (bin.take j).length = size.toNat)]


theorem readEvalueScalar_suffix (buf : Bytes) (target : Rtype) (et : Nat)
    (v : GoVal) (n : Int) (rest : Bytes) (h : rest.length ≤ buf.length)
    (hok : readEvalueScalar buf target et = .ok (v, n, ⟨rest, h⟩)) :
    ∃ C : Bytes, buf = C ++ rest ∧ n ≤ (C.length : Int) ∧
      (∀ buf2 tail : Bytes, buf2 = C ++ tail →
        ∃ pf : tail.length ≤ buf2.length,
          readEvalueScalar buf2 target et = .ok (v, n, ⟨tail, pf⟩)) ∧
      (∀ (buf2 : Bytes) (k : Nat), k < C.length → buf2 = C.take k →
        ∃ e, readEvalueScalar buf2 target et = .error e ∧ e.isTruncation) := by
  rw [readEvalueScalar.eq_def] at hok
  by_cases h1 : et = kEtypeDouble
  · rw [if_pos h1] at hok
    cases target with
    | rFloat64 =>
      rcases hf : readFloat64 buf with e | ⟨bits, n1, ⟨r1, hr1⟩⟩
      · rw [hf] at hok; simp at hok
      · rw [hf] at hok
        simp only [Except.ok.injEq, Prod.mk.injEq, Subtype.mk.injEq] at hok
        obtain ⟨hv, hn, hr⟩ := hok
        obtain ⟨hdec, htl, hn8, hext, htr⟩ := readFloat64_suffix buf bits n1 r1 hr1 hf
        subst hr
        refine ⟨buf.take 8, hdec, by omega, ?_, ?_⟩
        · intro buf2 tail hb
          subst hb
          obtain ⟨pf, hE⟩ := hext tail
          refine ⟨by simpa using pf.le.trans (by simp), ?_⟩
          rw [readEvalueScalar.eq_def, if_pos h1, hE]
          simp only [Except.ok.injEq, Prod.mk.injEq, Subtype.mk.injEq]
          exact ⟨hv, by omega, trivial⟩
        · intro buf2 k hk hb
          subst hb
          rw [htl] at hk
          refine ⟨.eof, ?_, trivial⟩
          rw [readEvalueScalar.eq_def, if_pos h1, htr k hk]
    | rString => simp at hok
    | rBytes => simp at hok
    | rBool => simp at hok
    | rTime => simp at hok
    | rInt32 => simp at hok
    | rInt64 => simp at hok
    | rInt => simp at hok
    | rUint8 => simp at hok
    | rAny => simp at hok
    | rStruct fields => simp at hok
    | rMap elemT => simp at hok
    | rSlice elemT => simp at hok
  · rw [if_neg h1] at hok
    by_cases h2 : et = kEtypeString
    · rw [if_pos h2] at hok
      cases target with
      | rString =>
        rcases hf : readEstring buf with e | ⟨sv, n1, ⟨r1, hr1⟩⟩
        · rw [hf] at hok; simp at hok
        · rw [hf] at hok
          simp only [Except.ok.injEq, Prod.mk.injEq, Subtype.mk.injEq] at hok
          obtain ⟨hv, hn, hr⟩ := hok
          obtain ⟨C, hdec, hle, hext, htr⟩ := readEstring_suffix buf sv n1 r1 hr1 hf
          subst hr
          refine ⟨C, hdec, by omega, ?_, ?_⟩
          · intro buf2 tail hb
            obtain ⟨pf, hE⟩ := hext buf2 tail hb
            refine ⟨pf, ?_⟩
            rw [readEvalueScalar.eq_def, if_neg h1, if_pos h2, hE]
            simp only [Except.ok.injEq, Prod.mk.injEq, Subtype.mk.injEq]
            exact ⟨hv, hn, trivial⟩
          · intro buf2 k hk hb
            obtain ⟨e, hE, he⟩ := htr buf2 k hk hb
            refine ⟨e, ?_, he⟩
            rw [readEvalueScalar.eq_def, if_neg h1, if_pos h2, hE]
      | rFloat64 => simp at hok
      | rBytes => simp at hok
      | rBool => simp at hok
      | rTime => simp at hok
      | rInt32 => simp at hok
      | rInt64 => simp at hok
      | rInt => simp at hok
      | rUint8 => simp at hok
      | rAny => simp at hok
      | rStruct fields => simp at hok
      | rMap elemT => simp at hok
      | rSlice elemT => simp at hok
    · rw [if_neg h2] at hok
      by_cases h3 : et = kEtypeBinary
      · rw [if_pos h3] at hok
        cases target with
        | rBytes =>
          rcases hf : readEbinary buf with e | ⟨sv, n1, ⟨r1, hr1⟩⟩
          · rw [hf] at hok; simp at hok
          · rw [hf] at hok
            simp only [Except.ok.injEq, Prod.mk.injEq, Subtype.mk.injEq] at hok
            obtain ⟨hv, hn, hr⟩ := hok
            obtain ⟨C, hdec, hle, hext, htr⟩ := readEbinary_suffix buf sv n1 r1 hr1 hf
            subst hr
            refine ⟨C, hdec, by omega, ?_, ?_⟩
            · intro buf2 tail hb
              obtain ⟨pf, hE⟩ := hext buf2 tail hb
              refine ⟨pf, ?_⟩
              rw [readEvalueScalar.eq_def, if_neg h1, if_neg h2, if_pos h3, hE]
              simp only [Except.ok.injEq, Prod.mk.injEq, Subtype.mk.injEq]
              exact ⟨hv, hn, trivial⟩
            · intro buf2 k hk hb
              obtain ⟨e, hE, he⟩ := htr buf2 k hk hb
              refine ⟨e, ?_, he⟩
              rw [readEvalueScalar.eq_def, if_neg h1, if_neg h2, if_pos h3, hE]
        | rFloat64 => simp at hok
        | rString => simp at hok
        | rBool => simp at hok
        | rTime => simp at hok
        | rInt32 => simp at hok
        | rInt64 => simp at hok
        | rInt => simp at hok
        | rUint8 => simp at hok
        | rAny => simp at hok
        | rStruct fields => simp at hok
        | rMap elemT => simp at hok
        | rSlice elemT => simp at hok
      · rw [if_neg h3] at hok
        by_cases h4 : et = kEtypeBoolean
        · rw [if_pos h4] at hok
          cases target with
          | rBool =>
            rcases hf : readBoolean buf with e | ⟨bv, n1, ⟨r1, hr1⟩⟩
            · rw [hf] at hok; simp at hok
            · rw [hf] at hok
              simp only [Except.ok.injEq, Prod.mk.injEq, Subtype.mk.injEq] at hok
              obtain ⟨hv, hn, hr⟩ := hok
              obtain ⟨b0, hdec, hn1, hext⟩ := readBoolean_suffix buf bv n1 r1 hr1 hf
              subst hr
              refine ⟨[b0], hdec, by simp; omega, ?_, ?_⟩
              · intro buf2 tail hb
                rw [show ([b0] : Bytes) ++ tail = b0 :: tail from rfl] at hb
                subst hb
                obtain ⟨pf, hE⟩ := hext tail
                refine ⟨by simp, ?_⟩
                rw [readEvalueScalar.eq_def, if_neg h1, if_neg h2, if_neg h3, if_pos h4]
                rw [hE]
                simp only [Except.ok.injEq, Prod.mk.injEq, Subtype.mk.injEq]
                exact ⟨hv, by omega, trivial⟩
              · intro buf2 k hk hb
                simp only [List.length_cons, List.length_nil] at hk
                have hk0 : k = 0 := by omega
                subst hk0
                simp only [List.take_zero] at hb
                subst hb
                refine ⟨.eof, ?_, trivial⟩
                rw [readEvalueScalar.eq_def, if_neg h1, if_neg h2, if_neg h3, if_pos h4]
                rw [show readBoolean [] = .error .eof from rfl]
          | rFloat64 => simp at hok
          | rString => simp at hok
          | rBytes => simp at hok
          | rTime => simp at hok
          | rInt32 => simp at hok
          | rInt64 => simp at hok
          | rInt => simp at hok
          | rUint8 => simp at hok
          | rAny => simp at hok
          | rStruct fields => simp at hok
          | rMap elemT => simp at hok
          | rSlice elemT => simp at hok
        · rw [if_neg h4] at hok
          by_cases h5 : et = kEtypeUtcDatetime
          · rw [if_pos h5] at hok
            cases target with
            | rTime =>
              rcases hf : readInt64 buf with e | ⟨ms, n1, ⟨r1, hr1⟩⟩
              · rw [hf] at hok; simp at hok
              · rw [hf] at hok
                simp only [Except.ok.injEq, Prod.mk.injEq, Subtype.mk.injEq] at hok
                obtain ⟨hv, hn, hr⟩ := hok
                obtain ⟨hdec, htl, hn8, hext, htr⟩ :=
                  readInt64_suffix buf ms n1 r1 hr1 hf
                subst hr
                refine ⟨buf.take 8, hdec, by omega, ?_, ?_⟩
                · intro buf2 tail hb
                  subst hb
                  obtain ⟨pf, hE⟩ := hext tail
                  refine ⟨by simp only [List.length_append, htl]; omega, ?_⟩
                  rw [readEvalueScalar.eq_def, if_neg h1, if_neg h2, if_neg h3, if_neg h4,
                    if_pos h5, hE]
                  simp only [Except.ok.injEq, Prod.mk.injEq, Subtype.mk.injEq]
                  exact ⟨hv, by omega, trivial⟩
                · intro buf2 k hk hb
                  subst hb
                  rw [htl] at hk
                  refine ⟨.eof, ?_, trivial⟩
                  rw [readEvalueScalar.eq_def, if_neg h1, if_neg h2, if_neg h3, if_neg h4,
                    if_pos h5, htr k hk]
            | rFloat64 => simp at hok
            | rString => simp at hok
            | rBytes => simp at hok
            | rBool => simp at hok
            | rInt32 => simp at hok
            | rInt64 => simp at hok
            | rInt => simp at hok
            | rUint8 => simp at hok
            | rAny => simp at hok
            | rStruct fields => simp at hok
            | rMap elemT => simp at hok
            | rSlice elemT => simp at hok
          · rw [if_neg h5] at hok
            by_cases h6 : et = kEtypeInt32
            · rw [if_pos h6] at hok
              cases target with
              | rInt32 =>
                rcases hf : readInt32 buf with e | ⟨w, n1, ⟨r1, hr1⟩⟩
                · rw [hf] at hok; simp at hok
                · rw [hf] at hok
                  simp only [Except.ok.injEq, Prod.mk.injEq, Subtype.mk.injEq] at hok
                  obtain ⟨hv, hn, hr⟩ := hok
                  obtain ⟨hdec, htl, hn4, _, _, hext, htr⟩ :=
                    readInt32_suffix buf w n1 r1 hr1 hf
                  subst hr
                  refine ⟨buf.take 4, hdec, by omega, ?_, ?_⟩
                  · intro buf2 tail hb
                    subst hb
                    obtain ⟨pf, hE⟩ := hext tail
                    refine ⟨by simp only [List.length_append, htl]; omega, ?_⟩
                    rw [readEvalueScalar.eq_def, if_neg h1, if_neg h2, if_neg h3, if_neg h4,
                      if_neg h5, if_pos h6, hE]
                    simp only [Except.ok.injEq, Prod.mk.injEq, Subtype.mk.injEq]
                    exact ⟨hv, by omega, trivial⟩
                  · intro buf2 k hk hb
                    subst hb
                    rw [htl] at hk
                    refine ⟨.eof, ?_, trivial⟩
                    rw [readEvalueScalar.eq_def, if_neg h1, if_neg h2, if_neg h3, if_neg h4,
                      if_neg h5, if_pos h6, htr k hk]
              | rFloat64 => simp at hok
              | rString => simp at hok
              | rBytes => simp at hok
              | rBool => simp at hok
              | rTime => simp at hok
              | rInt64 => simp at hok
              | rInt => simp at hok
              | rUint8 => simp at hok
              | rAny => simp at hok
              | rStruct fields => simp at hok
              | rMap elemT => simp at hok
              | rSlice elemT => simp at hok
            · rw [if_neg h6] at hok
              by_cases h7 : et = kEtypeInt64
              · rw [if_pos h7] at hok
                cases target with
                | rInt64 =>
                  rcases hf : readInt64 buf with e | ⟨w, n1, ⟨r1, hr1⟩⟩
                  · rw [hf] at hok; simp at hok
                  · rw [hf] at hok
                    simp only [Except.ok.injEq, Prod.mk.injEq, Subtype.mk.injEq] at hok
                    obtain ⟨hv, hn, hr⟩ := hok
                    obtain ⟨hdec, htl, hn8, hext, htr⟩ :=
                      readInt64_suffix buf w n1 r1 hr1 hf
                    subst hr
                    refine ⟨buf.take 8, hdec, by omega, ?_, ?_⟩
                    · intro buf2 tail hb
                      subst hb
                      obtain ⟨pf, hE⟩ := hext tail
                      refine ⟨by simp only [List.length_append, htl]; omega, ?_⟩
                      rw [readEvalueScalar.eq_def, if_neg h1, if_neg h2, if_neg h3, if_neg h4,
                        if_neg h5, if_neg h6, if_pos h7, hE]
                      simp only [Except.ok.injEq, Prod.mk.injEq, Subtype.mk.injEq]
                      exact ⟨hv, by omega, trivial⟩
                    · intro buf2 k hk hb
                      subst hb
                      rw [htl] at hk
                      refine ⟨.eof, ?_, trivial⟩
                      rw [readEvalueScalar.eq_def, if_neg h1, if_neg h2, if_neg h3, if_neg h4,
                        if_neg h5, if_neg h6, if_pos h7, htr k hk]
                | rInt =>
                  rcases hf : readInt buf with e | ⟨w, n1, ⟨r1, hr1⟩⟩
                  · rw [hf] at hok; simp at hok
                  · rw [hf] at hok
                    simp only [Except.ok.injEq, Prod.mk.injEq, Subtype.mk.injEq] at hok
                    obtain ⟨hv, hn, hr⟩ := hok
                    obtain ⟨hdec, htl, hn8, hext, htr⟩ :=
                      readInt_suffix buf w n1 r1 hr1 hf
                    subst hr
                    refine ⟨buf.take 8, hdec, by omega, ?_, ?_⟩
                    · intro buf2 tail hb
                      subst hb
                      obtain ⟨pf, hE⟩ := hext tail
                      refine ⟨by simp only [List.length_append, htl]; omega, ?_⟩
                      rw [readEvalueScalar.eq_def, if_neg h1, if_neg h2, if_neg h3, if_neg h4,
                        if_neg h5, if_neg h6, if_pos h7, hE]
                      simp only [Except.ok.injEq, Prod.mk.injEq, Subtype.mk.injEq]
                      exact ⟨hv, by omega, trivial⟩
                    · intro buf2 k hk hb
                      subst hb
                      rw [htl] at hk
                      refine ⟨.eof, ?_, trivial⟩
                      rw [readEvalueScalar.eq_def, if_neg h1, if_neg h2, if_neg h3, if_neg h4,
                        if_neg h5, if_neg h6, if_pos h7, htr k hk]
                | rFloat64 => simp at hok
                | rString => simp at hok
                | rBytes => simp at hok
                | rBool => simp at hok
                | rTime => simp at hok
                | rInt32 => simp at hok
                | rUint8 => simp at hok
                | rAny => simp at hok
                | rStruct fields => simp at hok
                | rMap elemT => simp at hok
                | rSlice elemT => simp at hok
              · rw [if_neg h7] at hok
                simp at hok


/-! ## Unfolding lemmas for the recursive branches of `readEvalue`. -/

theorem readEvalue_doc_struct (buf : Bytes) (fields : List (Bytes × Rtype))
    (prior : GoVal) :
    readEvalue buf (.rStruct fields) prior kEtypeDocument =
      (match readStruct buf fields (fieldsOf prior) with
       | .error e => .error e
       | .ok (n, flds, r) => .ok (.vStruct flds, n, r)) := by
  rw [readEvalue, if_pos rfl]

theorem readEvalue_doc_map (buf : Bytes) (elemT : Rtype) (prior : GoVal) :
    readEvalue buf (.rMap elemT) prior kEtypeDocument =
      (match readMap buf elemT (pairsOf prior) with
       | .error e => .error e
       | .ok (n, prs, r) => .ok (.vDoc prs, n, r)) := by
  rw [readEvalue, if_pos rfl]

theorem readEvalue_arr_slice (buf : Bytes) (elemT : Rtype) (prior : GoVal) :
    readEvalue buf (.rSlice elemT) prior kEtypeArray =
      (match readArray buf elemT (elemsOf prior) with
       | .error e => .error e
       | .ok (n, vs, r) => .ok (.vArr vs, n, r)) := by
  rw [readEvalue, if_neg (by decide), if_pos rfl]

theorem readEvalue_arr_bytes (buf : Bytes) (prior : GoVal) :
    readEvalue buf .rBytes prior kEtypeArray =
      (match readArray buf .rUint8 [] with
       | .error e => .error e
       | .ok (n, _, r) => .ok (.vBinary [], n, r)) := by
  rw [readEvalue, if_neg (by decide), if_pos rfl]


/-- The master suffix property of the mutual parser: every successful
parse consumed a definite prefix `C` of its input; the parse depends only
on `C` (extension invariance, same numread and value with the remainder
passed through), the declared numread never exceeds the consumed length,
and every strict prefix of `C` fails with a truncation-class error. -/
theorem parser_suffix : ∀ (N : Nat) (buf : Bytes), buf.length < N →
    (∀ (fields : List (Bytes × Rtype)) (cur : List (Bytes × GoVal))
      (exp act n : Int) (flds : List (Bytes × GoVal)) (rest : Bytes)
      (h : rest.length ≤ buf.length),
      readStructLoop buf fields cur exp act = .ok (n, flds, ⟨rest, h⟩) →
      ∃ C : Bytes, buf = C ++ rest ∧ n - act ≤ (C.length : Int) ∧
        (∀ bufx tail : Bytes, bufx = C ++ tail →
          ∃ pf : tail.length ≤ bufx.length,
            readStructLoop bufx fields cur exp act = .ok (n, flds, ⟨tail, pf⟩)) ∧
        (∀ (bufx : Bytes) (k : Nat), k < C.length → bufx = C.take k →
          ∃ e, readStructLoop bufx fields cur exp act = .error e ∧ e.isTruncation)) ∧
    (∀ (elemT : Rtype) (acc : List (Bytes × GoVal))
      (exp act n : Int) (prs : List (Bytes × GoVal)) (rest : Bytes)
      (h : rest.length ≤ buf.length),
      readMapLoop buf elemT acc exp act = .ok (n, prs, ⟨rest, h⟩) →
      ∃ C : Bytes, buf = C ++ rest ∧ n - act ≤ (C.length : Int) ∧
        (∀ bufx tail : Bytes, bufx = C ++ tail →
          ∃ pf : tail.length ≤ bufx.length,
            readMapLoop bufx elemT acc exp act = .ok (n, prs, ⟨tail, pf⟩)) ∧
        (∀ (bufx : Bytes) (k : Nat), k < C.length → bufx = C.take k →
          ∃ e, readMapLoop bufx elemT acc exp act = .error e ∧ e.isTruncation)) ∧
    (∀ (elemT : Rtype) (acc : List GoVal)
      (exp act n : Int) (vs : List GoVal) (rest : Bytes)
      (h : rest.length ≤ buf.length),
      readArrayLoop buf elemT acc exp act = .ok (n, vs, ⟨rest, h⟩) →
      ∃ C : Bytes, buf = C ++ rest ∧ n - act ≤ (C.length : Int) ∧
        (∀ bufx tail : Bytes, bufx = C ++ tail →
          ∃ pf : tail.length ≤ bufx.length,
            readArrayLoop bufx elemT acc exp act = .ok (n, vs, ⟨tail, pf⟩)) ∧
        (∀ (bufx : Bytes) (k : Nat), k < C.length → bufx = C.take k →
          ∃ e, readArrayLoop bufx elemT acc exp act = .error e ∧ e.isTruncation)) ∧
    (∀ (fields : List (Bytes × Rtype)) (cur : List (Bytes × GoVal))
      (n : Int) (flds : List (Bytes × GoVal)) (rest : Bytes)
      (h : rest.length ≤ buf.length),
      readStruct buf fields cur = .ok (n, flds, ⟨rest, h⟩) →
      ∃ C : Bytes, buf = C ++ rest ∧ n ≤ (C.length : Int) ∧
        (∀ bufx tail : Bytes, bufx = C ++ tail →
          ∃ pf : tail.length ≤ bufx.length,
            readStruct bufx fields cur = .ok (n, flds, ⟨tail, pf⟩)) ∧
        (∀ (bufx : Bytes) (k : Nat), k < C.length → bufx = C.take k →
          ∃ e, readStruct bufx fields cur = .error e ∧ e.isTruncation)) ∧
    (∀ (elemT : Rtype) (prior : List (Bytes × GoVal))
      (n : Int) (prs : List (Bytes × GoVal)) (rest : Bytes)
      (h : rest.length ≤ buf.length),
      readMap buf elemT prior = .ok (n, prs, ⟨rest, h⟩) →
      ∃ C : Bytes, buf = C ++ rest ∧ n ≤ (C.length : Int) ∧
        (∀ bufx tail : Bytes, bufx = C ++ tail →
          ∃ pf : tail.length ≤ bufx.length,
            readMap bufx elemT prior = .ok (n, prs, ⟨tail, pf⟩)) ∧
        (∀ (bufx : Bytes) (k : Nat), k < C.length → bufx = C.take k →
          ∃ e, readMap bufx elemT prior = .error e ∧ e.isTruncation)) ∧
    (∀ (elemT : Rtype) (prior : List GoVal)
      (n : Int) (vs : List GoVal) (rest : Bytes)
      (h : rest.length ≤ buf.length),
      readArray buf elemT prior = .ok (n, vs, ⟨rest, h⟩) →
      ∃ C : Bytes, buf = C ++ rest ∧ n ≤ (C.length : Int) ∧
        (∀ bufx tail : Bytes, bufx = C ++ tail →
          ∃ pf : tail.length ≤ bufx.length,
            readArray bufx elemT prior = .ok (n, vs, ⟨tail, pf⟩)) ∧
        (∀ (bufx : Bytes) (k : Nat), k < C.length → bufx = C.take k →
          ∃ e, readArray bufx elemT prior = .error e ∧ e.isTruncation)) ∧
    (∀ (target : Rtype) (prior : GoVal) (et : Nat)
      (v : GoVal) (n : Int) (rest : Bytes)
      (h : rest.length ≤ buf.length),
      readEvalue buf target prior et = .ok (v, n, ⟨rest, h⟩) →
      ∃ C : Bytes, buf = C ++ rest ∧ n ≤ (C.length : Int) ∧
        (∀ bufx tail : Bytes, bufx = C ++ tail →
          ∃ pf : tail.length ≤ bufx.length,
            readEvalue bufx target prior et = .ok (v, n, ⟨tail, pf⟩)) ∧
        (∀ (bufx : Bytes) (k : Nat), k < C.length → bufx = C.take k →
          ∃ e, readEvalue bufx target prior et = .error e ∧ e.isTruncation)) := by
  intro N
  induction N with
  | zero => intro buf hlen; exact absurd hlen (by omega)
  | succ M ih =>
    intro buf hlen
    have PSL : ∀ (fields : List (Bytes × Rtype)) (cur : List (Bytes × GoVal))
        (exp act n : Int) (flds : List (Bytes × GoVal)) (rest : Bytes)
        (h : rest.length ≤ buf.length),
        readStructLoop buf fields cur exp act = .ok (n, flds, ⟨rest, h⟩) →
        ∃ C : Bytes, buf = C ++ rest ∧ n - act ≤ (C.length : Int) ∧
          (∀ bufx tail : Bytes, bufx = C ++ tail →
            ∃ pf : tail.length ≤ bufx.length,
              readStructLoop bufx fields cur exp act = .ok (n, flds, ⟨tail, pf⟩)) ∧
          (∀ (bufx : Bytes) (k : Nat), k < C.length → bufx = C.take k →
            ∃ e, readStructLoop bufx fields cur exp act = .error e ∧
              e.isTruncation) := by
      intro fields cur exp act n flds rest h hok
      rw [readStructLoop] at hok
      rcases het : readEtype buf with e | ⟨et, n1, ⟨buf1, h1⟩⟩
      · rw [het] at hok; simp at hok
      · rw [het] at hok
        simp only at hok
        obtain ⟨hbdec, hn1, hetext⟩ := readEtype_suffix buf et n1 buf1 h1 het
        by_cases hdone : et = kEtypeDone
        · rw [if_pos hdone] at hok
          by_cases hsz : act + n1 ≠ exp
          · rw [if_pos hsz] at hok; simp at hok
          · rw [if_neg hsz] at hok
            push_neg at hsz
            simp only [Except.ok.injEq, Prod.mk.injEq, Subtype.mk.injEq] at hok
            obtain ⟨hn, hflds, hrest⟩ := hok
            subst hrest
            refine ⟨[et], hbdec, by simp; omega, ?_, ?_⟩
            · intro bufx tail hbx
              rw [show ([et] : Bytes) ++ tail = et :: tail from rfl] at hbx
              subst hbx
              refine ⟨by simp, ?_⟩
              have hET := hetext tail
              rw [readStructLoop, hET]
              simp only
              rw [if_pos hdone, if_neg (by omega : ¬ act + 1 ≠ exp)]
              simp only [Except.ok.injEq, Prod.mk.injEq, Subtype.mk.injEq]
              exact ⟨by omega, hflds, trivial⟩
            · intro bufx k hk hbx
              simp only [List.length_cons, List.length_nil] at hk
              have hk0 : k = 0 := by omega
              subst hk0
              simp only [List.take_zero] at hbx
              subst hbx
              refine ⟨.eof, ?_, trivial⟩
              rw [readStructLoop]
              rw [show readEtype ([] : Bytes) = .error .eof from rfl]
        · rw [if_neg hdone] at hok
          rcases hnm : readEname buf1 with e | ⟨ename, n2, ⟨buf2, h2⟩⟩
          · rw [hnm] at hok; simp at hok
          · rw [hnm] at hok
            simp only at hok
            obtain ⟨hb1dec, hn2, hnz⟩ := readEname_decomp buf1 ename n2 buf2 h2 hnm
            rcases hlk : lookupR fields ename with _ | frt
            · rw [hlk] at hok; simp at hok
            · rw [hlk] at hok
              simp only at hok
              rcases hva : validateEtypeCanBeDeserializeToRtype et frt with _ | e2
              · rw [hva] at hok
                simp only at hok
                rcases hev : readEvalue buf2 frt
                    ((lookupV cur ename).getD (zeroVal frt)) et
                    with e | ⟨w, n3, ⟨buf3, h3⟩⟩
                · rw [hev] at hok; simp at hok
                · rw [hev] at hok
                  simp only at hok
                  rcases hrec : readStructLoop buf3 fields (setKey cur ename w) exp
                      (act + n1 + n2 + n3) with e | ⟨n4, v4, ⟨r4, hr4⟩⟩
                  · rw [hrec] at hok; simp at hok
                  · rw [hrec] at hok
                    simp only [Except.ok.injEq, Prod.mk.injEq, Subtype.mk.injEq] at hok
                    obtain ⟨hn4, hv4, hr⟩ := hok
                    subst hr
                    obtain ⟨Cev, hevdec, hevle, hevext, hevtr⟩ :=
                      (ih buf2 (by omega)).2.2.2.2.2.2 frt
                        ((lookupV cur ename).getD (zeroVal frt)) et w n3 buf3 h3 hev
                    obtain ⟨Crec, hrecdec, hrecle, hrecext, hrectr⟩ :=
                      (ih buf3 (by omega)).1 fields (setKey cur ename w) exp
                        (act + n1 + n2 + n3) n4 v4 r4 hr4 hrec
                    refine ⟨et :: (ename ++ 0 :: (Cev ++ Crec)), ?_, ?_, ?_, ?_⟩
                    · rw [hbdec, hb1dec, hevdec, hrecdec]
                      simp [List.append_assoc]
                    · simp only [List.length_cons, List.length_append]
                      push_cast
                      omega
                    · intro bufx tail hbx
                      rw [show (et :: (ename ++ 0 :: (Cev ++ Crec))) ++ tail
                          = et :: (ename ++ 0 :: (Cev ++ (Crec ++ tail))) from by
                        simp [List.append_assoc]] at hbx
                      subst hbx
                      refine ⟨by (simp only [List.length_cons, List.length_append]; omega), ?_⟩
                      have hET := hetext (ename ++ 0 :: (Cev ++ (Crec ++ tail)))
                      rw [readStructLoop, hET]
                      simp only
                      rw [if_neg hdone]
                      obtain ⟨pfn, hEn⟩ := readEname_build ename
                        (ename ++ 0 :: (Cev ++ (Crec ++ tail)))
                        (Cev ++ (Crec ++ tail)) hnz rfl
                      rw [hEn]
                      simp only
                      rw [hlk]
                      simp only
                      rw [hva]
                      simp only
                      obtain ⟨pfe, hEe⟩ := hevext (Cev ++ (Crec ++ tail))
                        (Crec ++ tail) rfl
                      rw [hEe]
                      simp only
                      obtain ⟨pfr, hEr⟩ := hrecext (Crec ++ tail) tail rfl
                      rw [hn1, hn2] at hEr
                      rw [hEr]
                      simp only [Except.ok.injEq, Prod.mk.injEq, Subtype.mk.injEq]
                      exact ⟨hn4, hv4, trivial⟩
                    · intro bufx k hk hbx
                      cases k with
                      | zero =>
                        simp only [List.take_zero] at hbx
                        subst hbx
                        refine ⟨.eof, ?_, trivial⟩
                        rw [readStructLoop]
                        rw [show readEtype ([] : Bytes) = .error .eof from rfl]
                      | succ j =>
                        rw [List.take_succ_cons] at hbx
                        simp only [List.length_cons] at hk
                        have hDlen : (ename ++ 0 :: (Cev ++ Crec)).length
                            = ename.length + 1 + (Cev.length + Crec.length) := by
                          simp only [List.length_append, List.length_cons]
                          omega
                        by_cases hj1 : j ≤ ename.length
                        · have hDj : (ename ++ 0 :: (Cev ++ Crec)).take j
                              = (ename ++ [0]).take j := by
                            rw [List.take_append_eq_append_take,
                                List.take_append_eq_append_take]
                            have h0 : j - ename.length = 0 := by omega
                            simp [h0]
                          rw [hDj] at hbx
                          subst hbx
                          refine ⟨.eof, ?_, trivial⟩
                          have hET := hetext ((ename ++ [0]).take j)
                          rw [readStructLoop, hET]
                          simp only
                          rw [if_neg hdone]
                          have hEN := readEname_trunc ename ((ename ++ [0]).take j) j
                            hnz hj1 rfl
                          rw [hEN]
                        · have hsplit2 : (ename ++ 0 :: (Cev ++ Crec)).take j
                              = ename ++ 0 ::
                                ((Cev ++ Crec).take (j - (ename.length + 1))) := by
                            rw [show ename ++ 0 :: (Cev ++ Crec)
                                = (ename ++ [0]) ++ (Cev ++ Crec) from by simp]
                            rw [List.take_append_eq_append_take,
                              List.take_of_length_le
                                (by simp; omega : (ename ++ [0]).length ≤ j)]
                            simp [List.append_assoc]
                          rw [hsplit2] at hbx
                          subst hbx
                          have hET := hetext (ename ++ 0 ::
                            ((Cev ++ Crec).take (j - (ename.length + 1))))
                          rw [readStructLoop, hET]
                          simp only
                          rw [if_neg hdone]
                          obtain ⟨pfn, hEn⟩ := readEname_build ename
                            (ename ++ 0 ::
                              ((Cev ++ Crec).take (j - (ename.length + 1))))
                            ((Cev ++ Crec).take (j - (ename.length + 1))) hnz rfl
                          rw [hEn]
                          simp only
                          rw [hlk]
                          simp only
                          rw [hva]
                          simp only
                          by_cases hjc : j - (ename.length + 1) < Cev.length
                          · have hCsplit : (Cev ++ Crec).take (j - (ename.length + 1))
                                = Cev.take (j - (ename.length + 1)) := by
                              rw [List.take_append_eq_append_take]
                              have h0 : j - (ename.length + 1) - Cev.length = 0 := by
                                omega
                              rw [h0, List.take_zero, List.append_nil]
                            obtain ⟨e2, hEtr, he2⟩ := hevtr
                              ((Cev ++ Crec).take (j - (ename.length + 1)))
                              (j - (ename.length + 1)) hjc hCsplit
                            rw [hEtr]
                            exact ⟨e2, rfl, he2⟩
                          · have hCsplit : (Cev ++ Crec).take (j - (ename.length + 1))
                                = Cev ++ Crec.take (j - (ename.length + 1)
                                  - Cev.length) := by
                              rw [List.take_append_eq_append_take,
                                List.take_of_length_le (by omega)]
                            obtain ⟨pfe, hEe⟩ := hevext
                              ((Cev ++ Crec).take (j - (ename.length + 1)))
                              (Crec.take (j - (ename.length + 1) - Cev.length))
                              hCsplit
                            rw [hEe]
                            simp only
                            have hj3 : j - (ename.length + 1) - Cev.length
                                < Crec.length := by omega
                            obtain ⟨e2, hEtr, he2⟩ := hrectr
                              (Crec.take (j - (ename.length + 1) - Cev.length))
                              (j - (ename.length + 1) - Cev.length) hj3 rfl
                            rw [hn1, hn2] at hEtr
                            rw [hEtr]
                            exact ⟨e2, rfl, he2⟩
              · rw [hva] at hok; simp at hok
    have PML : ∀ (elemT : Rtype) (acc : List (Bytes × GoVal))
        (exp act n : Int) (prs : List (Bytes × GoVal)) (rest : Bytes)
        (h : rest.length ≤ buf.length),
        readMapLoop buf elemT acc exp act = .ok (n, prs, ⟨rest, h⟩) →
        ∃ C : Bytes, buf = C ++ rest ∧ n - act ≤ (C.length : Int) ∧
          (∀ bufx tail : Bytes, bufx = C ++ tail →
            ∃ pf : tail.length ≤ bufx.length,
              readMapLoop bufx elemT acc exp act = .ok (n, prs, ⟨tail, pf⟩)) ∧
          (∀ (bufx : Bytes) (k : Nat), k < C.length → bufx = C.take k →
            ∃ e, readMapLoop bufx elemT acc exp act = .error e ∧
              e.isTruncation) := by
      intro elemT acc exp act n prs rest h hok
      rw [readMapLoop] at hok
      rcases het : readEtype buf with e | ⟨et, n1, ⟨buf1, h1⟩⟩
      · rw [het] at hok; simp at hok
      · rw [het] at hok
        simp only at hok
        obtain ⟨hbdec, hn1, hetext⟩ := readEtype_suffix buf et n1 buf1 h1 het
        by_cases hdone : et = kEtypeDone
        · rw [if_pos hdone] at hok
          by_cases hsz : act + n1 ≠ exp
          · rw [if_pos hsz] at hok; simp at hok
          · rw [if_neg hsz] at hok
            push_neg at hsz
            simp only [Except.ok.injEq, Prod.mk.injEq, Subtype.mk.injEq] at hok
            obtain ⟨hn, hprs, hrest⟩ := hok
            subst hrest
            refine ⟨[et], hbdec, by simp; omega, ?_, ?_⟩
            · intro bufx tail hbx
              rw [show ([et] : Bytes) ++ tail = et :: tail from rfl] at hbx
              subst hbx
              refine ⟨by simp, ?_⟩
              have hET := hetext tail
              rw [readMapLoop, hET]
              simp only
              rw [if_pos hdone, if_neg (by omega : ¬ act + 1 ≠ exp)]
              simp only [Except.ok.injEq, Prod.mk.injEq, Subtype.mk.injEq]
              exact ⟨by omega, hprs, trivial⟩
            · intro bufx k hk hbx
              simp only [List.length_cons, List.length_nil] at hk
              have hk0 : k = 0 := by omega
              subst hk0
              simp only [List.take_zero] at hbx
              subst hbx
              refine ⟨.eof, ?_, trivial⟩
              rw [readMapLoop]
              rw [show readEtype ([] : Bytes) = .error .eof from rfl]
        · rw [if_neg hdone] at hok
          rcases hnm : readEname buf1 with e | ⟨ename, n2, ⟨buf2, h2⟩⟩
          · rw [hnm] at hok; simp at hok
          · rw [hnm] at hok
            simp only at hok
            obtain ⟨hb1dec, hn2, hnz⟩ := readEname_decomp buf1 ename n2 buf2 h2 hnm
            rcases hva : validateEtypeCanBeDeserializeToRtype et elemT with _ | e2
            · rw [hva] at hok
              simp only at hok
              rcases htt : tmpTargetForMap elemT et with e | ⟨tmpT, tmpInit⟩
              · rw [htt] at hok; simp at hok
              · rw [htt] at hok
                simp only at hok
                rcases hev : readEvalue buf2 tmpT tmpInit et
                    with e | ⟨w, n3, ⟨buf3, h3⟩⟩
                · rw [hev] at hok; simp at hok
                · rw [hev] at hok
                  simp only at hok
                  rcases hrec : readMapLoop buf3 elemT (setKey acc ename w) exp
                      (act + n1 + n2 + n3) with e | ⟨n4, v4, ⟨r4, hr4⟩⟩
                  · rw [hrec] at hok; simp at hok
                  · rw [hrec] at hok
                    simp only [Except.ok.injEq, Prod.mk.injEq, Subtype.mk.injEq] at hok
                    obtain ⟨hn4, hv4, hr⟩ := hok
                    subst hr
                    obtain ⟨Cev, hevdec, hevle, hevext, hevtr⟩ :=
                      (ih buf2 (by omega)).2.2.2.2.2.2 tmpT tmpInit et w n3 buf3 h3 hev
                    obtain ⟨Crec, hrecdec, hrecle, hrecext, hrectr⟩ :=
                      (ih buf3 (by omega)).2.1 elemT (setKey acc ename w) exp
                        (act + n1 + n2 + n3) n4 v4 r4 hr4 hrec
                    refine ⟨et :: (ename ++ 0 :: (Cev ++ Crec)), ?_, ?_, ?_, ?_⟩
                    · rw [hbdec, hb1dec, hevdec, hrecdec]
                      simp [List.append_assoc]
                    · simp only [List.length_cons, List.length_append]
                      push_cast
                      omega
                    · intro bufx tail hbx
                      rw [show (et :: (ename ++ 0 :: (Cev ++ Crec))) ++ tail
                          = et :: (ename ++ 0 :: (Cev ++ (Crec ++ tail))) from by
                        simp [List.append_assoc]] at hbx
                      subst hbx
                      refine ⟨by (simp only [List.length_cons, List.length_append]; omega), ?_⟩
                      have hET := hetext (ename ++ 0 :: (Cev ++ (Crec ++ tail)))
                      rw [readMapLoop, hET]
                      simp only
                      rw [if_neg hdone]
                      obtain ⟨pfn, hEn⟩ := readEname_build ename
                        (ename ++ 0 :: (Cev ++ (Crec ++ tail)))
                        (Cev ++ (Crec ++ tail)) hnz rfl
                      rw [hEn]
                      simp only
                      rw [hva]
                      simp only
                      rw [htt]
                      simp only
                      obtain ⟨pfe, hEe⟩ := hevext (Cev ++ (Crec ++ tail))
                        (Crec ++ tail) rfl
                      rw [hEe]
                      simp only
                      obtain ⟨pfr, hEr⟩ := hrecext (Crec ++ tail) tail rfl
                      rw [hn1, hn2] at hEr
                      rw [hEr]
                      simp only [Except.ok.injEq, Prod.mk.injEq, Subtype.mk.injEq]
                      exact ⟨hn4, hv4, trivial⟩
                    · intro bufx k hk hbx
                      cases k with
                      | zero =>
                        simp only [List.take_zero] at hbx
                        subst hbx
                        refine ⟨.eof, ?_, trivial⟩
                        rw [readMapLoop]
                        rw [show readEtype ([] : Bytes) = .error .eof from rfl]
                      | succ j =>
                        rw [List.take_succ_cons] at hbx
                        simp only [List.length_cons] at hk
                        have hDlen : (ename ++ 0 :: (Cev ++ Crec)).length
                            = ename.length + 1 + (Cev.length + Crec.length) := by
                          simp only [List.length_append, List.length_cons]
                          omega
                        by_cases hj1 : j ≤ ename.length
                        · have hDj : (ename ++ 0 :: (Cev ++ Crec)).take j
                              = (ename ++ [0]).take j := by
                            rw [List.take_append_eq_append_take,
                                List.take_append_eq_append_take]
                            have h0 : j - ename.length = 0 := by omega
                            simp [h0]
                          rw [hDj] at hbx
                          subst hbx
                          refine ⟨.eof, ?_, trivial⟩
                          have hET := hetext ((ename ++ [0]).take j)
                          rw [readMapLoop, hET]
                          simp only
                          rw [if_neg hdone]
                          have hEN := readEname_trunc ename ((ename ++ [0]).take j) j
                            hnz hj1 rfl
                          rw [hEN]
                        · have hsplit2 : (ename ++ 0 :: (Cev ++ Crec)).take j
                              = ename ++ 0 ::
                                ((Cev ++ Crec).take (j - (ename.length + 1))) := by
                            rw [show ename ++ 0 :: (Cev ++ Crec)
                                = (ename ++ [0]) ++ (Cev ++ Crec) from by simp]
                            rw [List.take_append_eq_append_take,
                              List.take_of_length_le
                                (by simp; omega : (ename ++ [0]).length ≤ j)]
                            simp [List.append_assoc]
                          rw [hsplit2] at hbx
                          subst hbx
                          have hET := hetext (ename ++ 0 ::
                            ((Cev ++ Crec).take (j - (ename.length + 1))))
                          rw [readMapLoop, hET]
                          simp only
                          rw [if_neg hdone]
                          obtain ⟨pfn, hEn⟩ := readEname_build ename
                            (ename ++ 0 ::
                              ((Cev ++ Crec).take (j - (ename.length + 1))))
                            ((Cev ++ Crec).take (j - (ename.length + 1))) hnz rfl
                          rw [hEn]
                          simp only
                          rw [hva]
                          simp only
                          rw [htt]
                          simp only
                          by_cases hjc : j - (ename.length + 1) < Cev.length
                          · have hCsplit : (Cev ++ Crec).take (j - (ename.length + 1))
                                = Cev.take (j - (ename.length + 1)) := by
                              rw [List.take_append_eq_append_take]
                              have h0 : j - (ename.length + 1) - Cev.length = 0 := by
                                omega
                              rw [h0, List.take_zero, List.append_nil]
                            obtain ⟨e2, hEtr, he2⟩ := hevtr
                              ((Cev ++ Crec).take (j - (ename.length + 1)))
                              (j - (ename.length + 1)) hjc hCsplit
                            rw [hEtr]
                            exact ⟨e2, rfl, he2⟩
                          · have hCsplit : (Cev ++ Crec).take (j - (ename.length + 1))
                                = Cev ++ Crec.take (j - (ename.length + 1)
                                  - Cev.length) := by
                              rw [List.take_append_eq_append_take,
                                List.take_of_length_le (by omega)]
                            obtain ⟨pfe, hEe⟩ := hevext
                              ((Cev ++ Crec).take (j - (ename.length + 1)))
                              (Crec.take (j - (ename.length + 1) - Cev.length))
                              hCsplit
                            rw [hEe]
                            simp only
                            have hj3 : j - (ename.length + 1) - Cev.length
                                < Crec.length := by omega
                            obtain ⟨e2, hEtr, he2⟩ := hrectr
                              (Crec.take (j - (ename.length + 1) - Cev.length))
                              (j - (ename.length + 1) - Cev.length) hj3 rfl
                            rw [hn1, hn2] at hEtr
                            rw [hEtr]
                            exact ⟨e2, rfl, he2⟩
            · rw [hva] at hok; simp at hok
    have PAL : ∀ (elemT : Rtype) (acc : List GoVal)
        (exp act n : Int) (vs : List GoVal) (rest : Bytes)
        (h : rest.length ≤ buf.length),
        readArrayLoop buf elemT acc exp act = .ok (n, vs, ⟨rest, h⟩) →
        ∃ C : Bytes, buf = C ++ rest ∧ n - act ≤ (C.length : Int) ∧
          (∀ bufx tail : Bytes, bufx = C ++ tail →
            ∃ pf : tail.length ≤ bufx.length,
              readArrayLoop bufx elemT acc exp act = .ok (n, vs, ⟨tail, pf⟩)) ∧
          (∀ (bufx : Bytes) (k : Nat), k < C.length → bufx = C.take k →
            ∃ e, readArrayLoop bufx elemT acc exp act = .error e ∧
              e.isTruncation) := by
      intro elemT acc exp act n vs rest h hok
      rw [readArrayLoop] at hok
      rcases het : readEtype buf with e | ⟨et, n1, ⟨buf1, h1⟩⟩
      · rw [het] at hok; simp at hok
      · rw [het] at hok
        simp only at hok
        obtain ⟨hbdec, hn1, hetext⟩ := readEtype_suffix buf et n1 buf1 h1 het
        by_cases hdone : et = kEtypeDone
        · rw [if_pos hdone] at hok
          by_cases hsz : act + n1 ≠ exp
          · rw [if_pos hsz] at hok; simp at hok
          · rw [if_neg hsz] at hok
            push_neg at hsz
            simp only [Except.ok.injEq, Prod.mk.injEq, Subtype.mk.injEq] at hok
            obtain ⟨hn, hvs, hrest⟩ := hok
            subst hrest
            refine ⟨[et], hbdec, by simp; omega, ?_, ?_⟩
            · intro bufx tail hbx
              rw [show ([et] : Bytes) ++ tail = et :: tail from rfl] at hbx
              subst hbx
              refine ⟨by simp, ?_⟩
              have hET := hetext tail
              rw [readArrayLoop, hET]
              simp only
              rw [if_pos hdone, if_neg (by omega : ¬ act + 1 ≠ exp)]
              simp only [Except.ok.injEq, Prod.mk.injEq, Subtype.mk.injEq]
              exact ⟨by omega, hvs, trivial⟩
            · intro bufx k hk hbx
              simp only [List.length_cons, List.length_nil] at hk
              have hk0 : k = 0 := by omega
              subst hk0
              simp only [List.take_zero] at hbx
              subst hbx
              refine ⟨.eof, ?_, trivial⟩
              rw [readArrayLoop]
              rw [show readEtype ([] : Bytes) = .error .eof from rfl]
        · rw [if_neg hdone] at hok
          rcases hnm : readEname buf1 with e | ⟨ename, n2, ⟨buf2, h2⟩⟩
          · rw [hnm] at hok; simp at hok
          · rw [hnm] at hok
            simp only at hok
            obtain ⟨hb1dec, hn2, hnz⟩ := readEname_decomp buf1 ename n2 buf2 h2 hnm
            rcases hva : validateEtypeCanBeDeserializeToRtype et elemT with _ | e2
            · rw [hva] at hok
              simp only at hok
              rcases htt : tmpTargetForArr elemT et with e | ⟨tmpT, tmpInit⟩
              · rw [htt] at hok; simp at hok
              · rw [htt] at hok
                simp only at hok
                rcases hev : readEvalue buf2 tmpT tmpInit et
                    with e | ⟨w, n3, ⟨buf3, h3⟩⟩
                · rw [hev] at hok; simp at hok
                · rw [hev] at hok
                  simp only at hok
                  rcases hrec : readArrayLoop buf3 elemT (acc ++ [w]) exp
                      (act + n1 + n2 + n3) with e | ⟨n4, v4, ⟨r4, hr4⟩⟩
                  · rw [hrec] at hok; simp at hok
                  · rw [hrec] at hok
                    simp only [Except.ok.injEq, Prod.mk.injEq, Subtype.mk.injEq] at hok
                    obtain ⟨hn4, hv4, hr⟩ := hok
                    subst hr
                    obtain ⟨Cev, hevdec, hevle, hevext, hevtr⟩ :=
                      (ih buf2 (by omega)).2.2.2.2.2.2 tmpT tmpInit et w n3 buf3 h3 hev
                    obtain ⟨Crec, hrecdec, hrecle, hrecext, hrectr⟩ :=
                      (ih buf3 (by omega)).2.2.1 elemT (acc ++ [w]) exp
                        (act + n1 + n2 + n3) n4 v4 r4 hr4 hrec
                    refine ⟨et :: (ename ++ 0 :: (Cev ++ Crec)), ?_, ?_, ?_, ?_⟩
                    · rw [hbdec, hb1dec, hevdec, hrecdec]
                      simp [List.append_assoc]
                    · simp only [List.length_cons, List.length_append]
                      push_cast
                      omega
                    · intro bufx tail hbx
                      rw [show (et :: (ename ++ 0 :: (Cev ++ Crec))) ++ tail
                          = et :: (ename ++ 0 :: (Cev ++ (Crec ++ tail))) from by
                        simp [List.append_assoc]] at hbx
                      subst hbx
                      refine ⟨by (simp only [List.length_cons, List.length_append]; omega), ?_⟩
                      have hET := hetext (ename ++ 0 :: (Cev ++ (Crec ++ tail)))
                      rw [readArrayLoop, hET]
                      simp only
                      rw [if_neg hdone]
                      obtain ⟨pfn, hEn⟩ := readEname_build ename
                        (ename ++ 0 :: (Cev ++ (Crec ++ tail)))
                        (Cev ++ (Crec ++ tail)) hnz rfl
                      rw [hEn]
                      simp only
                      rw [hva]
                      simp only
                      rw [htt]
                      simp only
                      obtain ⟨pfe, hEe⟩ := hevext (Cev ++ (Crec ++ tail))
                        (Crec ++ tail) rfl
                      rw [hEe]
                      simp only
                      obtain ⟨pfr, hEr⟩ := hrecext (Crec ++ tail) tail rfl
                      rw [hn1, hn2] at hEr
                      rw [hEr]
                      simp only [Except.ok.injEq, Prod.mk.injEq, Subtype.mk.injEq]
                      exact ⟨hn4, hv4, trivial⟩
                    · intro bufx k hk hbx
                      cases k with
                      | zero =>
                        simp only [List.take_zero] at hbx
                        subst hbx
                        refine ⟨.eof, ?_, trivial⟩
                        rw [readArrayLoop]
                        rw [show readEtype ([] : Bytes) = .error .eof from rfl]
                      | succ j =>
                        rw [List.take_succ_cons] at hbx
                        simp only [List.length_cons] at hk
                        have hDlen : (ename ++ 0 :: (Cev ++ Crec)).length
                            = ename.length + 1 + (Cev.length + Crec.length) := by
                          simp only [List.length_append, List.length_cons]
                          omega
                        by_cases hj1 : j ≤ ename.length
                        · have hDj : (ename ++ 0 :: (Cev ++ Crec)).take j
                              = (ename ++ [0]).take j := by
                            rw [List.take_append_eq_append_take,
                                List.take_append_eq_append_take]
                            have h0 : j - ename.length = 0 := by omega
                            simp [h0]
                          rw [hDj] at hbx
                          subst hbx
                          refine ⟨.eof, ?_, trivial⟩
                          have hET := hetext ((ename ++ [0]).take j)
                          rw [readArrayLoop, hET]
                          simp only
                          rw [if_neg hdone]
                          have hEN := readEname_trunc ename ((ename ++ [0]).take j) j
                            hnz hj1 rfl
                          rw [hEN]
                        · have hsplit2 : (ename ++ 0 :: (Cev ++ Crec)).take j
                              = ename ++ 0 ::
                                ((Cev ++ Crec).take (j - (ename.length + 1))) := by
                            rw [show ename ++ 0 :: (Cev ++ Crec)
                                = (ename ++ [0]) ++ (Cev ++ Crec) from by simp]
                            rw [List.take_append_eq_append_take,
                              List.take_of_length_le
                                (by simp; omega : (ename ++ [0]).length ≤ j)]
                            simp [List.append_assoc]
                          rw [hsplit2] at hbx
                          subst hbx
                          have hET := hetext (ename ++ 0 ::
                            ((Cev ++ Crec).take (j - (ename.length + 1))))
                          rw [readArrayLoop, hET]
                          simp only
                          rw [if_neg hdone]
                          obtain ⟨pfn, hEn⟩ := readEname_build ename
                            (ename ++ 0 ::
                              ((Cev ++ Crec).take (j - (ename.length + 1))))
                            ((Cev ++ Crec).take (j - (ename.length + 1))) hnz rfl
                          rw [hEn]
                          simp only
                          rw [hva]
                          simp only
                          rw [htt]
                          simp only
                          by_cases hjc : j - (ename.length + 1) < Cev.length
                          · have hCsplit : (Cev ++ Crec).take (j - (ename.length + 1))
                                = Cev.take (j - (ename.length + 1)) := by
                              rw [List.take_append_eq_append_take]
                              have h0 : j - (ename.length + 1) - Cev.length = 0 := by
                                omega
                              rw [h0, List.take_zero, List.append_nil]
                            obtain ⟨e2, hEtr, he2⟩ := hevtr
                              ((Cev ++ Crec).take (j - (ename.length + 1)))
                              (j - (ename.length + 1)) hjc hCsplit
                            rw [hEtr]
                            exact ⟨e2, rfl, he2⟩
                          · have hCsplit : (Cev ++ Crec).take (j - (ename.length + 1))
                                = Cev ++ Crec.take (j - (ename.length + 1)
                                  - Cev.length) := by
                              rw [List.take_append_eq_append_take,
                                List.take_of_length_le (by omega)]
                            obtain ⟨pfe, hEe⟩ := hevext
                              ((Cev ++ Crec).take (j - (ename.length + 1)))
                              (Crec.take (j - (ename.length + 1) - Cev.length))
                              hCsplit
                            rw [hEe]
                            simp only
                            have hj3 : j - (ename.length + 1) - Cev.length
                                < Crec.length := by omega
                            obtain ⟨e2, hEtr, he2⟩ := hrectr
                              (Crec.take (j - (ename.length + 1) - Cev.length))
                              (j - (ename.length + 1) - Cev.length) hj3 rfl
                            rw [hn1, hn2] at hEtr
                            rw [hEtr]
                            exact ⟨e2, rfl, he2⟩
            · rw [hva] at hok; simp at hok
    have PS : ∀ (fields : List (Bytes × Rtype)) (cur : List (Bytes × GoVal))
        (n : Int) (flds : List (Bytes × GoVal)) (rest : Bytes)
        (h : rest.length ≤ buf.length),
        readStruct buf fields cur = .ok (n, flds, ⟨rest, h⟩) →
        ∃ C : Bytes, buf = C ++ rest ∧ n ≤ (C.length : Int) ∧
          (∀ bufx tail : Bytes, bufx = C ++ tail →
            ∃ pf : tail.length ≤ bufx.length,
              readStruct bufx fields cur = .ok (n, flds, ⟨tail, pf⟩)) ∧
          (∀ (bufx : Bytes) (k : Nat), k < C.length → bufx = C.take k →
            ∃ e, readStruct bufx fields cur = .error e ∧ e.isTruncation) := by
      intro fields cur n flds rest h hok
      rw [readStruct] at hok
      rcases h32 : readInt32 buf with e | ⟨expSize, n0, ⟨buf1, h1⟩⟩
      · rw [h32] at hok; simp at hok
      · rw [h32] at hok
        simp only at hok
        obtain ⟨hdec32, htl32, hn0, hlo, hhi, hext32, htr32⟩ :=
          readInt32_suffix buf expSize n0 buf1 h1 h32
        rcases hlp : readStructLoop buf1 fields cur expSize n0
            with e | ⟨n4, v4, ⟨r4, hr4⟩⟩
        · rw [hlp] at hok; simp at hok
        · rw [hlp] at hok
          simp only [Except.ok.injEq, Prod.mk.injEq, Subtype.mk.injEq] at hok
          obtain ⟨hn4, hv4, hr⟩ := hok
          subst hr
          obtain ⟨CL, hLdec, hLle, hLext, hLtr⟩ :=
            (ih buf1 (by omega)).1 fields cur expSize n0 n4 v4 r4 hr4 hlp
          refine ⟨buf.take 4 ++ CL, ?_, ?_, ?_, ?_⟩
          · conv_lhs => rw [hdec32, hLdec]
            simp [List.append_assoc]
          · simp only [List.length_append, htl32]
            push_cast
            omega
          · intro bufx tail hbx
            rw [List.append_assoc] at hbx
            subst hbx
            obtain ⟨pf32, hE32⟩ := hext32 (CL ++ tail)
            refine ⟨by (simp only [List.length_append, htl32]; omega), ?_⟩
            rw [readStruct, hE32]
            simp only
            obtain ⟨pfL, hEL⟩ := hLext (CL ++ tail) tail rfl
            rw [hn0] at hEL
            rw [hEL]
            simp only [Except.ok.injEq, Prod.mk.injEq, Subtype.mk.injEq]
            exact ⟨hn4, hv4, trivial⟩
          · intro bufx k hk hbx
            by_cases hk4 : k < 4
            · have hx : bufx = (buf.take 4).take k := by
                rw [hbx, List.take_append_eq_append_take]
                have h0 : k - (buf.take 4).length = 0 := by rw [htl32]; omega
                rw [h0, List.take_zero, List.append_nil]
              refine ⟨.eof, ?_, trivial⟩
              rw [hx, readStruct, htr32 k hk4]
            · have hx : bufx = buf.take 4 ++ CL.take (k - 4) := by
                rw [hbx, List.take_append_eq_append_take,
                  List.take_of_length_le (by omega : (buf.take 4).length ≤ k), htl32]
              obtain ⟨pf32, hE32⟩ := hext32 (CL.take (k - 4))
              have hkk : k - 4 < CL.length := by
                simp only [List.length_append, htl32] at hk
                omega
              obtain ⟨e2, hEtr, he2⟩ := hLtr (CL.take (k - 4)) (k - 4) hkk rfl
              rw [hn0] at hEtr
              refine ⟨e2, ?_, he2⟩
              rw [hx, readStruct, hE32]
              simp only
              rw [hEtr]
    have PM : ∀ (elemT : Rtype) (prior : List (Bytes × GoVal))
        (n : Int) (prs : List (Bytes × GoVal)) (rest : Bytes)
        (h : rest.length ≤ buf.length),
        readMap buf elemT prior = .ok (n, prs, ⟨rest, h⟩) →
        ∃ C : Bytes, buf = C ++ rest ∧ n ≤ (C.length : Int) ∧
          (∀ bufx tail : Bytes, bufx = C ++ tail →
            ∃ pf : tail.length ≤ bufx.length,
              readMap bufx elemT prior = .ok (n, prs, ⟨tail, pf⟩)) ∧
          (∀ (bufx : Bytes) (k : Nat), k < C.length → bufx = C.take k →
            ∃ e, readMap bufx elemT prior = .error e ∧ e.isTruncation) := by
      intro elemT prior n prs rest h hok
      rw [readMap] at hok
      rcases h32 : readInt32 buf with e | ⟨expSize, n0, ⟨buf1, h1⟩⟩
      · rw [h32] at hok; simp at hok
      · rw [h32] at hok
        simp only at hok
        obtain ⟨hdec32, htl32, hn0, hlo, hhi, hext32, htr32⟩ :=
          readInt32_suffix buf expSize n0 buf1 h1 h32
        rcases hlp : readMapLoop buf1 elemT [] expSize n0
            with e | ⟨n4, v4, ⟨r4, hr4⟩⟩
        · rw [hlp] at hok; simp at hok
        · rw [hlp] at hok
          simp only [Except.ok.injEq, Prod.mk.injEq, Subtype.mk.injEq] at hok
          obtain ⟨hn4, hv4, hr⟩ := hok
          subst hr
          obtain ⟨CL, hLdec, hLle, hLext, hLtr⟩ :=
            (ih buf1 (by omega)).2.1 elemT [] expSize n0 n4 v4 r4 hr4 hlp
          refine ⟨buf.take 4 ++ CL, ?_, ?_, ?_, ?_⟩
          · conv_lhs => rw [hdec32, hLdec]
            simp [List.append_assoc]
          · simp only [List.length_append, htl32]
            push_cast
            omega
          · intro bufx tail hbx
            rw [List.append_assoc] at hbx
            subst hbx
            obtain ⟨pf32, hE32⟩ := hext32 (CL ++ tail)
            refine ⟨by (simp only [List.length_append, htl32]; omega), ?_⟩
            rw [readMap, hE32]
            simp only
            obtain ⟨pfL, hEL⟩ := hLext (CL ++ tail) tail rfl
            rw [hn0] at hEL
            rw [hEL]
            simp only [Except.ok.injEq, Prod.mk.injEq, Subtype.mk.injEq]
            exact ⟨hn4, hv4, trivial⟩
          · intro bufx k hk hbx
            by_cases hk4 : k < 4
            · have hx : bufx = (buf.take 4).take k := by
                rw [hbx, List.take_append_eq_append_take]
                have h0 : k - (buf.take 4).length = 0 := by rw [htl32]; omega
                rw [h0, List.take_zero, List.append_nil]
              refine ⟨.eof, ?_, trivial⟩
              rw [hx, readMap, htr32 k hk4]
            · have hx : bufx = buf.take 4 ++ CL.take (k - 4) := by
                rw [hbx, List.take_append_eq_append_take,
                  List.take_of_length_le (by omega : (buf.take 4).length ≤ k), htl32]
              obtain ⟨pf32, hE32⟩ := hext32 (CL.take (k - 4))
              have hkk : k - 4 < CL.length := by
                simp only [List.length_append, htl32] at hk
                omega
              obtain ⟨e2, hEtr, he2⟩ := hLtr (CL.take (k - 4)) (k - 4) hkk rfl
              rw [hn0] at hEtr
              refine ⟨e2, ?_, he2⟩
              rw [hx, readMap, hE32]
              simp only
              rw [hEtr]
    have PA : ∀ (elemT : Rtype) (prior : List GoVal)
        (n : Int) (vs : List GoVal) (rest : Bytes)
        (h : rest.length ≤ buf.length),
        readArray buf elemT prior = .ok (n, vs, ⟨rest, h⟩) →
        ∃ C : Bytes, buf = C ++ rest ∧ n ≤ (C.length : Int) ∧
          (∀ bufx tail : Bytes, bufx = C ++ tail →
            ∃ pf : tail.length ≤ bufx.length,
              readArray bufx elemT prior = .ok (n, vs, ⟨tail, pf⟩)) ∧
          (∀ (bufx : Bytes) (k : Nat), k < C.length → bufx = C.take k →
            ∃ e, readArray bufx elemT prior = .error e ∧ e.isTruncation) := by
      intro elemT prior n vs rest h hok
      rw [readArray] at hok
      rcases h32 : readInt32 buf with e | ⟨expSize, n0, ⟨buf1, h1⟩⟩
      · rw [h32] at hok; simp at hok
      · rw [h32] at hok
        simp only at hok
        obtain ⟨hdec32, htl32, hn0, hlo, hhi, hext32, htr32⟩ :=
          readInt32_suffix buf expSize n0 buf1 h1 h32
        rcases hlp : readArrayLoop buf1 elemT [] expSize n0
            with e | ⟨n4, v4, ⟨r4, hr4⟩⟩
        · rw [hlp] at hok; simp at hok
        · rw [hlp] at hok
          simp only [Except.ok.injEq, Prod.mk.injEq, Subtype.mk.injEq] at hok
          obtain ⟨hn4, hv4, hr⟩ := hok
          subst hr
          obtain ⟨CL, hLdec, hLle, hLext, hLtr⟩ :=
            (ih buf1 (by omega)).2.2.1 elemT [] expSize n0 n4 v4 r4 hr4 hlp
          refine ⟨buf.take 4 ++ CL, ?_, ?_, ?_, ?_⟩
          · conv_lhs => rw [hdec32, hLdec]
            simp [List.append_assoc]
          · simp only [List.length_append, htl32]
            push_cast
            omega
          · intro bufx tail hbx
            rw [List.append_assoc] at hbx
            subst hbx
            obtain ⟨pf32, hE32⟩ := hext32 (CL ++ tail)
            refine ⟨by (simp only [List.length_append, htl32]; omega), ?_⟩
            rw [readArray, hE32]
            simp only
            obtain ⟨pfL, hEL⟩ := hLext (CL ++ tail) tail rfl
            rw [hn0] at hEL
            rw [hEL]
            simp only [Except.ok.injEq, Prod.mk.injEq, Subtype.mk.injEq]
            exact ⟨hn4, hv4, trivial⟩
          · intro bufx k hk hbx
            by_cases hk4 : k < 4
            · have hx : bufx = (buf.take 4).take k := by
                rw [hbx, List.take_append_eq_append_take]
                have h0 : k - (buf.take 4).length = 0 := by rw [htl32]; omega
                rw [h0, List.take_zero, List.append_nil]
              refine ⟨.eof, ?_, trivial⟩
              rw [hx, readArray, htr32 k hk4]
            · have hx : bufx = buf.take 4 ++ CL.take (k - 4) := by
                rw [hbx, List.take_append_eq_append_take,
                  List.take_of_length_le (by omega : (buf.take 4).length ≤ k), htl32]
              obtain ⟨pf32, hE32⟩ := hext32 (CL.take (k - 4))
              have hkk : k - 4 < CL.length := by
                simp only [List.length_append, htl32] at hk
                omega
              obtain ⟨e2, hEtr, he2⟩ := hLtr (CL.take (k - 4)) (k - 4) hkk rfl
              rw [hn0] at hEtr
              refine ⟨e2, ?_, he2⟩
              rw [hx, readArray, hE32]
              simp only
              rw [hEtr]
    have PE : ∀ (target : Rtype) (prior : GoVal) (et : Nat)
        (v : GoVal) (n : Int) (rest : Bytes)
        (h : rest.length ≤ buf.length),
        readEvalue buf target prior et = .ok (v, n, ⟨rest, h⟩) →
        ∃ C : Bytes, buf = C ++ rest ∧ n ≤ (C.length : Int) ∧
          (∀ bufx tail : Bytes, bufx = C ++ tail →
            ∃ pf : tail.length ≤ bufx.length,
              readEvalue bufx target prior et = .ok (v, n, ⟨tail, pf⟩)) ∧
          (∀ (bufx : Bytes) (k : Nat), k < C.length → bufx = C.take k →
            ∃ e, readEvalue bufx target prior et = .error e ∧ e.isTruncation) := by
      intro target prior et v n rest h' hok
      by_cases hdoc : et = kEtypeDocument
      · subst hdoc
        cases target with
        | rStruct fields =>
          rw [readEvalue_doc_struct] at hok
          rcases hS : readStruct buf fields (fieldsOf prior)
              with e | ⟨n1, flds1, ⟨r1, hr1⟩⟩
          · rw [hS] at hok; simp at hok
          · rw [hS] at hok
            simp only [Except.ok.injEq, Prod.mk.injEq, Subtype.mk.injEq] at hok
            obtain ⟨hv, hn, hr⟩ := hok
            subst hr
            obtain ⟨C, hdec, hle, hext, htr⟩ := PS fields (fieldsOf prior)
              n1 flds1 r1 hr1 hS
            refine ⟨C, hdec, by omega, ?_, ?_⟩
            · intro bufx tail hbx
              obtain ⟨pf, hE⟩ := hext bufx tail hbx
              refine ⟨pf, ?_⟩
              rw [readEvalue_doc_struct, hE]
              simp only [Except.ok.injEq, Prod.mk.injEq, Subtype.mk.injEq]
              exact ⟨hv, hn, trivial⟩
            · intro bufx k hk hbx
              obtain ⟨e2, hE, he2⟩ := htr bufx k hk hbx
              exact ⟨e2, by rw [readEvalue_doc_struct, hE], he2⟩
        | rMap elemT =>
          rw [readEvalue_doc_map] at hok
          rcases hS : readMap buf elemT (pairsOf prior)
              with e | ⟨n1, prs1, ⟨r1, hr1⟩⟩
          · rw [hS] at hok; simp at hok
          · rw [hS] at hok
            simp only [Except.ok.injEq, Prod.mk.injEq, Subtype.mk.injEq] at hok
            obtain ⟨hv, hn, hr⟩ := hok
            subst hr
            obtain ⟨C, hdec, hle, hext, htr⟩ := PM elemT (pairsOf prior)
              n1 prs1 r1 hr1 hS
            refine ⟨C, hdec, by omega, ?_, ?_⟩
            · intro bufx tail hbx
              obtain ⟨pf, hE⟩ := hext bufx tail hbx
              refine ⟨pf, ?_⟩
              rw [readEvalue_doc_map, hE]
              simp only [Except.ok.injEq, Prod.mk.injEq, Subtype.mk.injEq]
              exact ⟨hv, hn, trivial⟩
            · intro bufx k hk hbx
              obtain ⟨e2, hE, he2⟩ := htr bufx k hk hbx
              exact ⟨e2, by rw [readEvalue_doc_map, hE], he2⟩
        | rFloat64 => simp [readEvalue] at hok
        | rString => simp [readEvalue] at hok
        | rBytes => simp [readEvalue] at hok
        | rBool => simp [readEvalue] at hok
        | rTime => simp [readEvalue] at hok
        | rInt32 => simp [readEvalue] at hok
        | rInt64 => simp [readEvalue] at hok
        | rInt => simp [readEvalue] at hok
        | rUint8 => simp [readEvalue] at hok
        | rAny => simp [readEvalue] at hok
        | rSlice elemT => simp [readEvalue, kEtypeDocument, kEtypeArray] at hok
      · by_cases harr : et = kEtypeArray
        · subst harr
          cases target with
          | rSlice elemT =>
            rw [readEvalue_arr_slice] at hok
            rcases hS : readArray buf elemT (elemsOf prior)
                with e | ⟨n1, vs1, ⟨r1, hr1⟩⟩
            · rw [hS] at hok; simp at hok
            · rw [hS] at hok
              simp only [Except.ok.injEq, Prod.mk.injEq, Subtype.mk.injEq] at hok
              obtain ⟨hv, hn, hr⟩ := hok
              subst hr
              obtain ⟨C, hdec, hle, hext, htr⟩ := PA elemT (elemsOf prior)
                n1 vs1 r1 hr1 hS
              refine ⟨C, hdec, by omega, ?_, ?_⟩
              · intro bufx tail hbx
                obtain ⟨pf, hE⟩ := hext bufx tail hbx
                refine ⟨pf, ?_⟩
                rw [readEvalue_arr_slice, hE]
                simp only [Except.ok.injEq, Prod.mk.injEq, Subtype.mk.injEq]
                exact ⟨hv, hn, trivial⟩
              · intro bufx k hk hbx
                obtain ⟨e2, hE, he2⟩ := htr bufx k hk hbx
                exact ⟨e2, by rw [readEvalue_arr_slice, hE], he2⟩
          | rBytes =>
            rw [readEvalue_arr_bytes] at hok
            rcases hS : readArray buf .rUint8 []
                with e | ⟨n1, vs1, ⟨r1, hr1⟩⟩
            · rw [hS] at hok; simp at hok
            · rw [hS] at hok
              simp only [Except.ok.injEq, Prod.mk.injEq, Subtype.mk.injEq] at hok
              obtain ⟨hv, hn, hr⟩ := hok
              subst hr
              obtain ⟨C, hdec, hle, hext, htr⟩ := PA .rUint8 []
                n1 vs1 r1 hr1 hS
              refine ⟨C, hdec, by omega, ?_, ?_⟩
              · intro bufx tail hbx
                obtain ⟨pf, hE⟩ := hext bufx tail hbx
                refine ⟨pf, ?_⟩
                rw [readEvalue_arr_bytes, hE]
                simp only [Except.ok.injEq, Prod.mk.injEq, Subtype.mk.injEq]
                exact ⟨hv, hn, trivial⟩
              · intro bufx k hk hbx
                obtain ⟨e2, hE, he2⟩ := htr bufx k hk hbx
                exact ⟨e2, by rw [readEvalue_arr_bytes, hE], he2⟩
          | rFloat64 => simp [readEvalue, kEtypeDocument, kEtypeArray] at hok
          | rString => simp [readEvalue, kEtypeDocument, kEtypeArray] at hok
          | rBool => simp [readEvalue, kEtypeDocument, kEtypeArray] at hok
          | rTime => simp [readEvalue, kEtypeDocument, kEtypeArray] at hok
          | rInt32 => simp [readEvalue, kEtypeDocument, kEtypeArray] at hok
          | rInt64 => simp [readEvalue, kEtypeDocument, kEtypeArray] at hok
          | rInt => simp [readEvalue, kEtypeDocument, kEtypeArray] at hok
          | rUint8 => simp [readEvalue, kEtypeDocument, kEtypeArray] at hok
          | rAny => simp [readEvalue, kEtypeDocument, kEtypeArray] at hok
          | rStruct fields => simp [readEvalue, kEtypeDocument, kEtypeArray] at hok
          | rMap elemT => simp [readEvalue, kEtypeDocument, kEtypeArray] at hok
        · have hsc : ∀ bufz : Bytes,
              readEvalue bufz target prior et = readEvalueScalar bufz target et := by
            intro bufz
            rw [readEvalue.eq_def, if_neg hdoc, if_neg harr]
          rw [hsc] at hok
          obtain ⟨C, hdec, hle, hext, htr⟩ :=
            readEvalueScalar_suffix buf target et v n rest h' hok
          refine ⟨C, hdec, hle, ?_, ?_⟩
          · intro bufx tail hbx
            obtain ⟨pf, hE⟩ := hext bufx tail hbx
            exact ⟨pf, by rw [hsc, hE]⟩
          · intro bufx k hk hbx
            obtain ⟨e2, hE, he2⟩ := htr bufx k hk hbx
            exact ⟨e2, by rw [hsc, hE], he2⟩
    exact ⟨PSL, PML, PAL, PS, PM, PA, PE⟩


/-- C4: top-level exact consumption.  For every input `B` that `Unmarshal`
accepts (into any target, with any prior value): appending any byte makes
it fail with the not-all-consumed (TrailingBytes) error, and dropping the
last byte makes it fail with a truncation-class error (`eof` or
`shortRead`, the io.EOF / short-read failures that realize
TruncatedInput).  Decode succeeds only when the single top-level document
consumes the input exactly — the final `numread ≠ len(marshalled)` check
enforces it. -/
theorem C4_exact_consumption :
    ∀ (B : Bytes) (target : Rtype) (prior : GoVal) (v : GoVal),
      Unmarshal B target prior = .ok v →
      (∀ x : Nat, Unmarshal (B ++ [x]) target prior = .error .notAllConsumed) ∧
      (∃ e, Unmarshal B.dropLast target prior = .error e ∧ e.isTruncation) := by
  intro B target prior v hok
  cases target with
  | rStruct fields =>
    simp only [Unmarshal] at hok
    rcases hS : readStruct B fields (fieldsOf prior) with e | ⟨numread, flds, ⟨r1, hr1⟩⟩
    · rw [hS] at hok; simp at hok
    · rw [hS] at hok
      simp only at hok
      by_cases hcons : numread ≠ (B.length : Int)
      · rw [if_pos hcons] at hok; simp at hok
      · rw [if_neg hcons] at hok
        push_neg at hcons
        obtain ⟨C, hdec, hle, hext, htr⟩ :=
          (parser_suffix (B.length + 1) B (by omega)).2.2.2.1 fields
            (fieldsOf prior) numread flds r1 hr1 hS
        have hBlen : B.length = C.length + r1.length := by rw [hdec]; simp
        have hr0 : r1 = [] := by
          refine List.eq_nil_of_length_eq_zero ?_
          omega
        subst hr0
        have hBC : B = C := by simpa using hdec
        have hB4 : 4 ≤ B.length := by
          have hS2 := hS
          rw [readStruct] at hS2
          rcases h32 : readInt32 B with e | ⟨es, n0, ⟨b1, hb1⟩⟩
          · rw [h32] at hS2; simp at hS2
          · rw [readInt32] at h32
            split at h32
            · exact absurd h32 (by simp)
            · next hlen2 => omega
        constructor
        · intro x
          obtain ⟨pf, hE⟩ := hext (B ++ [x]) [x] (by rw [hBC])
          simp only [Unmarshal]
          rw [hE]
          simp only
          rw [if_pos (by simp; omega : ¬ numread = ((B ++ [x]).length : Int))]
        · obtain ⟨e, hE, he⟩ := htr B.dropLast (B.length - 1)
            (by omega) (by rw [← hBC]; exact List.dropLast_eq_take B)
          refine ⟨e, ?_, he⟩
          simp only [Unmarshal]
          rw [hE]
  | rMap elemT =>
    simp only [Unmarshal] at hok
    rcases hS : readMap B elemT (pairsOf prior) with e | ⟨numread, prs, ⟨r1, hr1⟩⟩
    · rw [hS] at hok; simp at hok
    · rw [hS] at hok
      simp only at hok
      by_cases hcons : numread ≠ (B.length : Int)
      · rw [if_pos hcons] at hok; simp at hok
      · rw [if_neg hcons] at hok
        push_neg at hcons
        obtain ⟨C, hdec, hle, hext, htr⟩ :=
          (parser_suffix (B.length + 1) B (by omega)).2.2.2.2.1 elemT
            (pairsOf prior) numread prs r1 hr1 hS
        have hBlen : B.length = C.length + r1.length := by rw [hdec]; simp
        have hr0 : r1 = [] := by
          refine List.eq_nil_of_length_eq_zero ?_
          omega
        subst hr0
        have hBC : B = C := by simpa using hdec
        have hB4 : 4 ≤ B.length := by
          have hS2 := hS
          rw [readMap] at hS2
          rcases h32 : readInt32 B with e | ⟨es, n0, ⟨b1, hb1⟩⟩
          · rw [h32] at hS2; simp at hS2
          · rw [readInt32] at h32
            split at h32
            · exact absurd h32 (by simp)
            · next hlen2 => omega
        constructor
        · intro x
          obtain ⟨pf, hE⟩ := hext (B ++ [x]) [x] (by rw [hBC])
          simp only [Unmarshal]
          rw [hE]
          simp only
          rw [if_pos (by simp; omega : ¬ numread = ((B ++ [x]).length : Int))]
        · obtain ⟨e, hE, he⟩ := htr B.dropLast (B.length - 1)
            (by omega) (by rw [← hBC]; exact List.dropLast_eq_take B)
          refine ⟨e, ?_, he⟩
          simp only [Unmarshal]
          rw [hE]
  | rFloat64 => simp [Unmarshal] at hok
  | rString => simp [Unmarshal] at hok
  | rBytes => simp [Unmarshal] at hok
  | rBool => simp [Unmarshal] at hok
  | rTime => simp [Unmarshal] at hok
  | rInt32 => simp [Unmarshal] at hok
  | rInt64 => simp [Unmarshal] at hok
  | rInt => simp [Unmarshal] at hok
  | rUint8 => simp [Unmarshal] at hok
  | rAny => simp [Unmarshal] at hok
  | rSlice elemT => simp [Unmarshal] at hok

/-- Witness for C4 on the empty document `{}` into `map[string]any`. -/
theorem C4_exact_consumption_witness :
    Unmarshal [5, 0, 0, 0, 0] (.rMap .rAny) (.vDoc []) = .ok (.vDoc []) ∧
    Unmarshal [5, 0, 0, 0, 0, 7] (.rMap .rAny) (.vDoc []) = .error .notAllConsumed ∧
    (∃ e, Unmarshal [5, 0, 0, 0] (.rMap .rAny) (.vDoc []) = .error e ∧
      e.isTruncation) := by
  have hok : Unmarshal [5, 0, 0, 0, 0] (.rMap .rAny) (.vDoc []) = .ok (.vDoc []) := by
    simp [Unmarshal, readMap, readMapLoop, readInt32, readEtype, readByte,
      int32OfLe, leNat, wrap32, pairsOf, kEtypeDone]
  have hmain := C4_exact_consumption [5, 0, 0, 0, 0] (.rMap .rAny) (.vDoc [])
    (.vDoc []) hok
  refine ⟨hok, ?_, ?_⟩
  · have := hmain.1 7
    simpa using this
  · have := hmain.2
    simpa using this


/-- C7 counterexample: the same well-formed wire element (an int32 `X: 5`)
decodes fine into a dynamic MAP VALUE, but decoding it into a dynamic
(`any`-typed) STRUCT FIELD crashes: the struct path passes the field's
`*any` pointer to the scalar readers, whose `ptr_any.(*int32)` type
assertion panics. -/
theorem C7_counterexample_struct_any_field :
    Unmarshal [12, 0, 0, 0, 16, 88, 0, 5, 0, 0, 0, 0]
      (.rStruct [([88], .rAny)]) (.vStruct [([88], .vNilIface)]) = .error .crash ∧
    Unmarshal [12, 0, 0, 0, 16, 88, 0, 5, 0, 0, 0, 0] (.rMap .rAny) (.vDoc []) =
      .ok (.vDoc [([88], .vInt32 5)]) := by
  constructor <;>
    simp [Unmarshal, readStruct, readStructLoop, readMap, readMapLoop, readEtype,
          readByte, readEname, readInt32, readEvalue, readEvalueScalar,
          validateEtypeCanBeDeserializeToRtype, tmpTargetForMap, fieldsOf, pairsOf,
          lookupR, lookupV, setKey, zeroVal,
          Rtype.isAny, Rtype.isInt, Rtype.isInt32,
          int32OfLe, wrap32, leNat, List.take,
          kEtypeDone, kEtypeDouble, kEtypeString, kEtypeBinary, kEtypeBoolean,
          kEtypeUtcDatetime, kEtypeInt32, kEtypeInt64, kEtypeDocument, kEtypeArray]

/-- C7 amended: dynamic targets accept every supported wire tag at MAP
VALUE and SEQUENCE ELEMENT positions — validation passes and the `tmpptr`
dispatch produces a concrete temporary for each tag — and a binary
element decoded into a dynamic map value indeed yields a byte sequence;
but a dynamic STRUCT FIELD never decodes: for every supported tag the
field read returns a crash (failed type assertion) or an error, whatever
the payload. -/
theorem C7_dynamic_targets :
    (∀ et : Nat, et = kEtypeDouble ∨ et = kEtypeString ∨ et = kEtypeBinary ∨
        et = kEtypeBoolean ∨ et = kEtypeUtcDatetime ∨ et = kEtypeInt32 ∨
        et = kEtypeInt64 ∨ et = kEtypeDocument ∨ et = kEtypeArray →
      validateEtypeCanBeDeserializeToRtype et .rAny = none ∧
      (∃ p, tmpTargetForMap .rAny et = .ok p) ∧
      (∃ p, tmpTargetForArr .rAny et = .ok p) ∧
      (∀ (buf : Bytes) (prior : GoVal),
        ∃ e, readEvalue buf .rAny prior et = .error e)) ∧
    Unmarshal [14, 0, 0, 0, 5, 65, 0, 1, 0, 0, 0, 0, 7, 0] (.rMap .rAny) (.vDoc [])
      = .ok (.vDoc [([65], .vBinary [7])]) := by
  constructor
  · intro et h
    rcases h with h | h | h | h | h | h | h | h | h <;> subst h
    · exact ⟨rfl, ⟨_, rfl⟩, ⟨_, rfl⟩, fun buf prior =>
        ⟨.crash, by rw [readEvalue.eq_def, if_neg (by decide), if_neg (by decide)]; rfl⟩⟩
    · exact ⟨rfl, ⟨_, rfl⟩, ⟨_, rfl⟩, fun buf prior =>
        ⟨.crash, by rw [readEvalue.eq_def, if_neg (by decide), if_neg (by decide)]; rfl⟩⟩
    · exact ⟨rfl, ⟨_, rfl⟩, ⟨_, rfl⟩, fun buf prior =>
        ⟨.crash, by rw [readEvalue.eq_def, if_neg (by decide), if_neg (by decide)]; rfl⟩⟩
    · exact ⟨rfl, ⟨_, rfl⟩, ⟨_, rfl⟩, fun buf prior =>
        ⟨.crash, by rw [readEvalue.eq_def, if_neg (by decide), if_neg (by decide)]; rfl⟩⟩
    · exact ⟨rfl, ⟨_, rfl⟩, ⟨_, rfl⟩, fun buf prior =>
        ⟨.crash, by rw [readEvalue.eq_def, if_neg (by decide), if_neg (by decide)]; rfl⟩⟩
    · exact ⟨rfl, ⟨_, rfl⟩, ⟨_, rfl⟩, fun buf prior =>
        ⟨.crash, by rw [readEvalue.eq_def, if_neg (by decide), if_neg (by decide)]; rfl⟩⟩
    · exact ⟨rfl, ⟨_, rfl⟩, ⟨_, rfl⟩, fun buf prior =>
        ⟨.cannotDeser, by rw [readEvalue.eq_def, if_neg (by decide),
          if_neg (by decide)]; rfl⟩⟩
    · exact ⟨rfl, ⟨_, rfl⟩, ⟨_, rfl⟩, fun buf prior =>
        ⟨.cannotDeser, by rw [readEvalue.eq_def, if_pos rfl]⟩⟩
    · exact ⟨rfl, ⟨_, rfl⟩, ⟨_, rfl⟩, fun buf prior =>
        ⟨.crash, by rw [readEvalue.eq_def, if_neg (by decide), if_pos rfl]⟩⟩
  · simp [Unmarshal, readMap, readMapLoop, readEtype, readByte, readEname,
          readInt32, readEvalue, readEvalueScalar, readEbinary, bufferRead,
          validateEtypeCanBeDeserializeToRtype, tmpTargetForMap, pairsOf, setKey,
          Rtype.isAny, Rtype.isInt, Rtype.isBytesType,
          int32OfLe, wrap32, leNat, List.take,
          kEtypeDone, kEtypeDouble, kEtypeString, kEtypeBinary, kEtypeBoolean,
          kEtypeUtcDatetime, kEtypeInt32, kEtypeInt64, kEtypeDocument, kEtypeArray]

/-- Witness for the amended C7 theorem at the binary tag. -/
theorem C7_dynamic_targets_witness :
    validateEtypeCanBeDeserializeToRtype kEtypeBinary .rAny = none ∧
    (∃ p, tmpTargetForMap .rAny kEtypeBinary = .ok p) ∧
    (∃ p, tmpTargetForArr .rAny kEtypeBinary = .ok p) ∧
    (∀ (buf : Bytes) (prior : GoVal),
      ∃ e, readEvalue buf .rAny prior kEtypeBinary = .error e) :=
  C7_dynamic_targets.1 kEtypeBinary (Or.inr (Or.inr (Or.inl rfl)))


/-! ## C1: the concrete array round-trip (11 elements).

The encoder turns a slice into a document keyed "0", "1", ..., "10" and
`appendMap` sorts those keys byte-wise, so the wire order is
"0", "1", "10", "2", ..., "9"; the decoder's `readArray` consumes the
element names but ignores them and appends positionally, so the decoded
slice is a permutation of the original whenever the slice has at least 11
elements.  The step lemmas below evaluate the array element loop one wire
element at a time. -/

theorem c1ArrStep11 (acc : List GoVal) :
    readArrayLoop [0, 0] .rBool acc 50 49 =
      .ok (50, acc, ⟨[0], by simp⟩) := by
  simp [readArrayLoop, readEtype, readByte, kEtypeDone]

theorem c1ArrStep10 (acc : List GoVal) :
    readArrayLoop [8, 57, 0, 0, 0, 0] .rBool acc 50 45 =
      .ok (50, acc ++ [.vBool false], ⟨[0], by simp⟩) := by
  rw [readArrayLoop]
  simp [readEtype, readByte, readEname, validateEtypeCanBeDeserializeToRtype,
        tmpTargetForArr, readEvalue, readEvalueScalar, readBoolean, Rtype.isAny,
        Rtype.isBool, c1ArrStep11,
        kEtypeDone, kEtypeDouble, kEtypeString, kEtypeBinary, kEtypeBoolean,
        kEtypeUtcDatetime, kEtypeInt32, kEtypeInt64, kEtypeDocument, kEtypeArray]

theorem c1ArrStep9 (acc : List GoVal) :
    readArrayLoop [8, 56, 0, 0, 8, 57, 0, 0, 0, 0] .rBool acc 50 41 =
      .ok (50, acc ++ [.vBool false, .vBool false], ⟨[0], by simp⟩) := by
  rw [readArrayLoop]
  simp [readEtype, readByte, readEname, validateEtypeCanBeDeserializeToRtype,
        tmpTargetForArr, readEvalue, readEvalueScalar, readBoolean, Rtype.isAny,
        Rtype.isBool, c1ArrStep10,
        kEtypeDone, kEtypeDouble, kEtypeString, kEtypeBinary, kEtypeBoolean,
        kEtypeUtcDatetime, kEtypeInt32, kEtypeInt64, kEtypeDocument, kEtypeArray]

theorem c1ArrStep8 (acc : List GoVal) :
    readArrayLoop [8, 55, 0, 0, 8, 56, 0, 0, 8, 57, 0, 0, 0, 0] .rBool acc 50 37 =
      .ok (50, acc ++ [.vBool false, .vBool false, .vBool false], ⟨[0], by simp⟩) := by
  rw [readArrayLoop]
  simp [readEtype, readByte, readEname, validateEtypeCanBeDeserializeToRtype,
        tmpTargetForArr, readEvalue, readEvalueScalar, readBoolean, Rtype.isAny,
        Rtype.isBool, c1ArrStep9,
        kEtypeDone, kEtypeDouble, kEtypeString, kEtypeBinary, kEtypeBoolean,
        kEtypeUtcDatetime, kEtypeInt32, kEtypeInt64, kEtypeDocument, kEtypeArray]

theorem c1ArrStep7 (acc : List GoVal) :
    readArrayLoop [8, 54, 0, 0, 8, 55, 0, 0, 8, 56, 0, 0, 8, 57, 0, 0, 0, 0] .rBool acc 50 33 =
      .ok (50, acc ++ [.vBool false, .vBool false, .vBool false, .vBool false], ⟨[0], by simp⟩) := by
  rw [readArrayLoop]
  simp [readEtype, readByte, readEname, validateEtypeCanBeDeserializeToRtype,
        tmpTargetForArr, readEvalue, readEvalueScalar, readBoolean, Rtype.isAny,
        Rtype.isBool, c1ArrStep8,
        kEtypeDone, kEtypeDouble, kEtypeString, kEtypeBinary, kEtypeBoolean,
        kEtypeUtcDatetime, kEtypeInt32, kEtypeInt64, kEtypeDocument, kEtypeArray]

theorem c1ArrStep6 (acc : List GoVal) :
    readArrayLoop [8, 53, 0, 0, 8, 54, 0, 0, 8, 55, 0, 0, 8, 56, 0, 0, 8, 57, 0, 0, 0, 0] .rBool acc 50 29 =
      .ok (50, acc ++ [.vBool false, .vBool false, .vBool false, .vBool false, .vBool false], ⟨[0], by simp⟩) := by
  rw [readArrayLoop]
  simp [readEtype, readByte, readEname, validateEtypeCanBeDeserializeToRtype,
        tmpTargetForArr, readEvalue, readEvalueScalar, readBoolean, Rtype.isAny,
        Rtype.isBool, c1ArrStep7,
        kEtypeDone, kEtypeDouble, kEtypeString, kEtypeBinary, kEtypeBoolean,
        kEtypeUtcDatetime, kEtypeInt32, kEtypeInt64, kEtypeDocument, kEtypeArray]

theorem c1ArrStep5 (acc : List GoVal) :
    readArrayLoop [8, 52, 0, 0, 8, 53, 0, 0, 8, 54, 0, 0, 8, 55, 0, 0, 8, 56, 0, 0, 8, 57, 0, 0, 0, 0] .rBool acc 50 25 =
      .ok (50, acc ++ [.vBool false, .vBool false, .vBool false, .vBool false, .vBool false, .vBool false], ⟨[0], by simp⟩) := by
  rw [readArrayLoop]
  simp [readEtype, readByte, readEname, validateEtypeCanBeDeserializeToRtype,
        tmpTargetForArr, readEvalue, readEvalueScalar, readBoolean, Rtype.isAny,
        Rtype.isBool, c1ArrStep6,
        kEtypeDone, kEtypeDouble, kEtypeString, kEtypeBinary, kEtypeBoolean,
        kEtypeUtcDatetime, kEtypeInt32, kEtypeInt64, kEtypeDocument, kEtypeArray]

theorem c1ArrStep4 (acc : List GoVal) :
    readArrayLoop [8, 51, 0, 0, 8, 52, 0, 0, 8, 53, 0, 0, 8, 54, 0, 0, 8, 55, 0, 0, 8, 56, 0, 0, 8, 57, 0, 0, 0, 0] .rBool acc 50 21 =
      .ok (50, acc ++ [.vBool false, .vBool false, .vBool false, .vBool false, .vBool false, .vBool false, .vBool false], ⟨[0], by simp⟩) := by
  rw [readArrayLoop]
  simp [readEtype, readByte, readEname, validateEtypeCanBeDeserializeToRtype,
        tmpTargetForArr, readEvalue, readEvalueScalar, readBoolean, Rtype.isAny,
        Rtype.isBool, c1ArrStep5,
        kEtypeDone, kEtypeDouble, kEtypeString, kEtypeBinary, kEtypeBoolean,
        kEtypeUtcDatetime, kEtypeInt32, kEtypeInt64, kEtypeDocument, kEtypeArray]

theorem c1ArrStep3 (acc : List GoVal) :
    readArrayLoop [8, 50, 0, 0, 8, 51, 0, 0, 8, 52, 0, 0, 8, 53, 0, 0, 8, 54, 0, 0, 8, 55, 0, 0, 8, 56, 0, 0, 8, 57, 0, 0, 0, 0] .rBool acc 50 17 =
      .ok (50, acc ++ [.vBool false, .vBool false, .vBool false, .vBool false, .vBool false, .vBool false, .vBool false, .vBool false], ⟨[0], by simp⟩) := by
  rw [readArrayLoop]
  simp [readEtype, readByte, readEname, validateEtypeCanBeDeserializeToRtype,
        tmpTargetForArr, readEvalue, readEvalueScalar, readBoolean, Rtype.isAny,
        Rtype.isBool, c1ArrStep4,
        kEtypeDone, kEtypeDouble, kEtypeString, kEtypeBinary, kEtypeBoolean,
        kEtypeUtcDatetime, kEtypeInt32, kEtypeInt64, kEtypeDocument, kEtypeArray]

theorem c1ArrStep2 (acc : List GoVal) :
    readArrayLoop [8, 49, 48, 0, 1, 8, 50, 0, 0, 8, 51, 0, 0, 8, 52, 0, 0, 8, 53, 0, 0, 8, 54, 0, 0, 8, 55, 0, 0, 8, 56, 0, 0, 8, 57, 0, 0, 0, 0] .rBool acc 50 12 =
      .ok (50, acc ++ [.vBool true, .vBool false, .vBool false, .vBool false, .vBool false, .vBool false, .vBool false, .vBool false, .vBool false], ⟨[0], by simp⟩) := by
  rw [readArrayLoop]
  simp [readEtype, readByte, readEname, validateEtypeCanBeDeserializeToRtype,
        tmpTargetForArr, readEvalue, readEvalueScalar, readBoolean, Rtype.isAny,
        Rtype.isBool, c1ArrStep3,
        kEtypeDone, kEtypeDouble, kEtypeString, kEtypeBinary, kEtypeBoolean,
        kEtypeUtcDatetime, kEtypeInt32, kEtypeInt64, kEtypeDocument, kEtypeArray]

theorem c1ArrStep1 (acc : List GoVal) :
    readArrayLoop [8, 49, 0, 0, 8, 49, 48, 0, 1, 8, 50, 0, 0, 8, 51, 0, 0, 8, 52, 0, 0, 8, 53, 0, 0, 8, 54, 0, 0, 8, 55, 0, 0, 8, 56, 0, 0, 8, 57, 0, 0, 0, 0] .rBool acc 50 8 =
      .ok (50, acc ++ [.vBool false, .vBool true, .vBool false, .vBool false, .vBool false, .vBool false, .vBool false, .vBool false, .vBool false, .vBool false], ⟨[0], by simp⟩) := by
  rw [readArrayLoop]
  simp [readEtype, readByte, readEname, validateEtypeCanBeDeserializeToRtype,
        tmpTargetForArr, readEvalue, readEvalueScalar, readBoolean, Rtype.isAny,
        Rtype.isBool, c1ArrStep2,
        kEtypeDone, kEtypeDouble, kEtypeString, kEtypeBinary, kEtypeBoolean,
        kEtypeUtcDatetime, kEtypeInt32, kEtypeInt64, kEtypeDocument, kEtypeArray]

theorem c1ArrStep0 (acc : List GoVal) :
    readArrayLoop [8, 48, 0, 0, 8, 49, 0, 0, 8, 49, 48, 0, 1, 8, 50, 0, 0, 8, 51, 0, 0, 8, 52, 0, 0, 8, 53, 0, 0, 8, 54, 0, 0, 8, 55, 0, 0, 8, 56, 0, 0, 8, 57, 0, 0, 0, 0] .rBool acc 50 4 =
      .ok (50, acc ++ [.vBool false, .vBool false, .vBool true, .vBool false, .vBool false, .vBool false, .vBool false, .vBool false, .vBool false, .vBool false, .vBool false], ⟨[0], by simp⟩) := by
  rw [readArrayLoop]
  simp [readEtype, readByte, readEname, validateEtypeCanBeDeserializeToRtype,
        tmpTargetForArr, readEvalue, readEvalueScalar, readBoolean, Rtype.isAny,
        Rtype.isBool, c1ArrStep1,
        kEtypeDone, kEtypeDouble, kEtypeString, kEtypeBinary, kEtypeBoolean,
        kEtypeUtcDatetime, kEtypeInt32, kEtypeInt64, kEtypeDocument, kEtypeArray]

theorem c1ArrFull :
    readArray [50, 0, 0, 0, 8, 48, 0, 0, 8, 49, 0, 0, 8, 49, 48, 0, 1, 8, 50, 0, 0, 8, 51, 0, 0, 8, 52, 0, 0, 8, 53, 0, 0, 8, 54, 0, 0, 8, 55, 0, 0, 8, 56, 0, 0, 8, 57, 0, 0, 0, 0] .rBool [] =
      .ok (50, [.vBool false, .vBool false, .vBool true, .vBool false, .vBool false, .vBool false, .vBool false, .vBool false, .vBool false, .vBool false, .vBool false], ⟨[0], by simp⟩) := by
  rw [readArray]
  simp [readInt32, int32OfLe, wrap32, leNat, List.take, c1ArrStep0]

/-- C1: the round-trip claim fails.  The document
`{"A": [false ×10, true]}` (an 11-element slice) marshals successfully,
but unmarshalling the produced bytes into the same shape
(`map[string][]bool`) succeeds with a DIFFERENT value: the element at
index 10 comes back at index 2, because the encoder writes the invented
index keys in byte-wise sorted order ("0", "1", "10", "2", ..., "9") and
the decoder appends elements positionally, ignoring the names. -/
theorem C1_roundtrip_scrambles_long_arrays :
    Marshal (.vDoc [([65], .vArr [.vBool false, .vBool false, .vBool false, .vBool false, .vBool false, .vBool false, .vBool false, .vBool false, .vBool false, .vBool false, .vBool true])]) =
      .ok [58, 0, 0, 0, 4, 65, 0, 50, 0, 0, 0, 8, 48, 0, 0, 8, 49, 0, 0, 8, 49, 48, 0, 1, 8, 50, 0, 0, 8, 51, 0, 0, 8, 52, 0, 0, 8, 53, 0, 0, 8, 54, 0, 0, 8, 55, 0, 0, 8, 56, 0, 0, 8, 57, 0, 0, 0, 0] ∧
    Unmarshal [58, 0, 0, 0, 4, 65, 0, 50, 0, 0, 0, 8, 48, 0, 0, 8, 49, 0, 0, 8, 49, 48, 0, 1, 8, 50, 0, 0, 8, 51, 0, 0, 8, 52, 0, 0, 8, 53, 0, 0, 8, 54, 0, 0, 8, 55, 0, 0, 8, 56, 0, 0, 8, 57, 0, 0, 0, 0]
      (.rMap (.rSlice .rBool)) (.vDoc []) =
      .ok (.vDoc [([65], .vArr [.vBool false, .vBool false, .vBool true, .vBool false, .vBool false, .vBool false, .vBool false, .vBool false, .vBool false, .vBool false, .vBool false])]) ∧
    GoVal.vDoc [([65], .vArr [.vBool false, .vBool false, .vBool true, .vBool false, .vBool false, .vBool false, .vBool false, .vBool false, .vBool false, .vBool false, .vBool false])] ≠
      GoVal.vDoc [([65], .vArr [.vBool false, .vBool false, .vBool false, .vBool false, .vBool false, .vBool false, .vBool false, .vBool false, .vBool false, .vBool false, .vBool true])] := by
  refine ⟨?_, ?_, by simp⟩
  · rw [Marshal_vDoc]
    simp [encDoc, encElems, encAny, sortPairsS, sortPairs, List.insertionSort,
          List.orderedInsert, keyLe, bytesLe, convertSliceToPairs, decKey,
          validateEname, getEtype, le32, maxInt32,
          kEtypeDone, kEtypeBoolean, kEtypeArray, kNullTerminator, kEtypeDocument]
  · simp [Unmarshal, readMap, readMapLoop, readEtype, readByte, readEname,
          readInt32, readEvalue, validateEtypeCanBeDeserializeToRtype,
          tmpTargetForMap, Rtype.isAny, Rtype.isSliceKind, pairsOf, elemsOf,
          setKey, c1ArrFull, int32OfLe, wrap32, leNat, List.take,
          kEtypeDone, kEtypeDouble, kEtypeString, kEtypeBinary, kEtypeBoolean,
          kEtypeUtcDatetime, kEtypeInt32, kEtypeInt64, kEtypeDocument, kEtypeArray]

end Ezbson
